import Mathlib

/-! Price-ordered skip list of the mempool (`plugin/mempool/price/skip_list.go`).

A shallow embedding of the skip list and a verification of its specification.

Pointers are node addresses (`Nat`) into an explicit heap `nodes`; a nil pointer
is `none`.  Every operation returns an `Option`: `none` stands for a run that
does not return normally (an index out of range, a nil dereference, or a loop
that exhausts its fuel, i.e. would not terminate on a cyclic heap).
-/

namespace price


/-! ## Data model -/

/-- Constant `maxLevel` (skip_list.go:10). -/
def maxLevel : Nat := 32

/-- The part of `mempool.Item` that the list reads: the arrival time `EnterTime`;
`Tx` stands for the transaction reference the list never inspects. -/
structure Item where
  EnterTime : Int
  Tx : Nat
deriving DecidableEq, Repr

/-- Struct `SkipValue` (skip_list.go:14-17); `Value` always holds a `*mempool.Item`. -/
structure SkipValue where
  Price : Int
  Value : Item
deriving DecidableEq, Repr

/-- Method `SkipValue.Compare` (skip_list.go:20-30). -/
def SkipValue.Compare (v value : SkipValue) : Int :=
  if v.Price > value.Price then -1
  else if v.Price = value.Price then
    if v.Value.EnterTime < value.Value.EnterTime then -1
    else 0
  else 1

/-- Struct `skipListNode` (skip_list.go:32-36): `next` has one slot per level of the node. -/
structure skipListNode where
  next : List (Option Nat)
  prev : Option Nat
  Value : SkipValue

/-- Struct `SkipList` (skip_list.go:38-43) together with the heap it points into:
`nodes` maps an address to the node stored there and `nalloc` is the number of
addresses handed out so far (the next fresh address).  The counters are Go `int`s;
they are only incremented and decremented by one per node or per search step, so they
stay far from the 64-bit bounds and are modelled without wrap-around. -/
structure SkipList where
  nodes : Nat → skipListNode
  nalloc : Nat
  header : Nat
  tail : Option Nat
  findcount : Int
  count : Int
  level : Nat

/-- Function `newskipListNode` (skip_list.go:84-89): a node with `level` nil links. -/
def newskipListNode (level : Nat) (value : SkipValue) : skipListNode :=
  { next := List.replicate level none, prev := none, Value := value }

/-- Function `NewSkipList` (skip_list.go:92-97); the header is allocated at address 0. -/
def NewSkipList (min : SkipValue) : SkipList :=
  { nodes := fun _ => newskipListNode maxLevel min
    nalloc := 1
    header := 0
    tail := none
    findcount := 0
    count := 0
    level := 1 }

/-- Loop of `randomLevel` (skip_list.go:102-107): `draws k` is the k-th value returned by
`rand.Int()`, `int(prob * 0xFFFF)` is 22937 and `& 0xFFFF` is the remainder modulo 65536. -/
def randomLevelLoop (draws : Nat → Nat) : Nat → Nat → Nat → Nat
  | 0, _, level => level
  | fuel + 1, k, level =>
    if draws k % 65536 < 22937 then
      if level + 1 = maxLevel then level + 1
      else randomLevelLoop draws fuel (k + 1) (level + 1)
    else level

/-- Function `randomLevel` (skip_list.go:99-109). -/
def randomLevel (draws : Nat → Nat) : Nat :=
  randomLevelLoop draws maxLevel 0 1

/-- Method `SkipList.Len` (skip_list.go:120-122). -/
def SkipList.Len (sl : SkipList) : Int := sl.count

/-- Store `v` into `x.next[i]`; `none` when `i` is out of range. -/
def setNext (nodes : Nat → skipListNode) (x i : Nat) (v : Option Nat) :
    Option (Nat → skipListNode) :=
  if i < (nodes x).next.length then
    some (Function.update nodes x { nodes x with next := (nodes x).next.set i v })
  else none

/-- Store `v` into `x.prev`. -/
def setPrev (nodes : Nat → skipListNode) (x : Nat) (v : Option Nat) : Nat → skipListNode :=
  Function.update nodes x { nodes x with prev := v }

/-! ## Search loops -/

/-- Inner loop `for x.next[i] != nil && test(x.next[i].Value) { x = x.next[i] }`
shared by `Insert` (skip_list.go:154-156) and `Delete` (skip_list.go:193-195). -/
def advance (nodes : Nat → skipListNode) (test : SkipValue → Bool) (i : Nat) :
    Nat → Nat → Option Nat
  | 0, _ => none
  | fuel + 1, x =>
    match (nodes x).next[i]? with
    | none => none
    | some none => some x
    | some (some y) =>
      if test (nodes y).Value then advance nodes test i fuel y else some x

/-- Outer loop `for i := sl.level - 1; i >= 0; i-- { ...; update[i] = x }` of `Insert`
(skip_list.go:153-158) and `Delete` (skip_list.go:192-197); `n` is `i + 1`. -/
def descend (nodes : Nat → skipListNode) (test : SkipValue → Bool) (fuel : Nat) :
    Nat → Nat → (Nat → Option Nat) → Option (Nat × (Nat → Option Nat))
  | 0, x, update => some (x, update)
  | n + 1, x, update =>
    match advance nodes test n fuel x with
    | none => none
    | some x1 =>
      if n < maxLevel then descend nodes test fuel n x1 (Function.update update n (some x1))
      else none

/-- Inner loop of `find` (skip_list.go:127-130), which also counts its steps. -/
def findAdvance (nodes : Nat → skipListNode) (value : SkipValue) (i : Nat) :
    Nat → Nat → Int → Option (Nat × Int)
  | 0, _, _ => none
  | fuel + 1, x, findcount =>
    match (nodes x).next[i]? with
    | none => none
    | some none => some (x, findcount)
    | some (some y) =>
      if (nodes y).Value.Compare value < 0 then
        findAdvance nodes value i fuel y (findcount + 1)
      else some (x, findcount)

/-- Outer loop of `find` (skip_list.go:126-131); `n` is `i + 1`. -/
def findLevels (nodes : Nat → skipListNode) (value : SkipValue) (fuel : Nat) :
    Nat → Nat → Int → Option (Nat × Int)
  | 0, x, findcount => some (x, findcount)
  | n + 1, x, findcount =>
    match findAdvance nodes value n fuel x findcount with
    | none => none
    | some (x1, findcount1) => findLevels nodes value fuel n x1 findcount1

/-- Method `SkipList.find` (skip_list.go:124-133): the list with its step counter
updated, and the node the search stops at. -/
def SkipList.find (sl : SkipList) (value : SkipValue) : Option (SkipList × Nat) :=
  match findLevels sl.nodes value sl.nalloc sl.level sl.header sl.findcount with
  | none => none
  | some (x, findcount) => some ({ sl with findcount := findcount }, x)

/-- Method `SkipList.FindCount` (skip_list.go:136-138). -/
def SkipList.FindCount (sl : SkipList) : Int := sl.findcount

/-- Method `SkipList.Find` (skip_list.go:141-147). -/
def SkipList.Find (sl : SkipList) (value : SkipValue) : Option (SkipList × Option SkipValue) :=
  match sl.find value with
  | none => none
  | some (sl1, x) =>
    match (sl1.nodes x).next[0]? with
    | none => none
    | some none => some (sl1, none)
    | some (some y) =>
      if (sl1.nodes y).Value.Compare value = 0 then some (sl1, some (sl1.nodes y).Value)
      else some (sl1, none)

/-! ## Insert -/

/-- Loop `for i := sl.level; i < level; i++ { update[i] = sl.header }`
(skip_list.go:165-167); `k` is the number of iterations left. -/
def fillHeader (header : Nat) : Nat → Nat → (Nat → Option Nat) → Option (Nat → Option Nat)
  | 0, _, update => some update
  | k + 1, i, update =>
    if i < maxLevel then fillHeader header k (i + 1) (Function.update update i (some header))
    else none

/-- Loop `for i := 0; i < level; i++ { x.next[i] = update[i].next[i]; update[i].next[i] = x }`
(skip_list.go:171-174); `k` is the number of iterations left. -/
def splice (x : Nat) (update : Nat → Option Nat) :
    Nat → Nat → (Nat → skipListNode) → Option (Nat → skipListNode)
  | 0, _, nodes => some nodes
  | k + 1, i, nodes =>
    if i < maxLevel then
      match update i with
      | none => none
      | some u =>
        match (nodes u).next[i]? with
        | none => none
        | some nx =>
          match setNext nodes x i nx with
          | none => none
          | some nodes1 =>
            match setNext nodes1 u i (some x) with
            | none => none
            | some nodes2 => splice x update k (i + 1) nodes2
    else none

/-- Body of `SkipList.Insert` (skip_list.go:150-186) once `randomLevel()` has returned
`level`; the new node is allocated at address `sl.nalloc`. -/
def SkipList.insertAt (sl : SkipList) (value : SkipValue) (level : Nat) :
    Option (SkipList × Int) :=
  match descend sl.nodes (fun w => decide (w.Compare value ≤ 0)) sl.nalloc sl.level sl.header
      (fun _ => none) with
  | none => none
  | some (_, update0) =>
    match (if level > sl.level then fillHeader sl.header (level - sl.level) sl.level update0
           else some update0) with
    | none => none
    | some update =>
      let level1 := if level > sl.level then level else sl.level
      let x := sl.nalloc
      let nodes1 := Function.update sl.nodes x (newskipListNode level value)
      match splice x update level 0 nodes1 with
      | none => none
      | some nodes2 =>
        match update 0 with
        | none => none
        | some u0 =>
          let nodes3 := if u0 ≠ sl.header then setPrev nodes2 x (some u0) else nodes2
          match (nodes3 x).next[0]? with
          | none => none
          | some (some y) =>
            some ({ sl with nodes := setPrev nodes3 y (some x), nalloc := sl.nalloc + 1,
                            level := level1, count := sl.count + 1 }, 1)
          | some none =>
            some ({ sl with nodes := nodes3, nalloc := sl.nalloc + 1, tail := some x,
                            level := level1, count := sl.count + 1 }, 1)

/-- Method `SkipList.Insert` (skip_list.go:150-186); `draws` is the stream of values
that `rand.Int()` returns during the call. -/
def SkipList.Insert (sl : SkipList) (value : SkipValue) (draws : Nat → Nat) :
    Option (SkipList × Int) :=
  sl.insertAt value (randomLevel draws)

/-! ## Delete -/

/-- Loop `for i := 0; i < sl.level; i++ { if update[i].next[i] == x { update[i].next[i] = x.next[i] } }`
(skip_list.go:202-206); `k` is the number of iterations left. -/
def unlink (x : Nat) (update : Nat → Option Nat) :
    Nat → Nat → (Nat → skipListNode) → Option (Nat → skipListNode)
  | 0, _, nodes => some nodes
  | k + 1, i, nodes =>
    if i < maxLevel then
      match update i with
      | none => none
      | some u =>
        match (nodes u).next[i]? with
        | none => none
        | some nu =>
          if nu = some x then
            match (nodes x).next[i]? with
            | none => none
            | some nx =>
              match setNext nodes u i nx with
              | none => none
              | some nodes1 => unlink x update k (i + 1) nodes1
          else unlink x update k (i + 1) nodes
    else none

/-- Loop `for sl.level > 1 && sl.header.next[sl.level-1] == nil { sl.level-- }`
(skip_list.go:212-214). -/
def shrinkLevel (nodes : Nat → skipListNode) (header : Nat) : Nat → Option Nat
  | 0 => some 0
  | level + 1 =>
    if level + 1 > 1 then
      match (nodes header).next[level]? with
      | none => none
      | some none => shrinkLevel nodes header level
      | some (some _) => some (level + 1)
    else some (level + 1)

/-- Method `SkipList.Delete` (skip_list.go:189-217). -/
def SkipList.Delete (sl : SkipList) (value : SkipValue) : Option (SkipList × Int) :=
  match descend sl.nodes (fun w => decide (w.Compare value < 0)) sl.nalloc sl.level sl.header
      (fun _ => none) with
  | none => none
  | some (x0, update) =>
    match (sl.nodes x0).next[0]? with
    | none => none
    | some none => some (sl, 0)
    | some (some x) =>
      if (sl.nodes x).Value.Compare value ≠ 0 then some (sl, 0)
      else
        match unlink x update sl.level 0 sl.nodes with
        | none => none
        | some nodes1 =>
          match (nodes1 x).next[0]? with
          | none => none
          | some nx0 =>
            let sl1 : SkipList :=
              match nx0 with
              | some y => { sl with nodes := setPrev nodes1 y (nodes1 x).prev }
              | none => { sl with nodes := nodes1, tail := (nodes1 x).prev }
            match shrinkLevel sl1.nodes sl1.header sl1.level with
            | none => none
            | some level1 => some ({ sl1 with level := level1, count := sl1.count - 1 }, 1)

/-! ## Traversal -/

/-- Method `skipListNode.Next` (skip_list.go:77-82) on a possibly nil node pointer. -/
def Next (nodes : Nat → skipListNode) : Option Nat → Option (Option Nat)
  | none => some none
  | some x => (nodes x).next[0]?

/-- Method `skipListNode.Prev` (skip_list.go:69-74) on a possibly nil node pointer. -/
def Prev (nodes : Nat → skipListNode) : Option Nat → Option Nat
  | none => none
  | some x => (nodes x).prev

/-- Loop of `Walk` (skip_list.go:242-249) for a non-nil callback.  The callback may have
effects of its own: it is a state transformer on `σ` that also returns its verdict. -/
def walkLoop {σ : Type} (nodes : Nat → skipListNode) (cb : σ → Item → σ × Bool) :
    Nat → Option Nat → σ → Option σ
  | 0, _, _ => none
  | _ + 1, none, s => some s
  | fuel + 1, some e, s =>
    if (cb s (nodes e).Value.Value).2 then
      match Next nodes (some e) with
      | none => none
      | some e1 => walkLoop nodes cb fuel e1 (cb s (nodes e).Value.Value).1
    else some (cb s (nodes e).Value.Value).1

/-- Method `SkipList.Walk` (skip_list.go:241-250); a nil callback is `none`. -/
def SkipList.Walk {σ : Type} (sl : SkipList) (cb : Option (σ → Item → σ × Bool)) (s : σ) :
    Option σ :=
  match Next sl.nodes (some sl.header) with
  | none => none
  | some e =>
    match cb with
    | none => some s
    | some f => walkLoop sl.nodes f sl.nalloc e s

/-- The payloads a full `Walk` hands to its callback, in order: `Walk` run with the
callback that records its argument and always returns true. -/
def SkipList.walked (sl : SkipList) : Option (List Item) :=
  sl.Walk (some (fun (acc : List Item) (it : Item) => (acc ++ [it], true))) []

/-- Nodes visited by following `Next()` from a node pointer until nil. -/
def nodesFrom (nodes : Nat → skipListNode) : Nat → Option Nat → Option (List Nat)
  | 0, _ => none
  | _ + 1, none => some []
  | fuel + 1, some e =>
    match Next nodes (some e) with
    | none => none
    | some e1 =>
      match nodesFrom nodes fuel e1 with
      | none => none
      | some l => some (e :: l)

/-- The entries of the list in forward order: the `Value` of every node reached from
`header.Next()` by `Next()`, as the forward iteration of `Walk` visits them. -/
def SkipList.entries (sl : SkipList) : Option (List SkipValue) :=
  match Next sl.nodes (some sl.header) with
  | none => none
  | some e =>
    match nodesFrom sl.nodes sl.nalloc e with
    | none => none
    | some l => some (l.map (fun x => (sl.nodes x).Value))


/-! ## Call sequences -/

/-- One call on the list: `Insert` with the values `rand.Int()` returns during
the call, `Delete`, or `Find`. -/
inductive Op where
  | insert (value : SkipValue) (draws : Nat → Nat)
  | delete (value : SkipValue)
  | find (value : SkipValue)

/-- What a call returns: the `int` of `Insert` and `Delete`, or the result of `Find`. -/
inductive Ret where
  | code (r : Int)
  | found (r : Option SkipValue)
deriving DecidableEq, Repr

/-- Run one call. -/
def step (sl : SkipList) : Op → Option (SkipList × Ret)
  | Op.insert value draws =>
    match sl.Insert value draws with
    | none => none
    | some (sl1, r) => some (sl1, Ret.code r)
  | Op.delete value =>
    match sl.Delete value with
    | none => none
    | some (sl1, r) => some (sl1, Ret.code r)
  | Op.find value =>
    match sl.Find value with
    | none => none
    | some (sl1, r) => some (sl1, Ret.found r)

/-- Run a sequence of calls, collecting what each call returns. -/
def run (sl : SkipList) : List Op → Option (SkipList × List Ret)
  | [] => some (sl, [])
  | op :: ops =>
    match step sl op with
    | none => none
    | some (sl1, r) =>
      match run sl1 ops with
      | none => none
      | some (sl2, rs) => some (sl2, r :: rs)

/-- The lists that calls of `Insert`, `Delete` and `Find` produce from a new list. -/
inductive Reachable : SkipList → Prop where
  | new (min : SkipValue) : Reachable (NewSkipList min)
  | step {sl sl1 : SkipList} {r : Ret} (op : Op) :
      Reachable sl → step sl op = some (sl1, r) → Reachable sl1

/-- Number of `Insert` calls of a run that returned 1. -/
def insertsDone : List Op → List Ret → Nat
  | Op.insert _ _ :: ops, Ret.code r :: rs => (if r = 1 then 1 else 0) + insertsDone ops rs
  | _ :: ops, _ :: rs => insertsDone ops rs
  | _, _ => 0

/-- Number of `Delete` calls of a run that returned 1. -/
def deletesDone : List Op → List Ret → Nat
  | Op.delete _ :: ops, Ret.code r :: rs => (if r = 1 then 1 else 0) + deletesDone ops rs
  | _ :: ops, _ :: rs => deletesDone ops rs
  | _, _ => 0

/-- The ordering rule of the specification on a sequence of entries: an entry comes
before another only if its price is higher, or the prices are equal and it did not
arrive later. -/
def ByRule (l : List SkipValue) : Prop :=
  l.Pairwise (fun a b => b.Price < a.Price ∨
    (a.Price = b.Price ∧ a.Value.EnterTime ≤ b.Value.EnterTime))

instance (l : List SkipValue) : Decidable (ByRule l) := by
  unfold ByRule
  infer_instance

/-! ## Representation invariant -/

/-- Height of a node: the length of its `next` slice. -/
def ht (nodes : Nat → skipListNode) (x : Nat) : Nat := (nodes x).next.length

/-- Bounds-checked read of `x.next[i]`. -/
def nx (nodes : Nat → skipListNode) (i x : Nat) : Option (Option Nat) := (nodes x).next[i]?

/-- Last element of `a :: l`. -/
def lastOr (a : Nat) : List Nat → Nat
  | [] => a
  | b :: l => lastOr b l

/-- Following the links `f` from `a` visits exactly the nodes of `l`, in order, and the
link of the last node visited is `e`. -/
def Path (f : Nat → Option (Option Nat)) : Nat → List Nat → Option Nat → Prop
  | a, [], e => f a = some e
  | a, b :: l, e => f a = some (some b) ∧ Path f b l e

/-- The `prev` pointers along `l`: the first node has `prev = p`, every other node
points back to the node before it. -/
def Back (nodes : Nat → skipListNode) : Option Nat → List Nat → Prop
  | _, [] => True
  | p, b :: l => (nodes b).prev = p ∧ Back nodes (some b) l

/-- Representation invariant: `ns` is the sequence of stored nodes, in forward order. -/
structure Inv (sl : SkipList) (ns : List Nat) : Prop where
  hdr_notin : sl.header ∉ ns
  nodup : ns.Nodup
  len_lt : ns.length < sl.nalloc
  lt_alloc : ∀ x ∈ ns, x < sl.nalloc
  hdr_lt : sl.header < sl.nalloc
  hdr_ht : ht sl.nodes sl.header = maxLevel
  ht_pos : ∀ x ∈ ns, 1 ≤ ht sl.nodes x
  ht_le : ∀ x ∈ ns, ht sl.nodes x ≤ sl.level
  level_pos : 1 ≤ sl.level
  level_le : sl.level ≤ maxLevel
  level_tight : sl.level = 1 ∨ ∃ x ∈ ns, ht sl.nodes x = sl.level
  links : ∀ i, i < maxLevel →
    Path (nx sl.nodes i) sl.header (ns.filter (fun x => decide (i < ht sl.nodes x))) none
  back : Back sl.nodes none ns
  tail_eq : sl.tail = ns.getLast?
  count_eq : sl.count = ns.length
  sorted : (ns.map (fun x => (sl.nodes x).Value.Price)).Pairwise (fun p q => q ≤ p)

/-- The level-`i` successor of the search position, if any, fails the loop test. -/
def Blocked (h : Nat → Nat) (t : Nat → Bool) (i : Nat) (post : List Nat) : Prop :=
  ∀ y, (post.filter (fun x => decide (i < h x))).head? = some y → t y = false

/-- What the search leaves in `update[i]`: the last node of a prefix `p` of the nodes
before the final position such that no node between `p` and the final position reaches
level `i`. -/
def Trail (h : Nat → Nat) (t : Nat → Bool) (header : Nat) (update : Nat → Option Nat)
    (i : Nat) (pre post : List Nat) : Prop :=
  ∃ p g, pre = p ++ g ∧ update i = some (lastOr header p) ∧ (∀ y ∈ g, h y ≤ i) ∧
    i < h (lastOr header p) ∧ Blocked h t i post

/-- Two heaps that differ at most in `next` links: every node keeps its height, its
`prev` pointer and its value. -/
def LinksOnly (nodes nodes1 : Nat → skipListNode) : Prop :=
  ∀ a, ht nodes1 a = ht nodes a ∧ (nodes1 a).prev = (nodes a).prev ∧
    (nodes1 a).Value = (nodes a).Value

/-- The node before the position that follows `l`, when `p` is the node before `l`. -/
def lastOpt : Option Nat → List Nat → Option Nat
  | p, [] => p
  | _, b :: l => lastOpt (some b) l

/-! ## Iterator -/

/-- Struct `SkipListIterator` (skip_list.go:45-48). -/
structure SkipListIterator where
  list : SkipList
  node : Option Nat

/-- Method `SkipListIterator.First` (skip_list.go:51-57): the iterator after the call and
the returned `*SkipValue` (nil is `none`). -/
def SkipListIterator.First (sli : SkipListIterator) :
    Option (SkipListIterator × Option SkipValue) :=
  match (sli.list.nodes sli.list.header).next[0]? with
  | none => none
  | some none => some (sli, none)
  | some (some x) => some ({ sli with node := some x }, some (sli.list.nodes x).Value)

/-- Method `SkipListIterator.Last` (skip_list.go:60-66). -/
def SkipListIterator.Last (sli : SkipListIterator) :
    Option (SkipListIterator × Option SkipValue) :=
  match sli.list.tail with
  | none => some (sli, none)
  | some x => some ({ sli with node := some x }, some (sli.list.nodes x).Value)

/-- Method `SkipList.GetIterator` (skip_list.go:112-117). -/
def SkipList.GetIterator (sl : SkipList) : Option SkipListIterator :=
  match SkipListIterator.First { list := sl, node := none } with
  | none => none
  | some (it, _) => some it

/-! ## Forward and backward node sequences -/

/-- The nodes reached from `header.Next()` by `Next()`, in order. -/
def SkipList.forward (sl : SkipList) : Option (List Nat) :=
  match Next sl.nodes (some sl.header) with
  | none => none
  | some e => nodesFrom sl.nodes sl.nalloc e

/-- Nodes visited by following `Prev()` from a node pointer until nil. -/
def nodesBack (nodes : Nat → skipListNode) : Nat → Option Nat → Option (List Nat)
  | 0, _ => none
  | _ + 1, none => some []
  | fuel + 1, some e =>
    match nodesBack nodes fuel (Prev nodes (some e)) with
    | none => none
    | some l => some (e :: l)

/-- The nodes reached from `tail` by `Prev()`, in order. -/
def SkipList.backward (sl : SkipList) : Option (List Nat) :=
  nodesBack sl.nodes sl.nalloc sl.tail

/-- What the specification says `Walk` does with a callback, on the sequence of payloads:
call it on each payload in turn and stop right after the first call that returns false. -/
def callsUntilFalse {σ : Type} (cb : σ → Item → σ × Bool) : σ → List Item → σ
  | s, [] => s
  | s, it :: l => if (cb s it).2 then callsUntilFalse cb (cb s it).1 l else (cb s it).1

/-! ## Specification-level notions for the scenarios -/

/-- What the specification says `Insert` does to the sequence of entries: the new entry
goes immediately after the last entry whose Price is greater than or equal to its own,
and to the front when there is no such entry. -/
def insertAfterLastGE (v : SkipValue) : List SkipValue → List SkipValue
  | [] => [v]
  | e :: l =>
    if v.Price ≤ e.Price ∨ l.any (fun x => decide (v.Price ≤ x.Price)) = true then
      e :: insertAfterLastGE v l
    else v :: e :: l

/-- Whether a sequence of calls keeps the caller's side of the contract on arrival
orders: every `Insert` is called with an arrival order at least as large as that of
every entry stored at that moment with the same Price. -/
def arrivalsIncrease (sl : SkipList) : List Op → Bool
  | [] => true
  | op :: ops =>
    (match op with
     | Op.insert value _ =>
       match sl.entries with
       | none => false
       | some es =>
         es.all (fun e =>
           decide (e.Price = value.Price → e.Value.EnterTime ≤ value.Value.EnterTime))
     | _ => true) &&
    (match step sl op with
     | none => false
     | some (sl1, _) => arrivalsIncrease sl1 ops)

/-- Nodes visited by following the level-`i` links `next[i]` from a node pointer until nil. -/
def chainFrom (nodes : Nat → skipListNode) (i : Nat) : Nat → Option Nat → Option (List Nat)
  | 0, _ => none
  | _ + 1, none => some []
  | fuel + 1, some e =>
    match (nodes e).next[i]? with
    | none => none
    | some e1 =>
      match chainFrom nodes i fuel e1 with
      | none => none
      | some l => some (e :: l)

/-- The level-`i` chain of the list: the nodes reached from `header.next[i]` by `next[i]`. -/
def SkipList.chain (sl : SkipList) (i : Nat) : Option (List Nat) :=
  match (sl.nodes sl.header).next[i]? with
  | none => none
  | some e => chainFrom sl.nodes i sl.nalloc e

/-- The calls of repeated insert-and-delete cycles of one key: each cycle inserts an
entry (with its own payload and height draws) and then deletes with the key. -/
def cycles (key : SkipValue) : List (SkipValue × (Nat → Nat)) → List Op
  | [] => []
  | c :: cs => Op.insert c.1 c.2 :: Op.delete key :: cycles key cs

/-! ## Instrumented forms for counting -/

/-- A `Walk` callback together with a counter of its invocations: every call of the
callback adds one to the counter and hands the callback's verdict on. -/
def counted {σ : Type} (cb : σ → Item → σ × Bool) : σ × Nat → Item → (σ × Nat) × Bool :=
  fun p it => (((cb p.1 it).1, p.2 + 1), (cb p.1 it).2)

/-- Loop of `randomLevel` (skip_list.go:102-107) together with the number of calls of
`rand.Int()` made so far: the loop condition draws once per evaluation.  The result is
`none` when the fuel runs out before the loop ends. -/
def randomLevelCalls (draws : Nat → Nat) : Nat → Nat → Nat → Option (Nat × Nat)
  | 0, _, _ => none
  | fuel + 1, k, level =>
    if draws k % 65536 < 22937 then
      if level + 1 = maxLevel then some (level + 1, k + 1)
      else randomLevelCalls draws fuel (k + 1) (level + 1)
    else some (level, k + 1)

/-- What the specification calls the number of leading draws that promote: how many of
the draws `k`, `k + 1`, ... come before the first one whose low 16 bits are not below
22937, looking at `n` draws at most. -/
def leadingBelow (draws : Nat → Nat) : Nat → Nat → Nat
  | 0, _ => 0
  | n + 1, k => if draws k % 65536 < 22937 then 1 + leadingBelow draws n (k + 1) else 0

/-! ## The nodes a search steps over -/

/-- Inner loop of `find` (skip_list.go:127-130) with a record of the nodes it steps over:
each execution of the loop body `sl.findcount++; x = x.next[i]` appends the node that
`x` moves to. -/
def findAdvanceTrace (nodes : Nat → skipListNode) (value : SkipValue) (i : Nat) :
    Nat → Nat → List Nat → Option (Nat × List Nat)
  | 0, _, _ => none
  | fuel + 1, x, trace =>
    match (nodes x).next[i]? with
    | none => none
    | some none => some (x, trace)
    | some (some y) =>
      if (nodes y).Value.Compare value < 0 then
        findAdvanceTrace nodes value i fuel y (trace ++ [y])
      else some (x, trace)

/-- Outer loop of `find` (skip_list.go:126-131) with the record of the nodes stepped over;
`n` is `i + 1`. -/
def findLevelsTrace (nodes : Nat → skipListNode) (value : SkipValue) (fuel : Nat) :
    Nat → Nat → List Nat → Option (Nat × List Nat)
  | 0, x, trace => some (x, trace)
  | n + 1, x, trace =>
    match findAdvanceTrace nodes value n fuel x trace with
    | none => none
    | some (x1, trace1) => findLevelsTrace nodes value fuel n x1 trace1

/-- The search of `find` (skip_list.go:124-133) with its record: the node the search stops
at and the nodes it stepped over, one per execution of the inner loop body, in order. -/
def SkipList.findTrace (sl : SkipList) (value : SkipValue) : Option (Nat × List Nat) :=
  findLevelsTrace sl.nodes value sl.nalloc sl.level sl.header []

end price

namespace executor

/-! ## Options of a guessing game (`plugin/dapp/guess/executor/guessdb.go`) -/

/-- Go's `strings.Split` for a separator of one character, on the characters of the
string: the pieces between the separators, one piece more than there are separators. -/
def splitChars (sep : Char) : List Char → List (List Char)
  | [] => [[]]
  | c :: cs =>
    if c = sep then [] :: splitChars sep cs
    else
      match splitChars sep cs with
      | [] => [[c]]
      | w :: ws => (c :: w) :: ws

/-- Go's `strings.Split(s, sep)` for a separator of one character. -/
def Split (s : String) (sep : Char) : List String :=
  (splitChars sep s.data).map String.mk

/-- Inner loop of `GetOptions` (guessdb.go:834-839): whether `item[0]` equals one of the
options collected so far. -/
def nameTaken (name : String) : List String → Bool
  | [] => false
  | o :: os => if name = o then true else nameTaken name os

/-- Outer loop of `GetOptions` (guessdb.go:832-842) over the items still to read;
`item[0]` is a bounds-checked read. -/
def getOptionsLoop : List String → List String → Option (List String × Bool)
  | [], options => some (options, true)
  | it :: items, options =>
    match (Split it ':')[0]? with
    | none => none
    | some name =>
      if nameTaken name options then some (options, false)
      else getOptionsLoop items (options ++ [name])

/-- Function `GetOptions` (guessdb.go:829-846). -/
def GetOptions (strOptions : String) : Option (List String × Bool) :=
  getOptionsLoop (Split strOptions ';') []

/-- The option names of the specification: the text before the first ':' in each
';'-separated item. -/
def optionNames (s : String) : List String :=
  (Split s ';').map (fun item => String.mk (item.data.takeWhile (fun c => decide (c ≠ ':'))))

/-! ## Expiry settings of a guessing game (`plugin/dapp/guess/executor/guessdb.go`) -/

/-- Modelled from the spec: the declaration of the message type `pkt.GuessGameStart` is
missing; these are the three fields that `CheckTime` reads and writes.  The two heights
are integers (`GameStart` compares them with integer constants and prints them with
`%d`) and `DrivenByAdmin` is a boolean (`CheckTime` assigns `true` to it). -/
structure GuessGameStart where
  MaxBetHeight : Int
  ExpireHeight : Int
  DrivenByAdmin : Bool
deriving DecidableEq, Repr

/-- Constant `MaxBetHeight` (guessdb.go:43-44). -/
def MaxBetHeight : Int := 1000000

/-- Constant `MaxExpireHeight` (guessdb.go:46-47). -/
def MaxExpireHeight : Int := 1000000

/-- Method `Action.CheckTime` (guessdb.go:926-949).  `start` is a pointer: `none` is nil,
whose first field read panics.  The result is the message as the call leaves it and the
returned boolean; the receiver is not read. -/
def CheckTime (start : Option GuessGameStart) : Option (GuessGameStart × Bool) :=
  match start with
  | none => none
  | some s =>
    if s.MaxBetHeight = 0 ∧ s.ExpireHeight = 0 then
      some ({ s with DrivenByAdmin := true, ExpireHeight := MaxExpireHeight }, true)
    else
      let s1 := if s.MaxBetHeight = 0 then { s with MaxBetHeight := MaxBetHeight } else s
      let s2 := if s1.ExpireHeight = 0 then { s1 with ExpireHeight := MaxExpireHeight } else s1
      if s2.MaxBetHeight ≤ s2.ExpireHeight then some (s2, true)
      else some (s2, false)

end executor

namespace price

/-! ## Lists of nodes -/

theorem lastOr_append (a : Nat) (l1 l2 : List Nat) :
    lastOr a (l1 ++ l2) = lastOr (lastOr a l1) l2 := by
  induction l1 generalizing a with
  | nil => rfl
  | cons b l ih => simpa [lastOr] using ih b

theorem lastOr_mem (a : Nat) (l : List Nat) : lastOr a l = a ∨ lastOr a l ∈ l := by
  induction l generalizing a with
  | nil => exact Or.inl rfl
  | cons b l ih =>
    rcases ih b with h | h
    · right; simp [lastOr, h]
    · right; simp [lastOr, h]

theorem lastOr_of_ne_nil (a b : Nat) {l : List Nat} (h : l ≠ []) : lastOr a l = lastOr b l := by
  cases l with
  | nil => exact absurd rfl h
  | cons c l => rfl

theorem lastOr_mem_of_ne_nil (a : Nat) {l : List Nat} (h : l ≠ []) : lastOr a l ∈ l := by
  cases l with
  | nil => exact absurd rfl h
  | cons c l =>
    rcases lastOr_mem c l with h1 | h1
    · simp [lastOr, h1]
    · simp [lastOr, h1]

theorem getLast?_eq_lastOr (a : Nat) {l : List Nat} (h : l ≠ []) :
    l.getLast? = some (lastOr a l) := by
  induction l generalizing a with
  | nil => exact absurd rfl h
  | cons b l ih =>
    cases l with
    | nil => simp [lastOr]
    | cons c l =>
      have := ih b (by simp)
      rw [List.getLast?_cons_cons, this]
      rfl

theorem lastOr_filter (P : Nat → Bool) (a : Nat) (l : List Nat) (h : P (lastOr a l) = true) :
    lastOr a (l.filter P) = lastOr a l := by
  induction l generalizing a with
  | nil => rfl
  | cons b l ih =>
    simp only [lastOr] at h
    by_cases hb : P b = true
    · simp only [List.filter_cons, hb, if_true, lastOr]
      exact ih b h
    · simp only [List.filter_cons, hb, lastOr]
      cases l with
      | nil => simp [lastOr] at h; exact absurd h hb
      | cons c l =>
        have h2 : lastOr a (c :: l) = lastOr b (c :: l) := rfl
        rw [← h2] at h ⊢
        simpa using ih a h

/-! ## Paths -/

theorem Path.last {f : Nat → Option (Option Nat)} {a : Nat} {l : List Nat} {e : Option Nat}
    (h : Path f a l e) : f (lastOr a l) = some e := by
  induction l generalizing a with
  | nil => exact h
  | cons b l ih => exact ih h.2

theorem path_append_cons {f : Nat → Option (Option Nat)} {a b : Nat} {l1 l2 : List Nat}
    {e : Option Nat} :
    Path f a (l1 ++ b :: l2) e ↔ Path f a l1 (some b) ∧ Path f b l2 e := by
  induction l1 generalizing a with
  | nil => simp [Path]
  | cons c l ih => simp [Path, ih, and_assoc]

theorem Path.suffix {f : Nat → Option (Option Nat)} {a : Nat} {l1 l2 : List Nat}
    {e : Option Nat} (h : Path f a (l1 ++ l2) e) : Path f (lastOr a l1) l2 e := by
  induction l1 generalizing a with
  | nil => exact h
  | cons c l ih => exact ih h.2

theorem Path.pre {f : Nat → Option (Option Nat)} {a : Nat} {l1 l2 : List Nat}
    {e : Option Nat} (h : Path f a (l1 ++ l2) e) :
    Path f a l1 (match l2 with | [] => e | b :: _ => some b) := by
  cases l2 with
  | nil => simpa using h
  | cons b l2 => exact (path_append_cons.1 h).1

theorem Path.congr {f g : Nat → Option (Option Nat)} {a : Nat} {l : List Nat} {e : Option Nat}
    (h : Path f a l e) (hfg : ∀ c, c = a ∨ c ∈ l → g c = f c) : Path g a l e := by
  induction l generalizing a with
  | nil => simp only [Path] at h ⊢; rw [hfg a (Or.inl rfl)]; exact h
  | cons b l ih =>
    refine ⟨?_, ih h.2 ?_⟩
    · rw [hfg a (Or.inl rfl)]; exact h.1
    · intro c hc
      apply hfg
      rcases hc with hc | hc
      · right; simp [hc]
      · right; simp [hc]

theorem Path.setLast {f g : Nat → Option (Option Nat)} {a : Nat} {l : List Nat}
    {e e1 : Option Nat} (h : Path f a l e) (hnd : (a :: l).Nodup)
    (hfg : ∀ c, c = a ∨ c ∈ l → c ≠ lastOr a l → g c = f c)
    (hg : g (lastOr a l) = some e1) : Path g a l e1 := by
  induction l generalizing a with
  | nil => exact hg
  | cons b l ih =>
    have hnd2 : (b :: l).Nodup := (List.nodup_cons.1 hnd).2
    have hab : a ∉ b :: l := (List.nodup_cons.1 hnd).1
    refine ⟨?_, ih h.2 hnd2 ?_ hg⟩
    · rw [hfg a (Or.inl rfl)]
      · exact h.1
      · intro hh
        apply hab
        have : lastOr a (b :: l) ∈ b :: l := lastOr_mem_of_ne_nil a (by simp)
        rwa [← hh] at this
    · intro c hc hne
      apply hfg c _ hne
      rcases hc with hc | hc
      · right; simp [hc]
      · right; simp [hc]

theorem filter_split (P : Nat → Bool) (p g post : List Nat) (hg : ∀ y ∈ g, P y = false) :
    (p ++ g ++ post).filter P = p.filter P ++ post.filter P := by
  have : g.filter P = [] := by
    rw [List.filter_eq_nil_iff]
    intro y hy
    simp [hg y hy]
  simp [List.filter_append, this]

/-! ## The search loops -/

theorem advance_split (nodes : Nat → skipListNode) (test : SkipValue → Bool) (i : Nat) :
    ∀ (post : List Nat) (x fuel : Nat),
      Path (nx nodes i) x (post.filter (fun y => decide (i < ht nodes y))) none →
      post.length < fuel →
      ∃ mid post1, post = mid ++ post1 ∧ advance nodes test i fuel x = some (lastOr x mid) ∧
        (∀ y ∈ mid, i < ht nodes y → test (nodes y).Value = true) ∧
        (mid ≠ [] → i < ht nodes (lastOr x mid)) ∧
        Blocked (ht nodes) (fun y => test (nodes y).Value) i post1 := by
  intro post
  induction post with
  | nil =>
    intro x fuel hp hf
    refine ⟨[], [], rfl, ?_, by simp, by simp, ?_⟩
    · cases fuel with
      | zero => simp at hf
      | succ fuel =>
        simp only [List.filter_nil, Path, nx] at hp
        simp [advance, hp, lastOr]
    · intro y hy; simp at hy
  | cons b post ih =>
    intro x fuel hp hf
    cases fuel with
    | zero => simp at hf
    | succ fuel =>
      have hf2 : post.length < fuel := by simpa using hf
      by_cases hb : i < ht nodes b
      · simp only [List.filter_cons, hb, decide_True, if_true, Path] at hp
        by_cases htb : test (nodes b).Value = true
        · obtain ⟨mid, post1, e1, e2, e3, e4, e5⟩ := ih b fuel hp.2 hf2
          refine ⟨b :: mid, post1, by simp [e1], ?_, ?_, ?_, e5⟩
          · have h1 := hp.1
            simp only [nx] at h1
            simp [advance, h1, htb, e2, lastOr]
          · intro y hy hy2
            rcases List.mem_cons.1 hy with rfl | hy
            · exact htb
            · exact e3 y hy hy2
          · intro _
            simp only [lastOr]
            by_cases hm : mid = []
            · subst hm; simpa [lastOr] using hb
            · exact e4 hm
        · refine ⟨[], b :: post, rfl, ?_, by simp, by simp, ?_⟩
          · have h1 := hp.1
            simp only [nx] at h1
            simp [advance, h1, htb, lastOr]
          · intro y hy
            simp only [List.filter_cons, hb, decide_True, if_true, List.head?_cons,
              Option.some.injEq] at hy
            subst hy
            simpa using htb
      · have hfl : (b :: post).filter (fun y => decide (i < ht nodes y))
            = post.filter (fun y => decide (i < ht nodes y)) := by
          simp [List.filter_cons, hb]
        rw [hfl] at hp
        obtain ⟨mid, post1, e1, e2, e3, e4, e5⟩ := ih x (fuel + 1) hp (by omega)
        by_cases hm : mid = []
        · subst hm
          refine ⟨[], b :: post, rfl, e2, by simp, by simp, ?_⟩
          simp only [List.nil_append] at e1
          subst e1
          intro y hy
          rw [hfl] at hy
          exact e5 y hy
        · refine ⟨b :: mid, post1, by simp [e1], ?_, ?_, ?_, e5⟩
          · rw [e2]; simp only [lastOr]; rw [lastOr_of_ne_nil x b hm]
          · intro y hy hy2
            rcases List.mem_cons.1 hy with rfl | hy
            · exact absurd hy2 hb
            · exact e3 y hy hy2
          · intro _
            simp only [lastOr]
            rw [← lastOr_of_ne_nil x b hm]
            exact e4 hm

/-- Nodes passed at a lower level stay below a level whose successor is blocked. -/
theorem blocked_mid (h : Nat → Nat) (t : Nat → Bool) (i : Nat) :
    ∀ (mid post1 : List Nat), Blocked h t i (mid ++ post1) →
      (∀ y ∈ mid, i < h y → t y = true) →
      (∀ y ∈ mid, h y ≤ i) ∧ Blocked h t i post1 := by
  intro mid
  induction mid with
  | nil => intro post1 hb _; exact ⟨by simp, by simpa using hb⟩
  | cons b mid ih =>
    intro post1 hb ht
    have hbi : h b ≤ i := by
      by_contra hc
      have hc2 : i < h b := by omega
      have h1 := hb b (by simp [List.filter_cons, hc2])
      have h2 := ht b (by simp) hc2
      rw [h1] at h2
      exact absurd h2 (by simp)
    have hb2 : Blocked h t i (mid ++ post1) := by
      intro y hy
      apply hb y
      have : ¬ i < h b := by omega
      simpa [List.filter_cons, this] using hy
    obtain ⟨r1, r2⟩ := ih post1 hb2 (fun y hy => ht y (by simp [hy]))
    refine ⟨?_, r2⟩
    intro y hy
    rcases List.mem_cons.1 hy with rfl | hy
    · exact hbi
    · exact r1 y hy

theorem descend_spec (nodes : Nat → skipListNode) (test : SkipValue → Bool) (header fuel L : Nat)
    (ns : List Nat)
    (hlinks : ∀ i, i < maxLevel →
      Path (nx nodes i) header (ns.filter (fun x => decide (i < ht nodes x))) none)
    (hfuel : ns.length < fuel) (hL : L ≤ maxLevel) :
    ∀ (n : Nat) (pre post : List Nat) (update : Nat → Option Nat),
      ns = pre ++ post → n ≤ ht nodes (lastOr header pre) → n ≤ L →
      (pre ≠ [] → test (nodes (lastOr header pre)).Value = true) →
      (∀ i, n ≤ i → i < L →
        Trail (ht nodes) (fun y => test (nodes y).Value) header update i pre post) →
      ∃ pre1 post1 update1,
        descend nodes test fuel n (lastOr header pre) update = some (lastOr header pre1, update1) ∧
        ns = pre1 ++ post1 ∧
        (pre1 ≠ [] → test (nodes (lastOr header pre1)).Value = true) ∧
        (∀ i, i < L →
          Trail (ht nodes) (fun y => test (nodes y).Value) header update1 i pre1 post1) ∧
        (∀ i, L ≤ i → update1 i = update i) := by
  intro n
  induction n with
  | zero =>
    intro pre post update hns _ _ htv htr
    exact ⟨pre, post, update, rfl, hns, htv, fun i hi => htr i (Nat.zero_le _) hi, fun _ _ => rfl⟩
  | succ n ih =>
    intro pre post update hns hht hn htv htr
    have hnM : n < maxLevel := by omega
    have hp0 := hlinks n hnM
    rw [hns, List.filter_append] at hp0
    have hp1 := hp0.suffix
    rw [lastOr_filter _ _ _ (by simpa using hht)] at hp1
    have hlen : post.length < fuel := by
      have : ns.length = pre.length + post.length := by rw [hns]; simp
      omega
    obtain ⟨mid, post1, e1, e2, e3, e4, e5⟩ :=
      advance_split nodes test n post (lastOr header pre) fuel hp1 hlen
    have hx1 : lastOr (lastOr header pre) mid = lastOr header (pre ++ mid) :=
      (lastOr_append header pre mid).symm
    have hht1 : n < ht nodes (lastOr header (pre ++ mid)) := by
      rw [← hx1]
      by_cases hm : mid = []
      · subst hm; simp only [lastOr]; omega
      · exact e4 hm
    have ht1 : pre ++ mid ≠ [] → test (nodes (lastOr header (pre ++ mid))).Value = true := by
      intro hne
      by_cases hm : mid = []
      · subst hm
        simp only [List.append_nil] at hne ⊢
        exact htv hne
      · rw [← hx1]
        exact e3 _ (lastOr_mem_of_ne_nil _ hm) (e4 hm)
    have htr1 : ∀ i, n ≤ i → i < L →
        Trail (ht nodes) (fun y => test (nodes y).Value) header
          (Function.update update n (some (lastOr header (pre ++ mid)))) i (pre ++ mid) post1 := by
      intro i hi hiL
      by_cases hin : i = n
      · subst hin
        refine ⟨pre ++ mid, [], by simp, by simp, by simp, hht1, e5⟩
      · obtain ⟨p, g, q1, q2, q3, q4, q5⟩ := htr i (by omega) hiL
        rw [e1] at q5
        obtain ⟨r1, r2⟩ := blocked_mid _ _ i mid post1 q5
          (fun y hy hy2 => e3 y hy (by omega))
        refine ⟨p, g ++ mid, by simp [q1], ?_, ?_, q4, r2⟩
        · rw [Function.update_noteq hin]; exact q2
        · intro y hy
          rcases List.mem_append.1 hy with hy | hy
          · exact q3 y hy
          · exact r1 y hy
    obtain ⟨pre1, post2, update1, f1, f2, f3, f4, f5⟩ :=
      ih (pre ++ mid) post1 (Function.update update n (some (lastOr header (pre ++ mid))))
        (by rw [hns, e1]; simp) (by omega) (by omega) ht1 htr1
    refine ⟨pre1, post2, update1, ?_, f2, f3, f4, ?_⟩
    · simp only [descend, e2, hx1, hnM, if_true]
      exact f1
    · intro i hi
      rw [f5 i hi, Function.update_noteq (by omega)]

/-- The number of steps `find` adds to `findcount` does not change where it stops. -/
theorem findAdvance_fst (nodes : Nat → skipListNode) (value : SkipValue) (i : Nat) :
    ∀ (fuel x : Nat) (c : Int),
      (findAdvance nodes value i fuel x c).map Prod.fst
        = advance nodes (fun w => decide (w.Compare value < 0)) i fuel x := by
  intro fuel
  induction fuel with
  | zero => intro x c; rfl
  | succ fuel ih =>
    intro x c
    simp only [findAdvance, advance]
    cases h : (nodes x).next[i]? with
    | none => rfl
    | some o =>
      cases o with
      | none => rfl
      | some y =>
        by_cases hc : (nodes y).Value.Compare value < 0
        · simp [hc, ih]
        · simp [hc]

theorem findLevels_fst (nodes : Nat → skipListNode) (value : SkipValue) (fuel : Nat) :
    ∀ (n x : Nat) (c : Int) (update : Nat → Option Nat), n ≤ maxLevel →
      (findLevels nodes value fuel n x c).map Prod.fst
        = (descend nodes (fun w => decide (w.Compare value < 0)) fuel n x update).map Prod.fst := by
  intro n
  induction n with
  | zero => intro x c update _; rfl
  | succ n ih =>
    intro x c update hn
    have h1 := findAdvance_fst nodes value n fuel x c
    simp only [findLevels, descend]
    cases h2 : findAdvance nodes value n fuel x c with
    | none =>
      rw [h2] at h1
      simp only [Option.map_none'] at h1
      rw [← h1]
      rfl
    | some r =>
      obtain ⟨x1, c1⟩ := r
      rw [h2] at h1
      simp only [Option.map_some'] at h1
      rw [← h1]
      have hn2 : n < maxLevel := by omega
      simp only [hn2, if_true]
      exact ih x1 c1 _ (by omega)

/-! ## Heap updates -/

theorem nx_of_lt {nodes : Nat → skipListNode} {i x : Nat} (h : i < ht nodes x) :
    ∃ v, nx nodes i x = some v := by
  unfold nx
  cases hv : (nodes x).next[i]? with
  | none =>
    rw [List.getElem?_eq_none_iff] at hv
    unfold ht at h
    omega
  | some v => exact ⟨v, rfl⟩

theorem lt_of_nx {nodes : Nat → skipListNode} {i x : Nat} {v : Option Nat}
    (h : nx nodes i x = some v) : i < ht nodes x := by
  unfold nx at h
  unfold ht
  by_contra hc
  rw [List.getElem?_eq_none (by omega)] at h
  exact absurd h (by simp)

theorem LinksOnly.refl (nodes : Nat → skipListNode) : LinksOnly nodes nodes :=
  fun _ => ⟨rfl, rfl, rfl⟩

theorem LinksOnly.trans {n1 n2 n3 : Nat → skipListNode} (h1 : LinksOnly n1 n2)
    (h2 : LinksOnly n2 n3) : LinksOnly n1 n3 := by
  intro a
  obtain ⟨a1, a2, a3⟩ := h1 a
  obtain ⟨b1, b2, b3⟩ := h2 a
  exact ⟨b1.trans a1, b2.trans a2, b3.trans a3⟩

theorem setNext_spec (nodes : Nat → skipListNode) (x i : Nat) (v : Option Nat)
    (h : i < ht nodes x) :
    ∃ nodes1, setNext nodes x i v = some nodes1 ∧ LinksOnly nodes nodes1 ∧
      ∀ j a, nx nodes1 j a = if a = x ∧ j = i then some v else nx nodes j a := by
  unfold ht at h
  refine ⟨_, by rw [setNext, if_pos h], ?_, ?_⟩
  · intro a
    by_cases ha : a = x
    · subst ha; simp [ht, Function.update_same]
    · simp [ht, Function.update_noteq ha]
  · intro j a
    by_cases ha : a = x
    · subst ha
      simp only [nx, Function.update_same, true_and]
      rw [List.getElem?_set]
      by_cases hj : j = i
      · subst hj; simp [h]
      · have : ¬ i = j := fun hh => hj hh.symm
        simp [hj, this]
    · simp [nx, Function.update_noteq ha, ha]

theorem splice_spec (x : Nat) (update : Nat → Option Nat) :
    ∀ (k i : Nat) (nodes : Nat → skipListNode),
      (∀ j, i ≤ j → j < i + k →
        j < maxLevel ∧ j < ht nodes x ∧ ∃ u, update j = some u ∧ u ≠ x ∧ j < ht nodes u) →
      ∃ nodes1, splice x update k i nodes = some nodes1 ∧ LinksOnly nodes nodes1 ∧
        ∀ j a, nx nodes1 j a =
          if i ≤ j ∧ j < i + k then
            (if a = x then (update j).bind (nx nodes j)
             else if update j = some a then some (some x) else nx nodes j a)
          else nx nodes j a := by
  intro k
  induction k with
  | zero =>
    intro i nodes _
    refine ⟨nodes, rfl, LinksOnly.refl _, ?_⟩
    intro j a
    rw [if_neg (by omega)]
  | succ k ih =>
    intro i nodes hyp
    obtain ⟨h1, h2, u, h3, h4, h5⟩ := hyp i (Nat.le_refl _) (by omega)
    obtain ⟨nv, hnv⟩ := nx_of_lt h5
    obtain ⟨nodes1, s1, f1, g1⟩ := setNext_spec nodes x i nv h2
    have h5b : i < ht nodes1 u := by rw [(f1 u).1]; exact h5
    obtain ⟨nodes2, s2, f2, g2⟩ := setNext_spec nodes1 u i (some x) h5b
    have f12 := f1.trans f2
    obtain ⟨nodes3, s3, f3, g3⟩ := ih (i + 1) nodes2 (by
      intro j hj1 hj2
      obtain ⟨q1, q2, w, q3, q4, q5⟩ := hyp j (by omega) (by omega)
      refine ⟨q1, ?_, w, q3, q4, ?_⟩
      · rw [(f12 x).1]; exact q2
      · rw [(f12 w).1]; exact q5)
    refine ⟨nodes3, ?_, f12.trans f3, ?_⟩
    · have hnv2 : (nodes u).next[i]? = some nv := hnv
      simp only [splice, h1, if_true, h3, hnv2, s1, s2]
      exact s3
    · intro j a
      rw [g3 j a]
      by_cases hji : j = i
      · subst hji
        have c1 : ¬ (j + 1 ≤ j ∧ j < j + 1 + k) := by omega
        have c2 : (j ≤ j ∧ j < j + (k + 1)) := by omega
        simp only [c1, c2, if_false, if_true]
        rw [g2 j a, g1 j a]
        by_cases hax : a = x
        · subst hax
          have : ¬ (a = u) := fun hh => h4 hh.symm
          simp [this, h3, hnv]
        · by_cases hau : a = u
          · subst hau; simp [h3, hax]
          · have : ¬ (update j = some a) := by
              rw [h3]; intro hh; exact hau (Option.some.inj hh).symm
            simp [hax, hau, this]
      · by_cases hr : i + 1 ≤ j ∧ j < i + 1 + k
        · have c2 : (i ≤ j ∧ j < i + (k + 1)) := by omega
          have e1 : ∀ b, nx nodes2 j b = nx nodes j b := by
            intro b
            rw [g2 j b, g1 j b]
            simp [hji]
          simp only [hr, c2, if_true, and_self]
          rw [e1 a]
          cases hu : update j with
          | none => simp
          | some w => simp [e1 w]
        · have c2 : ¬ (i ≤ j ∧ j < i + (k + 1)) := by omega
          simp only [hr, c2, if_false]
          rw [g2 j a, g1 j a]
          simp [hji]

theorem unlink_spec (x : Nat) (update : Nat → Option Nat) :
    ∀ (k i : Nat) (nodes : Nat → skipListNode),
      (∀ j, i ≤ j → j < i + k →
        j < maxLevel ∧ ∃ u, update j = some u ∧ j < ht nodes u ∧
          (nx nodes j u = some (some x) → j < ht nodes x)) →
      ∃ nodes1, unlink x update k i nodes = some nodes1 ∧ LinksOnly nodes nodes1 ∧
        ∀ j a, nx nodes1 j a =
          if (i ≤ j ∧ j < i + k) ∧ update j = some a ∧ nx nodes j a = some (some x)
          then nx nodes j x else nx nodes j a := by
  intro k
  induction k with
  | zero =>
    intro i nodes _
    refine ⟨nodes, rfl, LinksOnly.refl _, ?_⟩
    intro j a
    rw [if_neg (fun hh => absurd hh.1 (by omega))]
  | succ k ih =>
    intro i nodes hyp
    obtain ⟨h1, u, h3, h5, h6⟩ := hyp i (Nat.le_refl _) (by omega)
    obtain ⟨nv, hnv⟩ := nx_of_lt h5
    have hnv2 : (nodes u).next[i]? = some nv := hnv
    by_cases hc : nv = some x
    · subst hc
      obtain ⟨nxv, hnxv⟩ := nx_of_lt (h6 hnv)
      have hnxv2 : (nodes x).next[i]? = some nxv := hnxv
      obtain ⟨nodes1, s1, f1, g1⟩ := setNext_spec nodes u i nxv h5
      have keep : ∀ j b, j ≠ i → nx nodes1 j b = nx nodes j b := by
        intro j b hj; rw [g1 j b]; simp [hj]
      obtain ⟨nodes3, s3, f3, g3⟩ := ih (i + 1) nodes1 (by
        intro j hj1 hj2
        obtain ⟨q1, w, q3, q5, q6⟩ := hyp j (by omega) (by omega)
        refine ⟨q1, w, q3, ?_, ?_⟩
        · rw [(f1 w).1]; exact q5
        · rw [keep j w (by omega), (f1 x).1]; exact q6)
      refine ⟨nodes3, ?_, f1.trans f3, ?_⟩
      · simp only [unlink, h1, if_true, h3, hnv2, hnxv2, s1]
        exact s3
      · intro j a
        rw [g3 j a]
        by_cases hji : j = i
        · subst hji
          have c1 : ¬ (j + 1 ≤ j ∧ j < j + 1 + k) := by omega
          have c2 : (j ≤ j ∧ j < j + (k + 1)) := by omega
          simp only [c1, c2, false_and, if_false, true_and]
          rw [g1 j a]
          by_cases hau : a = u
          · subst hau; simp [h3, hnv, hnxv]
          · have : ¬ (update j = some a) := by
              rw [h3]; intro hh; exact hau (Option.some.inj hh).symm
            simp [hau, this]
        · rw [keep j a hji, keep j x hji]
          have : (i + 1 ≤ j ∧ j < i + 1 + k) ↔ (i ≤ j ∧ j < i + (k + 1)) := by omega
          simp only [this]
    · obtain ⟨nodes3, s3, f3, g3⟩ := ih (i + 1) nodes (by
        intro j hj1 hj2
        exact hyp j (by omega) (by omega))
      refine ⟨nodes3, ?_, f3, ?_⟩
      · simp only [unlink, h1, if_true, h3, hnv2, hc, if_false]
        exact s3
      · intro j a
        rw [g3 j a]
        by_cases hji : j = i
        · subst hji
          have c1 : ¬ (j + 1 ≤ j ∧ j < j + 1 + k) := by omega
          have c2 : (j ≤ j ∧ j < j + (k + 1)) := by omega
          simp only [c1, c2, false_and, if_false, true_and]
          by_cases hau : update j = some a
          · have : a = u := by rw [h3] at hau; exact (Option.some.inj hau).symm
            subst this
            have : ¬ (nx nodes j a = some (some x)) := by
              rw [hnv]; intro hh; exact hc (Option.some.inj hh)
            simp [this]
          · simp [hau]
        · have : (i + 1 ≤ j ∧ j < i + 1 + k) ↔ (i ≤ j ∧ j < i + (k + 1)) := by omega
          simp only [this]

theorem fillHeader_spec (header : Nat) :
    ∀ (k i : Nat) (update : Nat → Option Nat), i + k ≤ maxLevel →
      ∃ update1, fillHeader header k i update = some update1 ∧
        ∀ j, update1 j = if i ≤ j ∧ j < i + k then some header else update j := by
  intro k
  induction k with
  | zero =>
    intro i update _
    refine ⟨update, rfl, ?_⟩
    intro j
    rw [if_neg (by omega)]
  | succ k ih =>
    intro i update hik
    obtain ⟨u1, e1, e2⟩ := ih (i + 1) (Function.update update i (some header)) (by omega)
    have hi : i < maxLevel := by omega
    refine ⟨u1, by simp only [fillHeader, hi, if_true]; exact e1, ?_⟩
    intro j
    rw [e2 j]
    by_cases hji : j = i
    · subst hji
      have c1 : ¬ (j + 1 ≤ j ∧ j < j + 1 + k) := by omega
      have c2 : (j ≤ j ∧ j < j + (k + 1)) := by omega
      simp [c1, c2]
    · have : (i + 1 ≤ j ∧ j < i + 1 + k) ↔ (i ≤ j ∧ j < i + (k + 1)) := by omega
      simp only [this, Function.update_noteq hji]

theorem lastOpt_append (p : Option Nat) (l1 l2 : List Nat) :
    lastOpt p (l1 ++ l2) = lastOpt (lastOpt p l1) l2 := by
  induction l1 generalizing p with
  | nil => rfl
  | cons b l ih => simpa [lastOpt] using ih (some b)

theorem lastOpt_of_ne_nil (p : Option Nat) (a : Nat) {l : List Nat} (h : l ≠ []) :
    lastOpt p l = some (lastOr a l) := by
  induction l generalizing p a with
  | nil => exact absurd rfl h
  | cons b l ih =>
    cases l with
    | nil => rfl
    | cons c l => exact ih (some b) b (by simp)

theorem getLast?_eq_lastOpt (l : List Nat) : l.getLast? = lastOpt none l := by
  cases l with
  | nil => rfl
  | cons b l => rw [getLast?_eq_lastOr 0 (by simp), lastOpt_of_ne_nil none 0 (by simp)]

theorem back_append {nodes : Nat → skipListNode} {p : Option Nat} {l1 l2 : List Nat} :
    Back nodes p (l1 ++ l2) ↔ Back nodes p l1 ∧ Back nodes (lastOpt p l1) l2 := by
  induction l1 generalizing p with
  | nil => simp [Back, lastOpt]
  | cons b l ih => simp [Back, lastOpt, ih, and_assoc]

theorem Back.congrPrev {nodes nodes1 : Nat → skipListNode} {p : Option Nat} {l : List Nat}
    (h : Back nodes p l) (hc : ∀ c ∈ l, (nodes1 c).prev = (nodes c).prev) :
    Back nodes1 p l := by
  induction l generalizing p with
  | nil => trivial
  | cons b l ih =>
    refine ⟨?_, ih h.2 (fun c hc2 => hc c (by simp [hc2]))⟩
    rw [hc b (by simp)]; exact h.1

theorem Path.changeStart {f g : Nat → Option (Option Nat)} {a b : Nat} {l : List Nat}
    {e : Option Nat} (h : Path f a l e) (hb : g b = f a) (hc : ∀ c ∈ l, g c = f c) :
    Path g b l e := by
  cases l with
  | nil => simp only [Path] at h ⊢; rw [hb]; exact h
  | cons c l =>
    refine ⟨by rw [hb]; exact h.1, h.2.congr ?_⟩
    intro d hd
    apply hc
    rcases hd with hd | hd
    · simp [hd]
    · simp [hd]

theorem nx_setPrev (nodes : Nat → skipListNode) (x : Nat) (v : Option Nat) (j a : Nat) :
    nx (setPrev nodes x v) j a = nx nodes j a := by
  by_cases ha : a = x
  · subst ha; simp [nx, setPrev, Function.update_same]
  · simp [nx, setPrev, Function.update_noteq ha]

theorem ht_setPrev (nodes : Nat → skipListNode) (x : Nat) (v : Option Nat) (a : Nat) :
    ht (setPrev nodes x v) a = ht nodes a := by
  by_cases ha : a = x
  · subst ha; simp [ht, setPrev, Function.update_same]
  · simp [ht, setPrev, Function.update_noteq ha]

theorem value_setPrev (nodes : Nat → skipListNode) (x : Nat) (v : Option Nat) (a : Nat) :
    ((setPrev nodes x v) a).Value = (nodes a).Value := by
  by_cases ha : a = x
  · subst ha; simp [setPrev, Function.update_same]
  · simp [setPrev, Function.update_noteq ha]

theorem prev_setPrev (nodes : Nat → skipListNode) (x : Nat) (v : Option Nat) (a : Nat) :
    ((setPrev nodes x v) a).prev = if a = x then v else (nodes a).prev := by
  by_cases ha : a = x
  · subst ha; simp [setPrev, Function.update_same]
  · simp [setPrev, Function.update_noteq ha, ha]

/-! ## The comparison -/

theorem compare_le_zero_iff (a b : SkipValue) : a.Compare b ≤ 0 ↔ b.Price ≤ a.Price := by
  unfold SkipValue.Compare
  split_ifs <;> omega

theorem compare_lt_zero_iff (a b : SkipValue) :
    a.Compare b < 0 ↔
      b.Price < a.Price ∨ (a.Price = b.Price ∧ a.Value.EnterTime < b.Value.EnterTime) := by
  unfold SkipValue.Compare
  split_ifs <;> omega

theorem compare_eq_zero_iff (a b : SkipValue) :
    a.Compare b = 0 ↔ a.Price = b.Price ∧ b.Value.EnterTime ≤ a.Value.EnterTime := by
  unfold SkipValue.Compare
  split_ifs with h1 h2 h3
  · constructor
    · intro h; simp at h
    · intro h; omega
  · constructor
    · intro h; simp at h
    · intro h; omega
  · constructor
    · intro _; exact ⟨h2, by omega⟩
    · intro _; rfl
  · constructor
    · intro h; simp at h
    · intro h; exact absurd h.1 h2

/-! ## The new list -/

theorem inv_new (min : SkipValue) : Inv (NewSkipList min) [] := by
  refine ⟨by simp, by simp, by simp [NewSkipList], by simp, by simp [NewSkipList], ?_, by simp,
    by simp, by simp [NewSkipList], by simp [NewSkipList, maxLevel], Or.inl rfl, ?_, trivial, rfl,
    rfl, by simp⟩
  · simp [ht, NewSkipList, newskipListNode]
  · intro i hi
    simp only [List.filter_nil, Path, nx, NewSkipList, newskipListNode]
    rw [List.getElem?_replicate]
    simp [hi]

/-! ## Sorted prices -/

theorem pairwise_le_last {R : Nat → Nat → Prop} {l : List Nat} (a : Nat)
    (h : l.Pairwise R) : ∀ y ∈ l, y = lastOr a l ∨ R y (lastOr a l) := by
  induction l generalizing a with
  | nil => intro y hy; simp at hy
  | cons b l ih =>
    intro y hy
    have hp := List.pairwise_cons.1 h
    simp only [lastOr]
    rcases List.mem_cons.1 hy with rfl | hy
    · rcases lastOr_mem y l with h1 | h1
      · left; exact h1.symm
      · right; exact hp.1 _ h1
    · exact ih b hp.2 y hy

/-- Facts about the search position of `Insert` that follow from the price order. -/
theorem insert_position (nodes : Nat → skipListNode) (header : Nat) (value : SkipValue)
    (pre post : List Nat)
    (hs : ((pre ++ post).map (fun x => (nodes x).Value.Price)).Pairwise (fun p q => q ≤ p))
    (hpre : pre ≠ [] → decide ((nodes (lastOr header pre)).Value.Compare value ≤ 0) = true)
    (hpost : ∀ y, post.head? = some y → decide ((nodes y).Value.Compare value ≤ 0) = false) :
    (∀ y ∈ pre, value.Price ≤ (nodes y).Value.Price) ∧
    (∀ y ∈ post, (nodes y).Value.Price < value.Price) := by
  rw [List.pairwise_map, List.pairwise_append] at hs
  obtain ⟨s1, s2, _⟩ := hs
  constructor
  · intro y hy
    have hne : pre ≠ [] := List.ne_nil_of_mem hy
    have h1 := hpre hne
    rw [decide_eq_true_eq, compare_le_zero_iff] at h1
    rcases pairwise_le_last header s1 y hy with h2 | h2
    · rw [h2]; exact h1
    · exact le_trans h1 h2
  · intro y hy
    cases post with
    | nil => simp at hy
    | cons b post =>
      have h1 := hpost b rfl
      rw [decide_eq_false_iff_not, compare_le_zero_iff] at h1
      have hp := List.pairwise_cons.1 s2
      rcases List.mem_cons.1 hy with rfl | hy
      · omega
      · have := hp.1 y hy
        omega

/-- With every height at least 1, nothing is filtered out at level 0. -/
theorem filter_zero (nodes : Nat → skipListNode) (l : List Nat)
    (h : ∀ y ∈ l, 1 ≤ ht nodes y) : l.filter (fun x => decide (0 < ht nodes x)) = l := by
  rw [List.filter_eq_self]
  intro y hy
  have := h y hy
  simp only [decide_eq_true_eq]
  omega

/-- At level 0 the trail of the search ends at the search position itself. -/
theorem trail_zero (nodes : Nat → skipListNode) (t : Nat → Bool) (header : Nat)
    (update : Nat → Option Nat) (pre post : List Nat)
    (hpos : ∀ y ∈ pre, 1 ≤ ht nodes y) (hpost : ∀ y ∈ post, 1 ≤ ht nodes y)
    (h : Trail (ht nodes) t header update 0 pre post) :
    update 0 = some (lastOr header pre) ∧ ∀ y, post.head? = some y → t y = false := by
  obtain ⟨p, g, q1, q2, q3, _, q5⟩ := h
  have hg : g = [] := by
    cases g with
    | nil => rfl
    | cons b g =>
      have h1 := q3 b (by simp)
      have h2 := hpos b (by rw [q1]; simp)
      omega
  subst hg
  simp only [List.append_nil] at q1
  subst q1
  refine ⟨q2, ?_⟩
  intro y hy
  apply q5 y
  rw [filter_zero nodes post hpost]
  exact hy

/-! ## Links after an insertion or a deletion at one level -/

theorem links_insert (f g : Nat → Option (Option Nat)) (header x : Nat) (P : Nat → Bool)
    (p gp post : List Nat)
    (hpath : Path f header ((p ++ gp ++ post).filter P) none)
    (hg : ∀ y ∈ gp, P y = false) (hu : P (lastOr header p) = true)
    (hnd : (header :: (p ++ gp ++ post)).Nodup) (hx : x ∉ header :: (p ++ gp ++ post))
    (gx : g x = f (lastOr header p)) (gu : g (lastOr header p) = some (some x))
    (gother : ∀ a, a ≠ x → a ≠ lastOr header p → g a = f a) :
    Path g header (p.filter P ++ x :: post.filter P) none := by
  rw [filter_split P p gp post hg] at hpath
  have hP1 := hpath.pre
  have hP2 := hpath.suffix
  rw [lastOr_filter P header p hu] at hP2
  have hsub : (header :: p.filter P).Sublist (header :: (p ++ gp ++ post)) := by
    apply List.Sublist.cons₂
    exact (List.filter_sublist p).trans
      ((List.sublist_append_left p gp).trans (List.sublist_append_left _ post))
  have hnx : ∀ c, c = header ∨ c ∈ p.filter P → c ≠ x := by
    intro c hc hcx
    apply hx
    rw [← hcx]
    rcases hc with hc | hc
    · simp [hc]
    · have := (List.mem_filter.1 hc).1
      simp [this]
  have hux : lastOr header p = header ∨ lastOr header p ∈ p := lastOr_mem header p
  rw [path_append_cons]
  constructor
  · refine hP1.setLast (hnd.sublist hsub) ?_ ?_
    · intro c hc hne
      rw [lastOr_filter P header p hu] at hne
      exact gother c (hnx c hc) hne
    · rw [lastOr_filter P header p hu]; exact gu
  · refine hP2.changeStart gx ?_
    intro c hc
    have hcp : c ∈ post := (List.mem_filter.1 hc).1
    apply gother
    · intro hcx; apply hx; rw [← hcx]; simp [hcp]
    · intro hcu
      rw [List.nodup_cons, List.nodup_append] at hnd
      rcases hux with h | h
      · apply hnd.1; rw [← h, ← hcu]; simp [hcp]
      · have hd : c ∈ p ++ gp := by rw [hcu]; simp [h]
        exact hnd.2.2.2 hd hcp

theorem links_delete (f g : Nat → Option (Option Nat)) (header x : Nat) (P : Nat → Bool)
    (p gp post : List Nat)
    (hpath : Path f header ((p ++ gp ++ x :: post).filter P) none)
    (hg : ∀ y ∈ gp, P y = false) (hu : P (lastOr header p) = true)
    (hnd : (header :: (p ++ gp ++ x :: post)).Nodup)
    (gu : P x = true → g (lastOr header p) = f x)
    (gother : ∀ a, a ≠ x → (P x = true → a ≠ lastOr header p) → g a = f a) :
    Path g header ((p ++ gp ++ post).filter P) none := by
  rw [filter_split P p gp _ hg] at hpath
  rw [filter_split P p gp _ hg]
  have hnd0 := hnd
  rw [List.nodup_cons, List.nodup_append] at hnd
  have hxne : ∀ c, c = header ∨ c ∈ p ∨ c ∈ post → c ≠ x := by
    intro c hc hcx
    subst hcx
    rcases hc with hc | hc | hc
    · apply hnd.1; rw [← hc]; simp
    · have hd : c ∈ p ++ gp := by simp [hc]
      exact hnd.2.2.2 hd (List.mem_cons_self _ _)
    · have := (List.nodup_cons.1 hnd.2.2.1).1
      exact this hc
  by_cases hpx : P x = true
  · rw [List.filter_cons, if_pos hpx] at hpath
    have hP1 := hpath.pre
    have hP2 := hpath.suffix
    rw [lastOr_filter P header p hu] at hP2
    simp only at hP1
    have hfx : f x = some (match post.filter P with | [] => none | b :: _ => some b) := by
      cases hq : post.filter P with
      | nil => rw [hq] at hP2; exact hP2.2
      | cons b r => rw [hq] at hP2; exact hP2.2.1
    have hsub : (header :: p.filter P).Sublist (header :: (p ++ gp ++ x :: post)) := by
      apply List.Sublist.cons₂
      exact (List.filter_sublist p).trans
        ((List.sublist_append_left p gp).trans (List.sublist_append_left _ _))
    have hux : lastOr header p = header ∨ lastOr header p ∈ p := lastOr_mem header p
    have hQ1 : Path g header (p.filter P)
        (match post.filter P with | [] => none | b :: _ => some b) := by
      refine hP1.setLast (hnd0.sublist hsub) ?_ ?_
      · intro c hc hne
        rw [lastOr_filter P header p hu] at hne
        refine gother c (hxne c ?_) (fun _ => hne)
        rcases hc with hc | hc
        · exact Or.inl hc
        · exact Or.inr (Or.inl (List.mem_filter.1 hc).1)
      · rw [lastOr_filter P header p hu, gu hpx]; exact hfx
    have hother : ∀ c ∈ post.filter P, g c = f c := by
      intro c hc
      have hcp : c ∈ post := (List.mem_filter.1 hc).1
      refine gother c (hxne c (Or.inr (Or.inr hcp))) ?_
      intro _ hcu
      rcases hux with h | h
      · apply hnd.1; rw [← h, ← hcu]; simp [hcp]
      · have hd : c ∈ p ++ gp := by rw [hcu]; simp [h]
        exact hnd.2.2.2 hd (by simp [hcp])
    cases hq : post.filter P with
    | nil =>
      rw [hq] at hQ1
      simpa using hQ1
    | cons b r =>
      rw [hq] at hQ1 hP2 hother
      rw [path_append_cons]
      refine ⟨hQ1, hP2.2.2.congr ?_⟩
      intro c hc
      apply hother
      rcases hc with hc | hc
      · simp [hc]
      · simp [hc]
  · rw [List.filter_cons, if_neg hpx] at hpath
    refine hpath.congr ?_
    intro c hc
    refine gother c (hxne c ?_) (fun h => absurd h hpx)
    rcases hc with hc | hc
    · exact Or.inl hc
    · rcases List.mem_append.1 hc with hc | hc
      · exact Or.inr (Or.inl (List.mem_filter.1 hc).1)
      · exact Or.inr (Or.inr (List.mem_filter.1 hc).1)

/-! ## Insert -/

theorem insertAt_spec (sl : SkipList) (ns : List Nat) (value : SkipValue) (lvl : Nat)
    (hinv : Inv sl ns) (hl1 : 1 ≤ lvl) (hl2 : lvl ≤ maxLevel) :
    ∃ sl1 pre post, sl.insertAt value lvl = some (sl1, 1) ∧ ns = pre ++ post ∧
      (∀ y ∈ pre, value.Price ≤ (sl.nodes y).Value.Price) ∧
      (∀ y ∈ post, (sl.nodes y).Value.Price < value.Price) ∧
      Inv sl1 (pre ++ sl.nalloc :: post) ∧
      (sl1.nodes sl.nalloc).Value = value ∧ ht sl1.nodes sl.nalloc = lvl ∧
      (∀ a, a ≠ sl.nalloc →
        (sl1.nodes a).Value = (sl.nodes a).Value ∧ ht sl1.nodes a = ht sl.nodes a) ∧
      sl1.header = sl.header ∧ sl1.count = sl.count + 1 ∧ sl1.findcount = sl.findcount ∧
      sl1.nalloc = sl.nalloc + 1 ∧ sl1.level = max sl.level lvl := by
  obtain ⟨pre, post, update0, d1, d2, d3, d4, d5⟩ :=
    descend_spec sl.nodes (fun w => decide (w.Compare value ≤ 0)) sl.header sl.nalloc sl.level ns
      hinv.links hinv.len_lt hinv.level_le sl.level [] ns (fun _ => none) rfl
      (by simp only [lastOr]; rw [hinv.hdr_ht]; exact hinv.level_le) (Nat.le_refl _)
      (fun h => absurd rfl h) (fun i hi1 hi2 => absurd hi1 (by omega))
  simp only [lastOr] at d1
  have hlp := hinv.level_pos
  have hpos_pre : ∀ y ∈ pre, 1 ≤ ht sl.nodes y :=
    fun y hy => hinv.ht_pos y (by rw [d2]; simp [hy])
  have hpos_post : ∀ y ∈ post, 1 ≤ ht sl.nodes y :=
    fun y hy => hinv.ht_pos y (by rw [d2]; simp [hy])
  obtain ⟨hu0, hblk⟩ := trail_zero sl.nodes _ sl.header update0 pre post hpos_pre hpos_post
    (d4 0 (by omega))
  obtain ⟨hprice1, hprice2⟩ := insert_position sl.nodes sl.header value pre post
    (by rw [← d2]; exact hinv.sorted) d3 hblk
  obtain ⟨update, hfill, hupd⟩ : ∃ update,
      (if lvl > sl.level then fillHeader sl.header (lvl - sl.level) sl.level update0
        else some update0) = some update ∧
      ∀ j, update j = if sl.level ≤ j ∧ j < lvl then some sl.header else update0 j := by
    by_cases hc : lvl > sl.level
    · obtain ⟨u1, e1, e2⟩ :=
        fillHeader_spec sl.header (lvl - sl.level) sl.level update0 (by omega)
      refine ⟨u1, by rw [if_pos hc]; exact e1, ?_⟩
      intro j
      rw [e2 j]
      have : sl.level + (lvl - sl.level) = lvl := by omega
      rw [this]
    · refine ⟨update0, by rw [if_neg hc], ?_⟩
      intro j
      rw [if_neg (by omega)]
  have hlev : ∀ i, i < lvl → ∃ p g, pre = p ++ g ∧ update i = some (lastOr sl.header p) ∧
      (∀ y ∈ g, ht sl.nodes y ≤ i) ∧ i < ht sl.nodes (lastOr sl.header p) := by
    intro i hi
    by_cases hc : i < sl.level
    · obtain ⟨p, g, q1, q2, q3, q4, _⟩ := d4 i hc
      refine ⟨p, g, q1, ?_, q3, q4⟩
      rw [hupd i, if_neg (by omega)]
      exact q2
    · refine ⟨[], pre, rfl, ?_, ?_, ?_⟩
      · rw [hupd i, if_pos (by omega)]
        rfl
      · intro y hy
        have := hinv.ht_le y (by rw [d2]; simp [hy])
        omega
      · simp only [lastOr]
        rw [hinv.hdr_ht]
        omega
  have hxns : sl.nalloc ∉ ns := fun h => absurd (hinv.lt_alloc _ h) (by omega)
  have hxhd : sl.nalloc ≠ sl.header := by
    have := hinv.hdr_lt
    omega
  have hlast_ne : ∀ p g, pre = p ++ g → lastOr sl.header p ≠ sl.nalloc := by
    intro p g hpg hh
    rcases lastOr_mem sl.header p with h | h
    · rw [h] at hh; exact hxhd hh.symm
    · apply hxns; rw [d2, hpg, ← hh]; simp [h]
  obtain ⟨nodes1, hn1⟩ : ∃ n, n = Function.update sl.nodes sl.nalloc (newskipListNode lvl value) :=
    ⟨_, rfl⟩
  have n1_ne : ∀ a, a ≠ sl.nalloc → nodes1 a = sl.nodes a := by
    intro a ha; rw [hn1]; exact Function.update_noteq ha _ _
  have n1_eq : nodes1 sl.nalloc = newskipListNode lvl value := by
    rw [hn1]; exact Function.update_same _ _ _
  have n1_htx : ht nodes1 sl.nalloc = lvl := by
    simp [ht, n1_eq, newskipListNode]
  have n1_ht : ∀ a, a ≠ sl.nalloc → ht nodes1 a = ht sl.nodes a := by
    intro a ha; simp [ht, n1_ne a ha]
  have n1_nx : ∀ j a, a ≠ sl.nalloc → nx nodes1 j a = nx sl.nodes j a := by
    intro j a ha; simp [nx, n1_ne a ha]
  obtain ⟨nodes2, s1, f2, g2⟩ := splice_spec sl.nalloc update lvl 0 nodes1 (by
    intro j _ hj
    obtain ⟨p, g, q1, q2, q3, q4⟩ := hlev j (by omega)
    refine ⟨by omega, by rw [n1_htx]; omega, lastOr sl.header p, q2, hlast_ne p g q1, ?_⟩
    rw [n1_ht _ (hlast_ne p g q1)]
    exact q4)
  have hu0b : update 0 = some (lastOr sl.header pre) := by
    rw [hupd 0, if_neg (by omega)]; exact hu0
  have hu0x : lastOr sl.header pre ≠ sl.nalloc := hlast_ne pre [] (by simp)
  -- the level-0 successor of the search position
  have hnx0 : nx sl.nodes 0 (lastOr sl.header pre) = some post.head? := by
    have hp := hinv.links 0 (by unfold maxLevel; omega)
    rw [filter_zero sl.nodes ns hinv.ht_pos, d2] at hp
    have := hp.pre.last
    rw [this]
    cases post <;> rfl
  have hx0 : nx nodes2 0 sl.nalloc = some post.head? := by
    rw [g2 0 sl.nalloc, if_pos (by omega), if_pos rfl, hu0b]
    simp only [Option.bind]
    rw [n1_nx 0 _ hu0x, hnx0]
  -- the heap and the list that the call leaves
  obtain ⟨nodes3, hn3⟩ : ∃ n, n = (if lastOr sl.header pre ≠ sl.header then
      setPrev nodes2 sl.nalloc (some (lastOr sl.header pre)) else nodes2) := ⟨_, rfl⟩
  obtain ⟨nf, hnf⟩ : ∃ n, n = (match post with
      | [] => nodes3
      | y :: _ => setPrev nodes3 y (some sl.nalloc)) := ⟨_, rfl⟩
  have n3_nx : ∀ j a, nx nodes3 j a = nx nodes2 j a := by
    intro j a
    rw [hn3]
    split_ifs
    · exact nx_setPrev _ _ _ _ _
    · rfl
  have hcomp : sl.insertAt value lvl = some
      ({ sl with nodes := nf, nalloc := sl.nalloc + 1,
                 tail := (match post with | [] => some sl.nalloc | _ :: _ => sl.tail),
                 level := if lvl > sl.level then lvl else sl.level,
                 count := sl.count + 1 }, 1) := by
    have hx0b : (nodes3 sl.nalloc).next[0]? = some post.head? := by
      have := n3_nx 0 sl.nalloc
      rw [hx0] at this
      exact this
    unfold SkipList.insertAt
    simp only [d1, hfill, ← hn1, s1, hu0b, ← hn3, hx0b]
    cases post with
    | nil => simp [hnf]
    | cons y post => simp [hnf]
  have hpre_ns : ∀ y ∈ pre, y ∈ ns := fun y hy => by rw [d2]; simp [hy]
  have hpost_ns : ∀ y ∈ post, y ∈ ns := fun y hy => by rw [d2]; simp [hy]
  have hne_x : ∀ y ∈ ns, y ≠ sl.nalloc := fun y hy hh => hxns (hh ▸ hy)
  have nf_nx : ∀ j a, nx nf j a = nx nodes2 j a := by
    intro j a
    rw [hnf]
    cases post with
    | nil => exact n3_nx j a
    | cons y post => simp only []; rw [nx_setPrev]; exact n3_nx j a
  have n3_ht : ∀ a, ht nodes3 a = ht nodes1 a := by
    intro a
    rw [hn3]
    split_ifs
    · rw [ht_setPrev]; exact (f2 a).1
    · exact (f2 a).1
  have nf_ht : ∀ a, ht nf a = ht nodes1 a := by
    intro a
    rw [hnf]
    cases post with
    | nil => exact n3_ht a
    | cons y post => simp only []; rw [ht_setPrev]; exact n3_ht a
  have n3_val : ∀ a, (nodes3 a).Value = (nodes1 a).Value := by
    intro a
    rw [hn3]
    split_ifs
    · rw [value_setPrev]; exact (f2 a).2.2
    · exact (f2 a).2.2
  have nf_val : ∀ a, (nf a).Value = (nodes1 a).Value := by
    intro a
    rw [hnf]
    cases post with
    | nil => exact n3_val a
    | cons y post => simp only []; rw [value_setPrev]; exact n3_val a
  have hpre_nil : lastOr sl.header pre = sl.header → pre = [] := by
    intro h
    by_contra hne
    have := lastOr_mem_of_ne_nil sl.header hne
    rw [h] at this
    exact hinv.hdr_notin (hpre_ns _ this)
  have n3_prev : ∀ a, (nodes3 a).prev
      = if a = sl.nalloc then lastOpt none pre else (sl.nodes a).prev := by
    intro a
    have h2 : (nodes2 a).prev = (nodes1 a).prev := (f2 a).2.1
    rw [hn3]
    by_cases hc : lastOr sl.header pre ≠ sl.header
    · rw [if_pos hc, prev_setPrev]
      have hne : pre ≠ [] := by
        intro h; apply hc; rw [h]; rfl
      by_cases ha : a = sl.nalloc
      · rw [if_pos ha, if_pos ha, lastOpt_of_ne_nil none sl.header hne]
      · rw [if_neg ha, if_neg ha, h2, n1_ne a ha]
    · rw [if_neg hc]
      have hnil := hpre_nil (not_not.1 hc)
      by_cases ha : a = sl.nalloc
      · rw [if_pos ha, h2, ha, n1_eq, hnil]
        rfl
      · rw [if_neg ha, h2, n1_ne a ha]
  have nf_prev : ∀ a, (nf a).prev
      = if post.head? = some a then some sl.nalloc
        else if a = sl.nalloc then lastOpt none pre else (sl.nodes a).prev := by
    intro a
    rw [hnf]
    cases post with
    | nil => simp only [List.head?_nil]; rw [if_neg (by simp)]; exact n3_prev a
    | cons y post =>
      simp only [List.head?_cons]
      rw [prev_setPrev]
      by_cases ha : a = y
      · rw [if_pos ha, if_pos (by rw [ha])]
      · rw [if_neg ha, if_neg (fun h => ha (Option.some.inj h).symm)]
        exact n3_prev a
  have hfilt : ∀ i (l : List Nat), (∀ y ∈ l, y ≠ sl.nalloc) →
      l.filter (fun y => decide (i < ht nf y))
        = l.filter (fun y => decide (i < ht sl.nodes y)) := by
    intro i l hl
    apply List.filter_congr
    intro y hy
    rw [nf_ht y, n1_ht y (hl y hy)]
  have hnd_all : (sl.header :: ns).Nodup := List.nodup_cons.2 ⟨hinv.hdr_notin, hinv.nodup⟩
  have hinv1 : Inv
      { sl with nodes := nf, nalloc := sl.nalloc + 1,
                tail := (match post with | [] => some sl.nalloc | _ :: _ => sl.tail),
                level := if lvl > sl.level then lvl else sl.level,
                count := sl.count + 1 } (pre ++ sl.nalloc :: post) := by
    refine ⟨?_, ?_, ?_, ?_, ?_, ?_, ?_, ?_, ?_, ?_, ?_, ?_, ?_, ?_, ?_, ?_⟩
    · show sl.header ∉ pre ++ sl.nalloc :: post
      intro h
      rcases List.mem_append.1 h with h | h
      · exact hinv.hdr_notin (hpre_ns _ h)
      · rcases List.mem_cons.1 h with h | h
        · exact hxhd h.symm
        · exact hinv.hdr_notin (hpost_ns _ h)
    · have hnd := hinv.nodup
      rw [d2, List.nodup_append] at hnd
      rw [List.nodup_append]
      refine ⟨hnd.1, List.nodup_cons.2 ⟨fun h => hxns (hpost_ns _ h), hnd.2.1⟩, ?_⟩
      intro a ha1 ha2
      rcases List.mem_cons.1 ha2 with h | h
      · exact hxns (h ▸ hpre_ns _ ha1)
      · exact hnd.2.2 ha1 h
    · show (pre ++ sl.nalloc :: post).length < sl.nalloc + 1
      have h1 := hinv.len_lt
      rw [d2] at h1
      simp only [List.length_append, List.length_cons] at h1 ⊢
      omega
    · show ∀ y ∈ pre ++ sl.nalloc :: post, y < sl.nalloc + 1
      intro y hy
      rcases List.mem_append.1 hy with h | h
      · have := hinv.lt_alloc y (hpre_ns _ h); omega
      · rcases List.mem_cons.1 h with h | h
        · omega
        · have := hinv.lt_alloc y (hpost_ns _ h); omega
    · show sl.header < sl.nalloc + 1
      have := hinv.hdr_lt
      omega
    · show ht nf sl.header = maxLevel
      rw [nf_ht, n1_ht _ (Ne.symm hxhd)]
      exact hinv.hdr_ht
    · show ∀ y ∈ pre ++ sl.nalloc :: post, 1 ≤ ht nf y
      intro y hy
      rw [nf_ht]
      rcases List.mem_append.1 hy with h | h
      · rw [n1_ht y (hne_x y (hpre_ns _ h))]; exact hpos_pre y h
      · rcases List.mem_cons.1 h with h | h
        · rw [h, n1_htx]; exact hl1
        · rw [n1_ht y (hne_x y (hpost_ns _ h))]; exact hpos_post y h
    · show ∀ y ∈ pre ++ sl.nalloc :: post, ht nf y ≤ (if lvl > sl.level then lvl else sl.level)
      intro y hy
      rw [nf_ht]
      have key : ∀ z ∈ ns, ht nodes1 z ≤ (if lvl > sl.level then lvl else sl.level) := by
        intro z hz
        rw [n1_ht z (hne_x z hz)]
        have := hinv.ht_le z hz
        split_ifs <;> omega
      rcases List.mem_append.1 hy with h | h
      · exact key y (hpre_ns _ h)
      · rcases List.mem_cons.1 h with h | h
        · rw [h, n1_htx]; split_ifs <;> omega
        · exact key y (hpost_ns _ h)
    · show 1 ≤ (if lvl > sl.level then lvl else sl.level)
      split_ifs <;> omega
    · show (if lvl > sl.level then lvl else sl.level) ≤ maxLevel
      have := hinv.level_le
      split_ifs <;> omega
    · show (if lvl > sl.level then lvl else sl.level) = 1 ∨
        ∃ y ∈ pre ++ sl.nalloc :: post, ht nf y = (if lvl > sl.level then lvl else sl.level)
      by_cases hc : lvl > sl.level
      · right
        refine ⟨sl.nalloc, by simp, ?_⟩
        rw [if_pos hc, nf_ht, n1_htx]
      · rw [if_neg hc]
        rcases hinv.level_tight with h | ⟨y, hy, hy2⟩
        · exact Or.inl h
        · right
          refine ⟨y, ?_, ?_⟩
          · rw [d2] at hy
            rcases List.mem_append.1 hy with h | h
            · simp [h]
            · simp [h]
          · rw [nf_ht, n1_ht y (hne_x y hy)]; exact hy2
    · show ∀ i, i < maxLevel → Path (nx nf i) sl.header
        ((pre ++ sl.nalloc :: post).filter (fun y => decide (i < ht nf y))) none
      intro i hi
      have hpath := hinv.links i hi
      rw [List.filter_append, List.filter_cons,
        hfilt i pre (fun y hy => hne_x y (hpre_ns _ hy)),
        hfilt i post (fun y hy => hne_x y (hpost_ns _ hy)), nf_ht, n1_htx]
      by_cases hc : i < lvl
      · obtain ⟨p, g, q1, q2, q3, q4⟩ := hlev i hc
        have hux := hlast_ne p g q1
        have hg : ∀ y ∈ g, decide (i < ht sl.nodes y) = false := by
          intro y hy
          have := q3 y hy
          simp only [decide_eq_false_iff_not]
          omega
        have hpg : pre.filter (fun y => decide (i < ht sl.nodes y))
            = p.filter (fun y => decide (i < ht sl.nodes y)) := by
          rw [q1]
          have := filter_split (fun y => decide (i < ht sl.nodes y)) p g [] hg
          simpa using this
        rw [if_pos (by simpa using hc), hpg]
        refine links_insert (nx sl.nodes i) (nx nf i) sl.header sl.nalloc
          (fun y => decide (i < ht sl.nodes y)) p g post ?_ hg (by simpa using q4) ?_ ?_ ?_ ?_ ?_
        · rw [← q1, ← d2]; exact hpath
        · rw [← q1, ← d2]; exact hnd_all
        · rw [← q1, ← d2]
          intro h
          rcases List.mem_cons.1 h with h | h
          · exact hxhd h
          · exact hxns h
        · rw [nf_nx, g2 i sl.nalloc, if_pos (by omega), if_pos rfl, q2]
          simp only [Option.bind]
          exact n1_nx i _ hux
        · rw [nf_nx, g2 i _, if_pos (by omega), if_neg hux, if_pos q2]
        · intro a ha1 ha2
          rw [nf_nx, g2 i a, if_pos (by omega), if_neg ha1,
            if_neg (by rw [q2]; intro h; exact ha2 (Option.some.inj h).symm)]
          exact n1_nx i a ha1
      · rw [if_neg (by simpa using hc), ← List.filter_append, ← d2]
        refine hpath.congr ?_
        intro c hc2
        have hcx : c ≠ sl.nalloc := by
          rcases hc2 with h | h
          · rw [h]; exact Ne.symm hxhd
          · exact hne_x c (List.mem_filter.1 h).1
        rw [nf_nx, g2 i c, if_neg (by omega)]
        exact n1_nx i c hcx
    · show Back nf none (pre ++ sl.nalloc :: post)
      have hb := hinv.back
      rw [d2, back_append] at hb
      have hnd := hinv.nodup
      rw [d2, List.nodup_append] at hnd
      rw [back_append]
      constructor
      · refine hb.1.congrPrev ?_
        intro c hc
        rw [nf_prev c, if_neg, if_neg (hne_x c (hpre_ns _ hc))]
        intro h
        exact hnd.2.2 hc (List.mem_of_mem_head? h)
      · refine ⟨?_, ?_⟩
        · rw [nf_prev, if_neg, if_pos rfl]
          intro h
          exact hxns (hpost_ns _ (List.mem_of_mem_head? h))
        · cases post with
          | nil => trivial
          | cons y post =>
            refine ⟨?_, ?_⟩
            · rw [nf_prev, if_pos (by simp)]
            · refine hb.2.2.congrPrev ?_
              intro c hc
              have hcy : c ≠ y := by
                intro h
                have := (List.nodup_cons.1 hnd.2.1).1
                exact this (h ▸ hc)
              rw [nf_prev c, if_neg, if_neg (hne_x c (hpost_ns _ (by simp [hc])))]
              simp only [List.head?_cons]
              intro h
              exact hcy (Option.some.inj h).symm
    · show (match post with | [] => some sl.nalloc | _ :: _ => sl.tail)
        = (pre ++ sl.nalloc :: post).getLast?
      cases post with
      | nil => simp
      | cons y post =>
        simp only []
        rw [hinv.tail_eq, d2, List.getLast?_append, List.getLast?_append,
          List.getLast?_cons_cons]
    · show sl.count + 1 = ((pre ++ sl.nalloc :: post).length : Int)
      rw [hinv.count_eq, d2]
      simp only [List.length_append, List.length_cons]
      push_cast
      omega
    · show ((pre ++ sl.nalloc :: post).map (fun y => (nf y).Value.Price)).Pairwise
        (fun p q => q ≤ p)
      have hs := hinv.sorted
      rw [d2, List.pairwise_map, List.pairwise_append] at hs
      have hv : ∀ y ∈ ns, (nf y).Value = (sl.nodes y).Value := by
        intro y hy
        rw [nf_val, n1_ne y (hne_x y hy)]
      have hvx : (nf sl.nalloc).Value = value := by
        rw [nf_val, n1_eq]; rfl
      rw [List.pairwise_map, List.pairwise_append]
      refine ⟨?_, ?_, ?_⟩
      · refine hs.1.imp_of_mem ?_
        intro a b ha hb h
        rw [hv a (hpre_ns _ ha), hv b (hpre_ns _ hb)]
        exact h
      · rw [List.pairwise_cons]
        constructor
        · intro b hb
          rw [hvx, hv b (hpost_ns _ hb)]
          exact le_of_lt (hprice2 b hb)
        · refine hs.2.1.imp_of_mem ?_
          intro a b ha hb h
          rw [hv a (hpost_ns _ ha), hv b (hpost_ns _ hb)]
          exact h
      · intro a ha b hb
        rw [hv a (hpre_ns _ ha)]
        rcases List.mem_cons.1 hb with h | h
        · rw [h, hvx]; exact hprice1 a ha
        · rw [hv b (hpost_ns _ h)]; exact hs.2.2 a ha b h
  refine ⟨_, pre, post, hcomp, d2, hprice1, hprice2, hinv1, ?_, ?_, ?_, rfl, rfl, rfl, rfl, ?_⟩
  · show (nf sl.nalloc).Value = value
    rw [nf_val, n1_eq]; rfl
  · show ht nf sl.nalloc = lvl
    rw [nf_ht, n1_htx]
  · intro a ha
    exact ⟨by show (nf a).Value = _; rw [nf_val, n1_ne a ha],
      by show ht nf a = _; rw [nf_ht, n1_ht a ha]⟩
  · show (if lvl > sl.level then lvl else sl.level) = max sl.level lvl
    split_ifs <;> omega

/-! ## Delete -/

theorem Path.head {f : Nat → Option (Option Nat)} {a : Nat} {l : List Nat}
    (h : Path f a l none) : f a = some l.head? := by
  cases l with
  | nil => exact h
  | cons b l => exact h.1

/-- The link that the search leaves in front of its final position. -/
theorem next_at_trail (f : Nat → Option (Option Nat)) (header : Nat) (P : Nat → Bool)
    (p gp post : List Nat)
    (hpath : Path f header ((p ++ gp ++ post).filter P) none)
    (hg : ∀ y ∈ gp, P y = false) (hu : P (lastOr header p) = true) :
    f (lastOr header p) = some (post.filter P).head? := by
  rw [filter_split P p gp post hg] at hpath
  have h := hpath.suffix
  rw [lastOr_filter P header p hu] at h
  exact h.head

theorem shrinkLevel_spec (nodes : Nat → skipListNode) (header : Nat) :
    ∀ (L : Nat), L ≤ ht nodes header → 1 ≤ L →
      ∃ L1, shrinkLevel nodes header L = some L1 ∧ 1 ≤ L1 ∧ L1 ≤ L ∧
        (∀ i, L1 ≤ i → i < L → nx nodes i header = some none) ∧
        (L1 = 1 ∨ ∃ y, nx nodes (L1 - 1) header = some (some y)) := by
  intro L
  induction L with
  | zero => intro _ h; omega
  | succ L ih =>
    intro hL _
    by_cases h1 : L + 1 > 1
    · obtain ⟨v, hv⟩ := nx_of_lt (show L < ht nodes header by omega)
      have hv2 : (nodes header).next[L]? = some v := hv
      cases v with
      | none =>
        obtain ⟨L1, e1, e2, e3, e4, e5⟩ := ih (by omega) (by omega)
        refine ⟨L1, ?_, e2, by omega, ?_, e5⟩
        · simp only [shrinkLevel, h1, if_true, hv2]
          exact e1
        · intro i hi1 hi2
          by_cases hiL : i = L
          · rw [hiL]; exact hv
          · exact e4 i hi1 (by omega)
      | some y =>
        refine ⟨L + 1, ?_, by omega, Nat.le_refl _, ?_, ?_⟩
        · simp only [shrinkLevel, h1, if_true, hv2]
        · intro i hi1 hi2; omega
        · right
          exact ⟨y, by simpa using hv⟩
    · have hL0 : L = 0 := by omega
      subst hL0
      refine ⟨1, by simp [shrinkLevel], Nat.le_refl _, Nat.le_refl _, ?_, Or.inl rfl⟩
      intro i hi1 hi2
      omega

theorem Delete_spec (sl : SkipList) (ns : List Nat) (value : SkipValue) (hinv : Inv sl ns) :
    ∃ sl1 r pre post, sl.Delete value = some (sl1, r) ∧ ns = pre ++ post ∧
      (pre ≠ [] → (sl.nodes (lastOr sl.header pre)).Value.Compare value < 0) ∧
      (∀ y, post.head? = some y → ¬ (sl.nodes y).Value.Compare value < 0) ∧
      ((r = 0 ∧ sl1 = sl ∧ ∀ y, post.head? = some y → (sl.nodes y).Value.Compare value ≠ 0) ∨
       (r = 1 ∧ ∃ x post1, post = x :: post1 ∧ (sl.nodes x).Value.Compare value = 0 ∧
          Inv sl1 (pre ++ post1) ∧
          (∀ a, (sl1.nodes a).Value = (sl.nodes a).Value ∧ ht sl1.nodes a = ht sl.nodes a) ∧
          sl1.header = sl.header ∧ sl1.count = sl.count - 1 ∧
          sl1.findcount = sl.findcount ∧ sl1.nalloc = sl.nalloc)) := by
  obtain ⟨pre, post, update, d1, d2, d3, d4, d5⟩ :=
    descend_spec sl.nodes (fun w => decide (w.Compare value < 0)) sl.header sl.nalloc sl.level ns
      hinv.links hinv.len_lt hinv.level_le sl.level [] ns (fun _ => none) rfl
      (by simp only [lastOr]; rw [hinv.hdr_ht]; exact hinv.level_le) (Nat.le_refl _)
      (fun h => absurd rfl h) (fun i hi1 hi2 => absurd hi1 (by omega))
  simp only [lastOr] at d1
  have hlp := hinv.level_pos
  have hpos_pre : ∀ y ∈ pre, 1 ≤ ht sl.nodes y :=
    fun y hy => hinv.ht_pos y (by rw [d2]; simp [hy])
  have hpos_post : ∀ y ∈ post, 1 ≤ ht sl.nodes y :=
    fun y hy => hinv.ht_pos y (by rw [d2]; simp [hy])
  obtain ⟨hu0, hblk⟩ := trail_zero sl.nodes _ sl.header update pre post hpos_pre hpos_post
    (d4 0 (by omega))
  have hd3 : pre ≠ [] → (sl.nodes (lastOr sl.header pre)).Value.Compare value < 0 := by
    intro h; simpa using d3 h
  have hblk2 : ∀ y, post.head? = some y → ¬ (sl.nodes y).Value.Compare value < 0 := by
    intro y hy; simpa using hblk y hy
  have hnx0 : nx sl.nodes 0 (lastOr sl.header pre) = some post.head? := by
    have hp := hinv.links 0 (by unfold maxLevel; omega)
    rw [filter_zero sl.nodes ns hinv.ht_pos, d2] at hp
    have := hp.pre.last
    rw [this]
    cases post <;> rfl
  have hnx0b : (sl.nodes (lastOr sl.header pre)).next[0]? = some post.head? := hnx0
  cases post with
  | nil =>
    refine ⟨sl, 0, pre, [], ?_, d2, hd3, hblk2, Or.inl ⟨rfl, rfl, by simp⟩⟩
    unfold SkipList.Delete
    simp only [d1, hnx0b, List.head?_nil]
  | cons x post1 =>
    by_cases hcmp : (sl.nodes x).Value.Compare value ≠ 0
    · refine ⟨sl, 0, pre, x :: post1, ?_, d2, hd3, hblk2, Or.inl ⟨rfl, rfl, ?_⟩⟩
      · unfold SkipList.Delete
        simp only [d1, hnx0b, List.head?_cons]
        rw [if_pos hcmp]
      · intro y hy
        simp only [List.head?_cons, Option.some.injEq] at hy
        rw [← hy]; exact hcmp
    · have hcmp0 : (sl.nodes x).Value.Compare value = 0 := not_not.1 hcmp
      have hx_ns : x ∈ ns := by rw [d2]; simp
      have hpre_ns : ∀ y ∈ pre, y ∈ ns := fun y hy => by rw [d2]; simp [hy]
      have hpost_ns : ∀ y ∈ post1, y ∈ ns := fun y hy => by rw [d2]; simp [hy]
      have hnd := hinv.nodup
      rw [d2, List.nodup_append] at hnd
      have hx_post : x ∉ post1 := (List.nodup_cons.1 hnd.2.1).1
      have hx_pre : x ∉ pre := fun h => hnd.2.2 h (List.mem_cons_self _ _)
      have hx_hd : x ≠ sl.header := fun h => hinv.hdr_notin (h ▸ hx_ns)
      have hnd_all : (sl.header :: ns).Nodup := List.nodup_cons.2 ⟨hinv.hdr_notin, hinv.nodup⟩
      -- what the search recorded at each level
      have hlev : ∀ i, i < maxLevel → ∃ p g, pre = p ++ g ∧
          (i < sl.level → update i = some (lastOr sl.header p)) ∧
          (∀ y ∈ g, decide (i < ht sl.nodes y) = false) ∧
          decide (i < ht sl.nodes (lastOr sl.header p)) = true := by
        intro i hi
        by_cases hc : i < sl.level
        · obtain ⟨p, g, q1, q2, q3, q4, _⟩ := d4 i hc
          refine ⟨p, g, q1, fun _ => q2, ?_, by simpa using q4⟩
          intro y hy
          have := q3 y hy
          simp only [decide_eq_false_iff_not]
          omega
        · refine ⟨[], pre, rfl, fun h => absurd h hc, ?_, ?_⟩
          · intro y hy
            have := hinv.ht_le y (hpre_ns y hy)
            simp only [decide_eq_false_iff_not]
            omega
          · simp only [lastOr, decide_eq_true_eq]
            rw [hinv.hdr_ht]
            exact hi
      have hlast_ne : ∀ p g, pre = p ++ g → lastOr sl.header p ≠ x := by
        intro p g hpg hh
        rcases lastOr_mem sl.header p with h | h
        · rw [h] at hh; exact hx_hd hh.symm
        · apply hx_pre; rw [hpg, ← hh]; simp [h]
      have hnext : ∀ i p g, i < maxLevel → pre = p ++ g →
          (∀ y ∈ g, decide (i < ht sl.nodes y) = false) →
          decide (i < ht sl.nodes (lastOr sl.header p)) = true →
          nx sl.nodes i (lastOr sl.header p)
            = some ((x :: post1).filter (fun y => decide (i < ht sl.nodes y))).head? := by
        intro i p g hi q1 q3 q4
        refine next_at_trail (nx sl.nodes i) sl.header _ p g (x :: post1) ?_ q3 q4
        rw [← q1, ← d2]
        exact hinv.links i hi
      have hnext_x : ∀ i p g, i < maxLevel → pre = p ++ g →
          (∀ y ∈ g, decide (i < ht sl.nodes y) = false) →
          decide (i < ht sl.nodes (lastOr sl.header p)) = true →
          (nx sl.nodes i (lastOr sl.header p) = some (some x) ↔ i < ht sl.nodes x) := by
        intro i p g hi q1 q3 q4
        rw [hnext i p g hi q1 q3 q4]
        by_cases hc : i < ht sl.nodes x
        · simp [List.filter_cons, hc]
        · simp only [List.filter_cons, hc, decide_False, Bool.false_eq_true, if_false, iff_false]
          intro h
          have := List.mem_of_mem_head? (Option.some.inj h)
          exact hx_post (List.mem_filter.1 this).1
      obtain ⟨nodes1, s1, f1, g1⟩ := unlink_spec x update sl.level 0 sl.nodes (by
        intro j _ hj
        have hjM : j < maxLevel := by have := hinv.level_le; omega
        obtain ⟨p, g, q1, q2, q3, q4⟩ := hlev j hjM
        refine ⟨hjM, lastOr sl.header p, q2 (by omega), by simpa using q4, ?_⟩
        intro h
        exact (hnext_x j p g hjM q1 q3 q4).1 h)
      have hu0x : lastOr sl.header pre ≠ x := hlast_ne pre [] (by simp)
      have hxnext : nx sl.nodes 0 x = some post1.head? := by
        have hp := hinv.links 0 (by unfold maxLevel; omega)
        rw [filter_zero sl.nodes ns hinv.ht_pos, d2] at hp
        exact (path_append_cons.1 hp).2.head
      have hx0 : (nodes1 x).next[0]? = some post1.head? := by
        have := g1 0 x
        rw [if_neg (by
          intro h
          rw [hu0] at h
          exact hu0x (Option.some.inj h.2.1)), hxnext] at this
        exact this
      have hxprev : (nodes1 x).prev = lastOpt none pre := by
        rw [(f1 x).2.1]
        have hb := hinv.back
        rw [d2, back_append] at hb
        exact hb.2.1
      obtain ⟨nf, hnf⟩ : ∃ n, n = (match post1 with
          | [] => nodes1
          | y :: _ => setPrev nodes1 y (nodes1 x).prev) := ⟨_, rfl⟩
      have nf_nx : ∀ j a, nx nf j a = nx nodes1 j a := by
        intro j a
        rw [hnf]
        cases post1 with
        | nil => rfl
        | cons y post2 => exact nx_setPrev _ _ _ _ _
      have nf_ht : ∀ a, ht nf a = ht sl.nodes a := by
        intro a
        rw [hnf]
        cases post1 with
        | nil => exact (f1 a).1
        | cons y post2 => simp only []; rw [ht_setPrev]; exact (f1 a).1
      have nf_val : ∀ a, (nf a).Value = (sl.nodes a).Value := by
        intro a
        rw [hnf]
        cases post1 with
        | nil => exact (f1 a).2.2
        | cons y post2 => simp only []; rw [value_setPrev]; exact (f1 a).2.2
      have nf_prev : ∀ a, (nf a).prev
          = if post1.head? = some a then lastOpt none pre else (sl.nodes a).prev := by
        intro a
        rw [hnf]
        cases post1 with
        | nil => simp only [List.head?_nil]; rw [if_neg (by simp)]; exact (f1 a).2.1
        | cons y post2 =>
          simp only [List.head?_cons]
          rw [prev_setPrev, hxprev]
          by_cases ha : a = y
          · rw [if_pos ha, if_pos (by rw [ha])]
          · rw [if_neg ha, if_neg (fun h => ha (Option.some.inj h).symm)]
            exact (f1 a).2.1
      have hlinks : ∀ i, i < maxLevel → Path (nx nf i) sl.header
          ((pre ++ post1).filter (fun y => decide (i < ht sl.nodes y))) none := by
        intro i hi
        obtain ⟨p, g, q1, q2, q3, q4⟩ := hlev i hi
        have hpath := hinv.links i hi
        rw [q1]
        refine links_delete (nx sl.nodes i) (nx nf i) sl.header x
          (fun y => decide (i < ht sl.nodes y)) p g post1 ?_ q3 q4 ?_ ?_ ?_
        · rw [← q1, ← d2]; exact hpath
        · rw [← q1, ← d2]; exact hnd_all
        · intro hpx
          have hpx2 : i < ht sl.nodes x := by simpa using hpx
          have hil : i < sl.level := by have := hinv.ht_le x hx_ns; omega
          rw [nf_nx, g1 i _, if_pos]
          exact ⟨by omega, q2 hil, (hnext_x i p g hi q1 q3 q4).2 hpx2⟩
        · intro a ha1 ha2
          rw [nf_nx, g1 i a, if_neg]
          intro h
          have hil : i < sl.level := by omega
          have hau : a = lastOr sl.header p := by
            have := h.2.1
            rw [q2 hil] at this
            exact (Option.some.inj this).symm
          have hpx : i < ht sl.nodes x := by
            apply (hnext_x i p g hi q1 q3 q4).1
            rw [← hau]; exact h.2.2
          exact ha2 (by simpa using hpx) hau
      obtain ⟨L1, hs, hs1, hs2, hs3, hs4⟩ := shrinkLevel_spec nf sl.header sl.level
        (by rw [nf_ht, hinv.hdr_ht]; exact hinv.level_le) hlp
      have hcomp : sl.Delete value = some
          ({ sl with nodes := nf,
                     tail := (match post1 with | [] => lastOpt none pre | _ :: _ => sl.tail),
                     level := L1, count := sl.count - 1 }, 1) := by
        unfold SkipList.Delete
        simp only [d1, hnx0b, List.head?_cons]
        rw [if_neg hcmp]
        simp only [s1, hx0]
        cases post1 with
        | nil =>
          simp only [] at hnf
          subst hnf
          simp only [List.head?_nil, hs, hxprev]
        | cons y post2 =>
          simp only [] at hnf
          subst hnf
          simp only [List.head?_cons, hs]
      have hsub : (pre ++ post1).Sublist ns := by
        rw [d2]
        exact List.Sublist.append_left (List.sublist_cons_self x post1) pre
      have hmem : ∀ y ∈ pre ++ post1, y ∈ ns := fun y hy => hsub.subset hy
      have hfilt : ∀ i, (pre ++ post1).filter (fun y => decide (i < ht nf y))
          = (pre ++ post1).filter (fun y => decide (i < ht sl.nodes y)) := by
        intro i
        apply List.filter_congr
        intro y _
        rw [nf_ht y]
      have hhead : ∀ i, i < maxLevel → nx nf i sl.header
          = some ((pre ++ post1).filter (fun y => decide (i < ht sl.nodes y))).head? :=
        fun i hi => (hlinks i hi).head
      have hle : ∀ y ∈ pre ++ post1, ht sl.nodes y ≤ L1 := by
        intro y hy
        by_contra hc
        have h1 := hinv.ht_le y (hmem y hy)
        have h2 := hs3 L1 (Nat.le_refl _) (by omega)
        rw [hhead L1 (by have := hinv.level_le; omega)] at h2
        have h3 : y ∈ (pre ++ post1).filter (fun y => decide (L1 < ht sl.nodes y)) := by
          rw [List.mem_filter]
          exact ⟨hy, by simp only [decide_eq_true_eq]; omega⟩
        cases hq : (pre ++ post1).filter (fun y => decide (L1 < ht sl.nodes y)) with
        | nil => rw [hq] at h3; simp at h3
        | cons b r => rw [hq] at h2; simp at h2
      have hinv1 : Inv
          { sl with nodes := nf,
                    tail := (match post1 with | [] => lastOpt none pre | _ :: _ => sl.tail),
                    level := L1, count := sl.count - 1 } (pre ++ post1) := by
        refine ⟨?_, ?_, ?_, ?_, ?_, ?_, ?_, ?_, ?_, ?_, ?_, ?_, ?_, ?_, ?_, ?_⟩
        · exact fun h => hinv.hdr_notin (hmem _ h)
        · exact hinv.nodup.sublist hsub
        · show (pre ++ post1).length < sl.nalloc
          have h1 := hinv.len_lt
          rw [d2] at h1
          simp only [List.length_append, List.length_cons] at h1 ⊢
          omega
        · exact fun y hy => hinv.lt_alloc y (hmem y hy)
        · exact hinv.hdr_lt
        · show ht nf sl.header = maxLevel
          rw [nf_ht]; exact hinv.hdr_ht
        · show ∀ y ∈ pre ++ post1, 1 ≤ ht nf y
          intro y hy
          rw [nf_ht]; exact hinv.ht_pos y (hmem y hy)
        · show ∀ y ∈ pre ++ post1, ht nf y ≤ L1
          intro y hy
          rw [nf_ht]; exact hle y hy
        · exact hs1
        · show L1 ≤ maxLevel
          have := hinv.level_le
          omega
        · show L1 = 1 ∨ ∃ y ∈ pre ++ post1, ht nf y = L1
          rcases hs4 with h | ⟨y, hy⟩
          · exact Or.inl h
          · right
            rw [hhead (L1 - 1) (by have := hinv.level_le; omega)] at hy
            have h3 := List.mem_of_mem_head? (Option.some.inj hy)
            rw [List.mem_filter] at h3
            refine ⟨y, h3.1, ?_⟩
            have h4 := hle y h3.1
            have h5 : L1 - 1 < ht sl.nodes y := by simpa using h3.2
            rw [nf_ht]
            omega
        · show ∀ i, i < maxLevel → Path (nx nf i) sl.header
            ((pre ++ post1).filter (fun y => decide (i < ht nf y))) none
          intro i hi
          rw [hfilt i]
          exact hlinks i hi
        · show Back nf none (pre ++ post1)
          have hb := hinv.back
          rw [d2, back_append] at hb
          rw [back_append]
          constructor
          · refine hb.1.congrPrev ?_
            intro c hc
            rw [nf_prev c, if_neg]
            intro h
            exact hnd.2.2 hc (List.mem_cons_of_mem _ (List.mem_of_mem_head? h))
          · cases post1 with
            | nil => trivial
            | cons y post2 =>
              refine ⟨?_, ?_⟩
              · rw [nf_prev, if_pos (by simp)]
              · refine hb.2.2.2.congrPrev ?_
                intro c hc
                have hnd2 := (List.nodup_cons.1 hnd.2.1).2
                have hcy : c ≠ y := by
                  intro h
                  exact (List.nodup_cons.1 hnd2).1 (h ▸ hc)
                rw [nf_prev c, if_neg]
                simp only [List.head?_cons]
                intro h
                exact hcy (Option.some.inj h).symm
        · show (match post1 with | [] => lastOpt none pre | _ :: _ => sl.tail)
            = (pre ++ post1).getLast?
          cases post1 with
          | nil => simp only [List.append_nil]; exact (getLast?_eq_lastOpt pre).symm
          | cons y post2 =>
            simp only []
            rw [hinv.tail_eq, d2, List.getLast?_append, List.getLast?_append,
              List.getLast?_cons_cons]
        · show sl.count - 1 = ((pre ++ post1).length : Int)
          rw [hinv.count_eq, d2]
          simp only [List.length_append, List.length_cons]
          push_cast
          omega
        · show ((pre ++ post1).map (fun y => (nf y).Value.Price)).Pairwise (fun p q => q ≤ p)
          have hs := hinv.sorted
          rw [List.pairwise_map] at hs ⊢
          refine (hs.sublist hsub).imp ?_
          intro a b h
          rw [nf_val a, nf_val b]
          exact h
      refine ⟨_, 1, pre, x :: post1, hcomp, d2, hd3, hblk2, Or.inr ⟨rfl, x, post1, rfl, hcmp0,
        hinv1, ?_, rfl, rfl, rfl, rfl⟩⟩
      intro a
      exact ⟨nf_val a, nf_ht a⟩

/-! ## Find, random heights, reachable lists -/

theorem inv_findcount {sl : SkipList} {ns : List Nat} (h : Inv sl ns) (c : Int) :
    Inv { sl with findcount := c } ns :=
  ⟨h.hdr_notin, h.nodup, h.len_lt, h.lt_alloc, h.hdr_lt, h.hdr_ht, h.ht_pos, h.ht_le,
    h.level_pos, h.level_le, h.level_tight, h.links, h.back, h.tail_eq, h.count_eq, h.sorted⟩

theorem Find_spec (sl : SkipList) (ns : List Nat) (value : SkipValue) (hinv : Inv sl ns) :
    ∃ c pre post, ns = pre ++ post ∧
      (pre ≠ [] → (sl.nodes (lastOr sl.header pre)).Value.Compare value < 0) ∧
      (∀ y, post.head? = some y → ¬ (sl.nodes y).Value.Compare value < 0) ∧
      sl.Find value = some ({ sl with findcount := c },
        match post with
        | [] => none
        | y :: _ =>
          if (sl.nodes y).Value.Compare value = 0 then some (sl.nodes y).Value else none) := by
  obtain ⟨pre, post, update, d1, d2, d3, d4, _⟩ :=
    descend_spec sl.nodes (fun w => decide (w.Compare value < 0)) sl.header sl.nalloc sl.level ns
      hinv.links hinv.len_lt hinv.level_le sl.level [] ns (fun _ => none) rfl
      (by simp only [lastOr]; rw [hinv.hdr_ht]; exact hinv.level_le) (Nat.le_refl _)
      (fun h => absurd rfl h) (fun i hi1 hi2 => absurd hi1 (by omega))
  simp only [lastOr] at d1
  have hlp := hinv.level_pos
  have hpos_pre : ∀ y ∈ pre, 1 ≤ ht sl.nodes y :=
    fun y hy => hinv.ht_pos y (by rw [d2]; simp [hy])
  have hpos_post : ∀ y ∈ post, 1 ≤ ht sl.nodes y :=
    fun y hy => hinv.ht_pos y (by rw [d2]; simp [hy])
  obtain ⟨_, hblk⟩ := trail_zero sl.nodes _ sl.header update pre post hpos_pre hpos_post
    (d4 0 (by omega))
  have hnx0 : (sl.nodes (lastOr sl.header pre)).next[0]? = some post.head? := by
    have hp := hinv.links 0 (by unfold maxLevel; omega)
    rw [filter_zero sl.nodes ns hinv.ht_pos, d2] at hp
    have := hp.pre.last
    unfold nx at this
    rw [this]
    cases post <;> rfl
  have hfl := findLevels_fst sl.nodes value sl.nalloc sl.level sl.header sl.findcount
    (fun _ => none) hinv.level_le
  rw [d1] at hfl
  cases hq : findLevels sl.nodes value sl.nalloc sl.level sl.header sl.findcount with
  | none => rw [hq] at hfl; simp at hfl
  | some r =>
    obtain ⟨x, c⟩ := r
    rw [hq] at hfl
    simp only [Option.map_some', Option.some.injEq] at hfl
    subst hfl
    refine ⟨c, pre, post, d2, fun h => by simpa using d3 h,
      fun y hy => by simpa using hblk y hy, ?_⟩
    unfold SkipList.Find SkipList.find
    simp only [hq, hnx0]
    cases post with
    | nil => rfl
    | cons y post =>
      simp only [List.head?_cons]
      split_ifs <;> rfl

theorem randomLevelLoop_bounds (draws : Nat → Nat) :
    ∀ (fuel k level : Nat), level < maxLevel →
      level ≤ randomLevelLoop draws fuel k level ∧
        randomLevelLoop draws fuel k level ≤ maxLevel := by
  intro fuel
  induction fuel with
  | zero => intro k level h; simp only [randomLevelLoop]; omega
  | succ fuel ih =>
    intro k level h
    simp only [randomLevelLoop]
    split_ifs with h1 h2
    · omega
    · have := ih (k + 1) (level + 1) (by omega)
      omega
    · omega

theorem randomLevel_bounds (draws : Nat → Nat) :
    1 ≤ randomLevel draws ∧ randomLevel draws ≤ maxLevel :=
  randomLevelLoop_bounds draws maxLevel 0 1 (by unfold maxLevel; omega)

theorem Insert_spec (sl : SkipList) (ns : List Nat) (value : SkipValue) (draws : Nat → Nat)
    (hinv : Inv sl ns) :
    ∃ sl1 pre post, sl.Insert value draws = some (sl1, 1) ∧ ns = pre ++ post ∧
      (∀ y ∈ pre, value.Price ≤ (sl.nodes y).Value.Price) ∧
      (∀ y ∈ post, (sl.nodes y).Value.Price < value.Price) ∧
      Inv sl1 (pre ++ sl.nalloc :: post) ∧
      (sl1.nodes sl.nalloc).Value = value ∧ ht sl1.nodes sl.nalloc = randomLevel draws ∧
      (∀ a, a ≠ sl.nalloc →
        (sl1.nodes a).Value = (sl.nodes a).Value ∧ ht sl1.nodes a = ht sl.nodes a) ∧
      sl1.header = sl.header ∧ sl1.count = sl.count + 1 ∧ sl1.findcount = sl.findcount ∧
      sl1.nalloc = sl.nalloc + 1 ∧ sl1.level = max sl.level (randomLevel draws) :=
  insertAt_spec sl ns value (randomLevel draws) hinv (randomLevel_bounds draws).1
    (randomLevel_bounds draws).2

/-- One call on a list that satisfies the invariant returns, and the invariant holds again. -/
theorem step_inv (sl : SkipList) (ns : List Nat) (hinv : Inv sl ns) (op : Op) :
    ∃ sl1 r ns1, step sl op = some (sl1, r) ∧ Inv sl1 ns1 ∧
      sl1.Len = sl.Len + insertsDone [op] [r] - deletesDone [op] [r] := by
  cases op with
  | insert value draws =>
    obtain ⟨sl1, pre, post, e1, _, _, _, e5, _, _, _, _, e10, _⟩ :=
      Insert_spec sl ns value draws hinv
    refine ⟨sl1, Ret.code 1, _, by simp only [step, e1], e5, ?_⟩
    simp only [SkipList.Len, insertsDone, deletesDone, e10]
    simp
  | delete value =>
    obtain ⟨sl1, r, pre, post, e1, _, _, _, e5⟩ := Delete_spec sl ns value hinv
    rcases e5 with ⟨r0, hsl, _⟩ | ⟨r1, x, post1, _, _, hi, _, _, hc, _⟩
    · subst r0; subst hsl
      refine ⟨sl1, Ret.code 0, ns, by simp only [step, e1], hinv, ?_⟩
      simp [SkipList.Len, insertsDone, deletesDone]
    · subst r1
      refine ⟨sl1, Ret.code 1, _, by simp only [step, e1], hi, ?_⟩
      simp only [SkipList.Len, insertsDone, deletesDone, hc]
      simp
  | find value =>
    obtain ⟨c, pre, post, _, _, _, e4⟩ := Find_spec sl ns value hinv
    refine ⟨_, Ret.found _, ns, by rw [step, e4], inv_findcount hinv c, ?_⟩
    simp [SkipList.Len, insertsDone, deletesDone]

theorem reachable_inv {sl : SkipList} (h : Reachable sl) : ∃ ns, Inv sl ns := by
  induction h with
  | new min => exact ⟨[], inv_new min⟩
  | step op _ hs ih =>
    obtain ⟨ns, hinv⟩ := ih
    obtain ⟨sl2, r2, ns1, e1, e2, _⟩ := step_inv _ ns hinv op
    rw [e1] at hs
    simp only [Option.some.injEq, Prod.mk.injEq] at hs
    rw [← hs.1]
    exact ⟨ns1, e2⟩

/-! ## Forward iteration -/

theorem nodesFrom_path (nodes : Nat → skipListNode) :
    ∀ (l : List Nat) (b fuel : Nat), Path (nx nodes 0) b l none → l.length + 1 < fuel →
      nodesFrom nodes fuel (some b) = some (b :: l) := by
  intro l
  induction l with
  | nil =>
    intro b fuel hp hf
    obtain ⟨f1, rfl⟩ : ∃ f1, fuel = f1 + 2 := ⟨fuel - 2, by simp at hf; omega⟩
    simp only [Path, nx] at hp
    simp [nodesFrom, Next, hp]
  | cons c l ih =>
    intro b fuel hp hf
    obtain ⟨f1, rfl⟩ : ∃ f1, fuel = f1 + 1 := ⟨fuel - 1, by simp at hf; omega⟩
    have h1 := hp.1
    simp only [nx] at h1
    have h2 := ih c f1 hp.2 (by simpa using hf)
    simp [nodesFrom, Next, h1, h2]

theorem entries_eq {sl : SkipList} {ns : List Nat} (hinv : Inv sl ns) :
    sl.entries = some (ns.map (fun x => (sl.nodes x).Value)) := by
  have hp := hinv.links 0 (by unfold maxLevel; omega)
  rw [filter_zero sl.nodes ns hinv.ht_pos] at hp
  have hl := hinv.len_lt
  unfold SkipList.entries
  cases ns with
  | nil =>
    simp only [Path, nx] at hp
    obtain ⟨f1, hf⟩ : ∃ f1, sl.nalloc = f1 + 1 := ⟨sl.nalloc - 1, by simp at hl; omega⟩
    simp [Next, hp, hf, nodesFrom]
  | cons b l =>
    have h1 := hp.1
    simp only [nx] at h1
    have hl2 : l.length + 1 < sl.nalloc := by simpa using hl
    simp [Next, h1, nodesFrom_path sl.nodes l b sl.nalloc hp.2 hl2]

/-! ## Searches with a monotone test -/

/-- Where a test holds on exactly a prefix of the nodes, every search stops at the end
of that prefix. -/
theorem split_unique (t : Nat → Prop) (a : Nat) (pre post pre1 post1 : List Nat)
    (h : pre ++ post = pre1 ++ post1) (h1 : ∀ y ∈ pre, t y) (h2 : ∀ y ∈ post, ¬ t y)
    (h3 : pre1 ≠ [] → t (lastOr a pre1)) (h4 : ∀ y, post1.head? = some y → ¬ t y) :
    pre1 = pre ∧ post1 = post := by
  rcases List.append_eq_append_iff.1 h with ⟨m, e1, e2⟩ | ⟨m, e1, e2⟩
  · cases m with
    | nil => simp at e1 e2; exact ⟨e1, e2.symm⟩
    | cons b m =>
      exfalso
      have hne : pre1 ≠ [] := by rw [e1]; simp
      have ht := h3 hne
      rw [e1, lastOr_append] at ht
      have hm : lastOr (lastOr a pre) (b :: m) ∈ b :: m := lastOr_mem_of_ne_nil _ (by simp)
      exact h2 _ (by rw [e2]; exact List.mem_append_left _ hm) ht
  · cases m with
    | nil => simp at e1 e2; exact ⟨e1.symm, e2⟩
    | cons b m =>
      exfalso
      have hb : post1.head? = some b := by rw [e2]; rfl
      exact h4 b hb (h1 b (by rw [e1]; simp))

theorem run_inv : ∀ (ops : List Op) (sl : SkipList) (ns : List Nat), Inv sl ns →
    ∃ sl1 rs ns1, run sl ops = some (sl1, rs) ∧ Inv sl1 ns1 ∧
      sl1.Len = sl.Len + insertsDone ops rs - deletesDone ops rs := by
  intro ops
  induction ops with
  | nil =>
    intro sl ns hinv
    exact ⟨sl, [], ns, rfl, hinv, by simp [insertsDone, deletesDone]⟩
  | cons op ops ih =>
    intro sl ns hinv
    obtain ⟨sl1, r, ns1, e1, e2, e3⟩ := step_inv sl ns hinv op
    obtain ⟨sl2, rs, ns2, f1, f2, f3⟩ := ih sl1 ns1 e2
    refine ⟨sl2, r :: rs, ns2, by simp only [run, e1, f1], f2, ?_⟩
    rw [f3, e3]
    cases op <;> cases r <;> simp [insertsDone, deletesDone] <;> omega

/-! ## Claims -/

/-- C1 (the code departs from it): after `Insert` of an entry with Price 100 that arrived
at time 5 and then of an entry with Price 100 that arrived at time 3, the forward
iteration and the full `Walk` visit the later arrival first, so the sequence is not
sorted by the ordering rule. -/
theorem walk_equal_price_in_call_order :
    (run (NewSkipList ⟨0, ⟨0, 0⟩⟩)
        [Op.insert ⟨100, ⟨5, 1⟩⟩ (fun _ => 65535),
         Op.insert ⟨100, ⟨3, 2⟩⟩ (fun _ => 65535)]).bind (fun p => p.1.entries)
      = some [⟨100, ⟨5, 1⟩⟩, ⟨100, ⟨3, 2⟩⟩] ∧
    (run (NewSkipList ⟨0, ⟨0, 0⟩⟩)
        [Op.insert ⟨100, ⟨5, 1⟩⟩ (fun _ => 65535),
         Op.insert ⟨100, ⟨3, 2⟩⟩ (fun _ => 65535)]).bind (fun p => p.1.walked)
      = some [⟨5, 1⟩, ⟨3, 2⟩] ∧
    ¬ ByRule [⟨100, ⟨5, 1⟩⟩, ⟨100, ⟨3, 2⟩⟩] := by
  decide

/-- C2 as stated fails: with an entry of key (100, 3) stored, `Insert` of a second entry
with the same key followed by `Find` of that key returns the entry stored first, not the
one just inserted. -/
theorem duplicate_key_find_returns_first :
    (run (NewSkipList ⟨0, ⟨0, 0⟩⟩)
        [Op.insert ⟨100, ⟨3, 1⟩⟩ (fun _ => 65535),
         Op.insert ⟨100, ⟨3, 2⟩⟩ (fun _ => 65535),
         Op.find ⟨100, ⟨3, 2⟩⟩]).map (fun p => p.2)
      = some [Ret.code 1, Ret.code 1, Ret.found (some ⟨100, ⟨3, 1⟩⟩)] ∧
    (⟨100, ⟨3, 1⟩⟩ : SkipValue) ≠ ⟨100, ⟨3, 2⟩⟩ := by
  decide

/-- C2 (amended): on a reachable list in which every stored entry with the Price of the
new entry arrived strictly earlier than it, `Insert` returns 1 and `Find` with the same
key, called right after, returns exactly the entry just inserted. -/
theorem find_after_insert (sl : SkipList) (hr : Reachable sl) (value : SkipValue)
    (draws : Nat → Nat) (es : List SkipValue) (he : sl.entries = some es)
    (hfresh : ∀ e ∈ es, e.Price = value.Price → e.Value.EnterTime < value.Value.EnterTime) :
    ∃ sl1 sl2, sl.Insert value draws = some (sl1, 1) ∧
      sl1.Find value = some (sl2, some value) := by
  obtain ⟨ns, hinv⟩ := reachable_inv hr
  rw [entries_eq hinv] at he
  have hes : es = ns.map (fun x => (sl.nodes x).Value) := (Option.some.inj he).symm
  obtain ⟨sl1, pre, post, e1, d2, hp1, hp2, hinv1, hval, _, hframe, hhdr, _⟩ :=
    Insert_spec sl ns value draws hinv
  obtain ⟨c, pre1, post1, f1, f2, f3, f4⟩ := Find_spec sl1 _ value hinv1
  have hne : ∀ y ∈ ns, y ≠ sl.nalloc :=
    fun y hy hh => absurd (hinv.lt_alloc y hy) (by omega)
  have hsplit := split_unique (fun y => (sl1.nodes y).Value.Compare value < 0) sl1.header
    pre (sl.nalloc :: post) pre1 post1 f1 ?_ ?_ f2 f3
  · obtain ⟨_, hpost⟩ := hsplit
    refine ⟨sl1, { sl1 with findcount := c }, e1, ?_⟩
    rw [f4, hpost]
    simp only [hval]
    rw [if_pos ((compare_eq_zero_iff value value).2 ⟨rfl, le_refl _⟩)]
  · intro y hy
    have hyns : y ∈ ns := by rw [d2]; simp [hy]
    show (sl1.nodes y).Value.Compare value < 0
    rw [(hframe y (hne y hyns)).1, compare_lt_zero_iff]
    have h1 := hp1 y hy
    rcases lt_or_eq_of_le h1 with h | h
    · exact Or.inl h
    · right
      refine ⟨h.symm, ?_⟩
      apply hfresh _ _ h.symm
      rw [hes]
      exact List.mem_map_of_mem _ hyns
  · intro y hy
    show ¬ ((sl1.nodes y).Value.Compare value < 0)
    rw [compare_lt_zero_iff]
    rcases List.mem_cons.1 hy with h | h
    · rw [h, hval]
      omega
    · have hyns : y ∈ ns := by rw [d2]; simp [h]
      rw [(hframe y (hne y hyns)).1]
      have := hp2 y h
      omega

/-- Witness for `find_after_insert`: a list holding one entry of Price 100 that arrived
at time 1 receives an entry of Price 100 that arrived at time 2. -/
theorem find_after_insert_witness :
    ∃ sl, step (NewSkipList ⟨0, ⟨0, 0⟩⟩) (Op.insert ⟨100, ⟨1, 1⟩⟩ (fun _ => 0))
        = some (sl, Ret.code 1) ∧
      sl.entries = some [⟨100, ⟨1, 1⟩⟩] ∧
      ∃ sl1 sl2, sl.Insert ⟨100, ⟨2, 2⟩⟩ (fun _ => 65535) = some (sl1, 1) ∧
        sl1.Find ⟨100, ⟨2, 2⟩⟩ = some (sl2, some ⟨100, ⟨2, 2⟩⟩) :=
  ⟨_, rfl, rfl,
    find_after_insert _
      (Reachable.step (Op.insert ⟨100, ⟨1, 1⟩⟩ (fun _ => 0)) (Reachable.new ⟨0, ⟨0, 0⟩⟩) rfl)
      ⟨100, ⟨2, 2⟩⟩ (fun _ => 65535)
      [⟨100, ⟨1, 1⟩⟩] rfl (by decide)⟩

/-- C3 (the code departs from it): with one entry of Price 100 that arrived at time 5
stored, `Find` with the key (100, 3) returns that entry, although no stored entry has
arrival time 3. -/
theorem find_returns_later_arrival :
    (run (NewSkipList ⟨0, ⟨0, 0⟩⟩)
        [Op.insert ⟨100, ⟨5, 1⟩⟩ (fun _ => 65535),
         Op.find ⟨100, ⟨3, 0⟩⟩]).map (fun p => p.2)
      = some [Ret.code 1, Ret.found (some ⟨100, ⟨5, 1⟩⟩)] := by
  decide

/-- C4 (the code departs from it): with one entry of Price 100 that arrived at time 5
stored, `Delete` with the key (100, 3) returns 1 and `Len` drops from 1 to 0. -/
theorem delete_absent_key_removes :
    (run (NewSkipList ⟨0, ⟨0, 0⟩⟩)
        [Op.insert ⟨100, ⟨5, 1⟩⟩ (fun _ => 65535)]).map (fun p => p.1.Len) = some 1 ∧
    (run (NewSkipList ⟨0, ⟨0, 0⟩⟩)
        [Op.insert ⟨100, ⟨5, 1⟩⟩ (fun _ => 65535),
         Op.delete ⟨100, ⟨3, 0⟩⟩]).map (fun p => (p.2, p.1.Len))
      = some ([Ret.code 1, Ret.code 1], 0) := by
  decide

/-- C5 (the code departs from it): with entries (100, 5) and (100, 7) stored, `Delete`
with the key (100, 3) returns 1 and removes the entry that arrived at time 5, which is
not an entry whose arrival time equals that of the key. -/
theorem delete_removes_other_arrival :
    (run (NewSkipList ⟨0, ⟨0, 0⟩⟩)
        [Op.insert ⟨100, ⟨5, 1⟩⟩ (fun _ => 65535),
         Op.insert ⟨100, ⟨7, 2⟩⟩ (fun _ => 65535),
         Op.delete ⟨100, ⟨3, 0⟩⟩]).map (fun p => p.2)
      = some [Ret.code 1, Ret.code 1, Ret.code 1] ∧
    (run (NewSkipList ⟨0, ⟨0, 0⟩⟩)
        [Op.insert ⟨100, ⟨5, 1⟩⟩ (fun _ => 65535),
         Op.insert ⟨100, ⟨7, 2⟩⟩ (fun _ => 65535),
         Op.delete ⟨100, ⟨3, 0⟩⟩]).bind (fun p => p.1.entries)
      = some [⟨100, ⟨7, 2⟩⟩] := by
  decide

/-- C6 (the code departs from it): the same three calls return different results from
`Find` when the second inserted node draws height 2 instead of height 1. -/
theorem find_depends_on_heights :
    randomLevel (fun _ => 65535) = 1 ∧
    randomLevel (fun k => if k = 0 then 0 else 65535) = 2 ∧
    (run (NewSkipList ⟨0, ⟨0, 0⟩⟩)
        [Op.insert ⟨100, ⟨5, 1⟩⟩ (fun _ => 65535),
         Op.insert ⟨100, ⟨3, 2⟩⟩ (fun _ => 65535),
         Op.find ⟨100, ⟨4, 0⟩⟩]).map (fun p => p.2)
      = some [Ret.code 1, Ret.code 1, Ret.found (some ⟨100, ⟨5, 1⟩⟩)] ∧
    (run (NewSkipList ⟨0, ⟨0, 0⟩⟩)
        [Op.insert ⟨100, ⟨5, 1⟩⟩ (fun _ => 65535),
         Op.insert ⟨100, ⟨3, 2⟩⟩ (fun k => if k = 0 then 0 else 65535),
         Op.find ⟨100, ⟨4, 0⟩⟩]).map (fun p => p.2)
      = some [Ret.code 1, Ret.code 1, Ret.found none] := by
  decide

/-- C7: every sequence of `Insert`, `Delete` and `Find` calls on a new list returns, and
afterwards `Len()` is the number of `Insert` calls that returned 1 minus the number of
`Delete` calls that returned 1, and is not negative. -/
theorem len_counts_inserts_minus_deletes (min : SkipValue) (ops : List Op) :
    ∃ sl rs, run (NewSkipList min) ops = some (sl, rs) ∧
      sl.Len = (insertsDone ops rs : Int) - (deletesDone ops rs : Int) ∧ 0 ≤ sl.Len := by
  obtain ⟨sl, rs, ns, e1, e2, e3⟩ := run_inv ops (NewSkipList min) [] (inv_new min)
  refine ⟨sl, rs, e1, ?_, ?_⟩
  · rw [e3]
    simp [SkipList.Len, NewSkipList]
  · rw [SkipList.Len, e2.count_eq]
    exact Int.ofNat_nonneg _

/-- C8: `A.Compare(B)` is negative exactly when A has the higher Price, or the Prices are
equal and A arrived earlier. -/
theorem compare_neg_iff_ranks_before (A B : SkipValue) :
    A.Compare B < 0 ↔
      A.Price > B.Price ∨ (A.Price = B.Price ∧ A.Value.EnterTime < B.Value.EnterTime) := by
  unfold SkipValue.Compare
  split_ifs <;> omega

/-- C9 (the code departs from it): `Compare` returns 0 for two keys of equal Price whose
arrival times differ, when the receiver arrived later. -/
theorem compare_zero_on_later_arrival :
    SkipValue.Compare ⟨100, ⟨5, 1⟩⟩ ⟨100, ⟨3, 2⟩⟩ = 0 := by
  decide

/-- C10 (the code departs from it): for keys of equal Price and different arrival times
`Compare` returns 0 in one direction and -1 in the other. -/
theorem compare_not_antisymmetric :
    SkipValue.Compare ⟨100, ⟨5, 1⟩⟩ ⟨100, ⟨3, 2⟩⟩ = 0 ∧
    SkipValue.Compare ⟨100, ⟨3, 2⟩⟩ ⟨100, ⟨5, 1⟩⟩ = -1 := by
  decide

/-! ## Walk and the iterator on a list that satisfies the invariant -/

theorem walkLoop_path {σ : Type} (nodes : Nat → skipListNode) (cb : σ → Item → σ × Bool) :
    ∀ (l : List Nat) (b fuel : Nat) (s : σ), Path (nx nodes 0) b l none → l.length + 1 < fuel →
      walkLoop nodes cb fuel (some b) s
        = some (callsUntilFalse cb s ((b :: l).map (fun x => (nodes x).Value.Value))) := by
  intro l
  induction l with
  | nil =>
    intro b fuel s hp hf
    obtain ⟨f1, rfl⟩ : ∃ f1, fuel = f1 + 2 := ⟨fuel - 2, by simp at hf; omega⟩
    simp only [Path, nx] at hp
    simp only [walkLoop, Next, hp, List.map_cons, List.map_nil, callsUntilFalse]
    split_ifs <;> rfl
  | cons c l ih =>
    intro b fuel s hp hf
    obtain ⟨f1, rfl⟩ : ∃ f1, fuel = f1 + 1 := ⟨fuel - 1, by simp at hf; omega⟩
    have h1 := hp.1
    simp only [nx] at h1
    have h2 := ih c f1 (cb s (nodes b).Value.Value).1 hp.2 (by simpa using hf)
    simp only [walkLoop, Next, h1, h2, List.map_cons, callsUntilFalse]
    split_ifs <;> rfl

theorem Walk_eq {σ : Type} {sl : SkipList} {ns : List Nat} (hinv : Inv sl ns)
    (cb : σ → Item → σ × Bool) (s : σ) :
    sl.Walk (some cb) s
      = some (callsUntilFalse cb s (ns.map (fun x => (sl.nodes x).Value.Value))) := by
  have hp := hinv.links 0 (by unfold maxLevel; omega)
  rw [filter_zero sl.nodes ns hinv.ht_pos] at hp
  have hl := hinv.len_lt
  unfold SkipList.Walk
  cases ns with
  | nil =>
    simp only [Path, nx] at hp
    obtain ⟨f1, hf⟩ : ∃ f1, sl.nalloc = f1 + 1 := ⟨sl.nalloc - 1, by simp at hl; omega⟩
    simp [Next, hp, hf, walkLoop, callsUntilFalse]
  | cons b l =>
    have h1 := hp.1
    simp only [nx] at h1
    have hl2 : l.length + 1 < sl.nalloc := by simpa using hl
    simp only [Next, h1]
    exact walkLoop_path sl.nodes cb l b sl.nalloc s hp.2 hl2

theorem Walk_nil {σ : Type} {sl : SkipList} {ns : List Nat} (hinv : Inv sl ns) (s : σ) :
    sl.Walk (none : Option (σ → Item → σ × Bool)) s = some s := by
  have hp := (hinv.links 0 (by unfold maxLevel; omega)).head
  unfold nx at hp
  simp [SkipList.Walk, Next, hp]

theorem callsUntilFalse_record (l : List Item) :
    ∀ acc : List Item,
      callsUntilFalse (fun (acc : List Item) (it : Item) => (acc ++ [it], true)) acc l
        = acc ++ l := by
  induction l with
  | nil => intro acc; simp [callsUntilFalse]
  | cons a l ih => intro acc; simp [callsUntilFalse, ih]

theorem walked_eq {sl : SkipList} {ns : List Nat} (hinv : Inv sl ns) :
    sl.walked = some (ns.map (fun x => (sl.nodes x).Value.Value)) := by
  unfold SkipList.walked
  rw [Walk_eq hinv, callsUntilFalse_record]
  simp

theorem forward_eq {sl : SkipList} {ns : List Nat} (hinv : Inv sl ns) :
    sl.forward = some ns := by
  have hp := hinv.links 0 (by unfold maxLevel; omega)
  rw [filter_zero sl.nodes ns hinv.ht_pos] at hp
  have hl := hinv.len_lt
  unfold SkipList.forward
  cases ns with
  | nil =>
    simp only [Path, nx] at hp
    obtain ⟨f1, hf⟩ : ∃ f1, sl.nalloc = f1 + 1 := ⟨sl.nalloc - 1, by simp at hl; omega⟩
    simp [Next, hp, hf, nodesFrom]
  | cons b l =>
    have h1 := hp.1
    simp only [nx] at h1
    have hl2 : l.length + 1 < sl.nalloc := by simpa using hl
    simp [Next, h1, nodesFrom_path sl.nodes l b sl.nalloc hp.2 hl2]

theorem nodesBack_back (nodes : Nat → skipListNode) :
    ∀ (l : List Nat) (p : Option Nat) (lp : List Nat),
      Back nodes p l → (∀ fuel, lp.length < fuel → nodesBack nodes fuel p = some lp) →
      ∀ fuel, (l.reverse ++ lp).length < fuel →
        nodesBack nodes fuel (lastOpt p l) = some (l.reverse ++ lp) := by
  intro l
  induction l with
  | nil => intro p lp _ h fuel hf; simpa [lastOpt] using h fuel (by simpa using hf)
  | cons b l ih =>
    intro p lp hb h fuel hf
    have key : ∀ fuel, (b :: lp).length < fuel → nodesBack nodes fuel (some b) = some (b :: lp) := by
      intro fuel hf
      obtain ⟨f1, rfl⟩ : ∃ f1, fuel = f1 + 1 := ⟨fuel - 1, by simp at hf; omega⟩
      simp only [nodesBack, Prev, hb.1, h f1 (by simpa using hf)]
    have := ih (some b) (b :: lp) hb.2 key fuel (by simpa using hf)
    simpa [lastOpt] using this

theorem backward_eq {sl : SkipList} {ns : List Nat} (hinv : Inv sl ns) :
    sl.backward = some ns.reverse := by
  unfold SkipList.backward
  rw [hinv.tail_eq, getLast?_eq_lastOpt]
  have := nodesBack_back sl.nodes ns none [] hinv.back
    (by intro fuel hf
        obtain ⟨f1, rfl⟩ : ∃ f1, fuel = f1 + 1 := ⟨fuel - 1, by simp at hf; omega⟩
        rfl)
    sl.nalloc (by simpa using hinv.len_lt)
  simpa using this

theorem First_eq {sl : SkipList} {ns : List Nat} (hinv : Inv sl ns) (nd : Option Nat) :
    SkipListIterator.First { list := sl, node := nd }
      = some ({ list := sl, node := match ns.head? with | some x => some x | none => nd },
          ns.head?.map (fun x => (sl.nodes x).Value)) := by
  have hp := (hinv.links 0 (by unfold maxLevel; omega)).head
  rw [filter_zero sl.nodes ns hinv.ht_pos] at hp
  unfold nx at hp
  unfold SkipListIterator.First
  simp only [hp]
  cases ns with
  | nil => rfl
  | cons b l => rfl

theorem Last_eq {sl : SkipList} {ns : List Nat} (hinv : Inv sl ns) (nd : Option Nat) :
    SkipListIterator.Last { list := sl, node := nd }
      = some ({ list := sl, node := match ns.getLast? with | some x => some x | none => nd },
          ns.getLast?.map (fun x => (sl.nodes x).Value)) := by
  unfold SkipListIterator.Last
  simp only [hinv.tail_eq]
  cases h : ns.getLast? with
  | none => rfl
  | some x => rfl

theorem findAdvance_count (nodes : Nat → skipListNode) (value : SkipValue) (i : Nat) :
    ∀ (fuel x : Nat) (c : Int) (r : Nat × Int),
      findAdvance nodes value i fuel x c = some r → c ≤ r.2 := by
  intro fuel
  induction fuel with
  | zero => intro x c r h; simp [findAdvance] at h
  | succ fuel ih =>
    intro x c r h
    simp only [findAdvance] at h
    cases hq : (nodes x).next[i]? with
    | none => rw [hq] at h; simp at h
    | some o =>
      rw [hq] at h
      cases o with
      | none => simp only [Option.some.injEq] at h; rw [← h]
      | some y =>
        simp only at h
        split_ifs at h
        · have := ih y (c + 1) r h
          omega
        · simp only [Option.some.injEq] at h; rw [← h]

theorem findLevels_count (nodes : Nat → skipListNode) (value : SkipValue) (fuel : Nat) :
    ∀ (n x : Nat) (c : Int) (r : Nat × Int),
      findLevels nodes value fuel n x c = some r → c ≤ r.2 := by
  intro n
  induction n with
  | zero =>
    intro x c r h
    simp only [findLevels, Option.some.injEq] at h
    rw [← h]
  | succ n ih =>
    intro x c r h
    simp only [findLevels] at h
    cases hq : findAdvance nodes value n fuel x c with
    | none => rw [hq] at h; simp at h
    | some r1 =>
      rw [hq] at h
      have h1 := findAdvance_count nodes value n fuel x c r1 hq
      have h2 := ih r1.1 r1.2 r h
      omega

/-! ## Insert on the sequence of entries -/

theorem Insert_entries (sl : SkipList) (ns : List Nat) (value : SkipValue) (draws : Nat → Nat)
    (hinv : Inv sl ns) :
    ∃ sl1 ns1 pre post, sl.Insert value draws = some (sl1, 1) ∧ Inv sl1 ns1 ∧
      sl.entries = some (pre ++ post) ∧ sl1.entries = some (pre ++ value :: post) ∧
      (∀ e ∈ pre, value.Price ≤ e.Price) ∧ (∀ e ∈ post, e.Price < value.Price) ∧
      sl1.Len = sl.Len + 1 := by
  obtain ⟨sl1, pre, post, e1, d2, hp1, hp2, hinv1, hval, _, hframe, _, hcount, _⟩ :=
    Insert_spec sl ns value draws hinv
  have hne : ∀ y ∈ ns, y ≠ sl.nalloc :=
    fun y hy hh => absurd (hinv.lt_alloc y hy) (by omega)
  have hmap : ∀ l : List Nat, (∀ y ∈ l, y ∈ ns) →
      l.map (fun x => (sl1.nodes x).Value) = l.map (fun x => (sl.nodes x).Value) := by
    intro l hl
    apply List.map_congr_left
    intro y hy
    exact (hframe y (hne y (hl y hy))).1
  refine ⟨sl1, _, pre.map (fun x => (sl.nodes x).Value), post.map (fun x => (sl.nodes x).Value),
    e1, hinv1, ?_, ?_, ?_, ?_, ?_⟩
  · rw [entries_eq hinv, d2, List.map_append]
  · rw [entries_eq hinv1, List.map_append, List.map_cons, hval,
      hmap pre (fun y hy => by rw [d2]; simp [hy]),
      hmap post (fun y hy => by rw [d2]; simp [hy])]
  · intro e he
    obtain ⟨y, hy, rfl⟩ := List.mem_map.1 he
    exact hp1 y hy
  · intro e he
    obtain ⟨y, hy, rfl⟩ := List.mem_map.1 he
    exact hp2 y hy
  · simp only [SkipList.Len, hcount]

/-- One call keeps the header where it is and does not touch its value or its height. -/
theorem step_header (sl : SkipList) (ns : List Nat) (hinv : Inv sl ns) (op : Op)
    (sl1 : SkipList) (r : Ret) (h : step sl op = some (sl1, r)) :
    sl1.header = sl.header ∧ (sl1.nodes sl1.header).Value = (sl.nodes sl.header).Value := by
  cases op with
  | insert value draws =>
    obtain ⟨sl2, pre, post, e1, _, _, _, _, _, _, hframe, hhdr, _⟩ :=
      Insert_spec sl ns value draws hinv
    simp only [step, e1, Option.some.injEq, Prod.mk.injEq] at h
    rw [← h.1, hhdr]
    have hne : sl.header ≠ sl.nalloc := by
      have := hinv.hdr_lt
      omega
    exact ⟨rfl, (hframe _ hne).1⟩
  | delete value =>
    obtain ⟨sl2, r2, pre, post, e1, _, _, _, e5⟩ := Delete_spec sl ns value hinv
    simp only [step, e1, Option.some.injEq, Prod.mk.injEq] at h
    rw [← h.1]
    rcases e5 with ⟨_, hsl, _⟩ | ⟨_, x, post1, _, _, _, hframe, hhdr, _⟩
    · rw [hsl]; exact ⟨rfl, rfl⟩
    · rw [hhdr]; exact ⟨rfl, (hframe _).1⟩
  | find value =>
    obtain ⟨c, pre, post, _, _, _, e4⟩ := Find_spec sl ns value hinv
    simp only [step, e4, Option.some.injEq, Prod.mk.injEq] at h
    rw [← h.1]
    exact ⟨rfl, rfl⟩

theorem run_header : ∀ (ops : List Op) (sl : SkipList) (ns : List Nat), Inv sl ns →
    ∃ sl1 rs ns1, run sl ops = some (sl1, rs) ∧ Inv sl1 ns1 ∧
      sl1.header = sl.header ∧ (sl1.nodes sl1.header).Value = (sl.nodes sl.header).Value := by
  intro ops
  induction ops with
  | nil =>
    intro sl ns hinv
    exact ⟨sl, [], ns, rfl, hinv, rfl, rfl⟩
  | cons op ops ih =>
    intro sl ns hinv
    obtain ⟨sl1, r, ns1, e1, e2, _⟩ := step_inv sl ns hinv op
    obtain ⟨g1, g2⟩ := step_header sl ns hinv op sl1 r e1
    obtain ⟨sl2, rs, ns2, f1, f2, f3, f4⟩ := ih sl1 ns1 e2
    refine ⟨sl2, r :: rs, ns2, by simp only [run, e1, f1], f2, by rw [f3, g1], ?_⟩
    rw [f4, g2]

/-- What `Find` leaves behind, on any heap: at most the step counter differs, and it
does not decrease. -/
theorem Find_frame (sl : SkipList) (value : SkipValue) (sl1 : SkipList)
    (r : Option SkipValue) (h : sl.Find value = some (sl1, r)) :
    sl1 = { sl with findcount := sl1.findcount } ∧ sl.findcount ≤ sl1.findcount := by
  unfold SkipList.Find SkipList.find at h
  cases hq : findLevels sl.nodes value sl.nalloc sl.level sl.header sl.findcount with
  | none => rw [hq] at h; simp at h
  | some q =>
    obtain ⟨x, c⟩ := q
    have hc := findLevels_count sl.nodes value sl.nalloc sl.level sl.header sl.findcount _ hq
    rw [hq] at h
    simp only at h
    have key : sl1 = { sl with findcount := c } := by
      cases hn : (sl.nodes x).next[0]? with
      | none => rw [hn] at h; simp at h
      | some o =>
        rw [hn] at h
        cases o with
        | none =>
          simp only [Option.some.injEq, Prod.mk.injEq] at h
          exact h.1.symm
        | some y =>
          simp only at h
          split_ifs at h <;>
          · simp only [Option.some.injEq, Prod.mk.injEq] at h
            exact h.1.symm
    rw [key]
    exact ⟨rfl, hc⟩

/-! ## Claims C11 to C20 -/

/-- C11: on every reachable list, `Insert` of any entry (its key may already be stored)
returns 1, `Len()` grows by exactly 1, and the entries afterwards are the entries before,
in the same order, with the new entry put in between: nothing is replaced or merged. -/
theorem insert_adds_one_entry (sl : SkipList) (hr : Reachable sl) (value : SkipValue)
    (draws : Nat → Nat) :
    ∃ sl1 pre post, sl.Insert value draws = some (sl1, 1) ∧ sl1.Len = sl.Len + 1 ∧
      sl.entries = some (pre ++ post) ∧ sl1.entries = some (pre ++ value :: post) ∧
      sl.walked = some ((pre ++ post).map (fun e => e.Value)) ∧
      sl1.walked = some ((pre ++ value :: post).map (fun e => e.Value)) := by
  obtain ⟨ns, hinv⟩ := reachable_inv hr
  obtain ⟨sl1, ns1, pre, post, e1, hinv1, e2, e3, _, _, e4⟩ :=
    Insert_entries sl ns value draws hinv
  refine ⟨sl1, pre, post, e1, e4, e2, e3, ?_, ?_⟩
  · rw [walked_eq hinv]
    rw [entries_eq hinv] at e2
    rw [← Option.some.inj e2, List.map_map]
    rfl
  · rw [walked_eq hinv1]
    rw [entries_eq hinv1] at e3
    rw [← Option.some.inj e3, List.map_map]
    rfl

/-- Witness for `insert_adds_one_entry`: a second entry with the key (100, 1) is inserted
into a list that already holds one. -/
theorem insert_adds_one_entry_witness :
    ∃ sl, step (NewSkipList ⟨0, ⟨0, 0⟩⟩) (Op.insert ⟨100, ⟨1, 1⟩⟩ (fun _ => 0))
        = some (sl, Ret.code 1) ∧
      ∃ sl1 pre post, sl.Insert ⟨100, ⟨1, 2⟩⟩ (fun _ => 65535) = some (sl1, 1) ∧
        sl1.Len = sl.Len + 1 ∧
        sl.entries = some (pre ++ post) ∧ sl1.entries = some (pre ++ ⟨100, ⟨1, 2⟩⟩ :: post) ∧
        sl.walked = some ((pre ++ post).map (fun e => e.Value)) ∧
        sl1.walked = some ((pre ++ ⟨100, ⟨1, 2⟩⟩ :: post).map (fun e => e.Value)) :=
  ⟨_, rfl,
    insert_adds_one_entry _
      (Reachable.step (Op.insert ⟨100, ⟨1, 1⟩⟩ (fun _ => 0)) (Reachable.new ⟨0, ⟨0, 0⟩⟩) rfl)
      ⟨100, ⟨1, 2⟩⟩ (fun _ => 65535)⟩

/-- C12 (the code departs from it): with entries (100, 3) and (100, 5) stored, a second
entry with the key (100, 3) is put after the entry (100, 5), not immediately after the
stored entry with its own key. -/
theorem insert_equal_key_after_price_block :
    (run (NewSkipList ⟨0, ⟨0, 0⟩⟩)
        [Op.insert ⟨100, ⟨3, 1⟩⟩ (fun _ => 65535),
         Op.insert ⟨100, ⟨5, 2⟩⟩ (fun _ => 65535),
         Op.insert ⟨100, ⟨3, 3⟩⟩ (fun _ => 65535)]).bind (fun p => p.1.entries)
      = some [⟨100, ⟨3, 1⟩⟩, ⟨100, ⟨5, 2⟩⟩, ⟨100, ⟨3, 3⟩⟩] := by
  decide

/-- C13 (the code departs from it): with the distinct keys (100, 5) and (100, 7) stored,
`Delete` of (100, 5) returns 1 and `Find` of (100, 5), called right after, returns the
entry (100, 7) instead of nil. -/
theorem find_after_delete_returns_other :
    (run (NewSkipList ⟨0, ⟨0, 0⟩⟩)
        [Op.insert ⟨100, ⟨5, 1⟩⟩ (fun _ => 65535),
         Op.insert ⟨100, ⟨7, 2⟩⟩ (fun _ => 65535),
         Op.delete ⟨100, ⟨5, 0⟩⟩,
         Op.find ⟨100, ⟨5, 0⟩⟩]).map (fun p => p.2)
      = some [Ret.code 1, Ret.code 1, Ret.code 1, Ret.found (some ⟨100, ⟨7, 2⟩⟩)] := by
  decide

/-- C14: on every reachable list `Delete` returns 0 or 1, and whenever it returns 0 the
list it leaves is the list it was called on: the same heap (every forward and backward
link, every entry), tail, level, count and step counter. -/
theorem delete_zero_leaves_list (sl : SkipList) (hr : Reachable sl) (value : SkipValue) :
    ∃ sl1 r, sl.Delete value = some (sl1, r) ∧ (r = 0 ∨ r = 1) ∧ (r = 0 → sl1 = sl) := by
  obtain ⟨ns, hinv⟩ := reachable_inv hr
  obtain ⟨sl1, r, pre, post, e1, _, _, _, e5⟩ := Delete_spec sl ns value hinv
  refine ⟨sl1, r, e1, ?_, ?_⟩
  · rcases e5 with ⟨h, _⟩ | ⟨h, _⟩
    · exact Or.inl h
    · exact Or.inr h
  · intro hr0
    rcases e5 with ⟨_, h, _⟩ | ⟨h, _⟩
    · exact h
    · rw [h] at hr0
      exact absurd hr0 (by decide)

/-- Witness for `delete_zero_leaves_list`: `Delete` of a key with a lower Price than the
one stored entry. -/
theorem delete_zero_leaves_list_witness :
    ∃ sl, step (NewSkipList ⟨0, ⟨0, 0⟩⟩) (Op.insert ⟨100, ⟨1, 1⟩⟩ (fun _ => 0))
        = some (sl, Ret.code 1) ∧
      ∃ sl1 r, sl.Delete ⟨50, ⟨1, 0⟩⟩ = some (sl1, r) ∧ (r = 0 ∨ r = 1) ∧ (r = 0 → sl1 = sl) :=
  ⟨_, rfl,
    delete_zero_leaves_list _
      (Reachable.step (Op.insert ⟨100, ⟨1, 1⟩⟩ (fun _ => 0)) (Reachable.new ⟨0, ⟨0, 0⟩⟩) rfl)
      ⟨50, ⟨1, 0⟩⟩⟩

/-- C15 as stated fails: with one entry of Price 100 stored, `Find` of a key of Price 50
steps over that entry and leaves the step counter `findcount` at 1 instead of 0. -/
theorem find_counts_its_steps :
    (run (NewSkipList ⟨0, ⟨0, 0⟩⟩)
        [Op.insert ⟨100, ⟨5, 1⟩⟩ (fun _ => 65535)]).map (fun p => p.1.FindCount) = some 0 ∧
    (run (NewSkipList ⟨0, ⟨0, 0⟩⟩)
        [Op.insert ⟨100, ⟨5, 1⟩⟩ (fun _ => 65535),
         Op.find ⟨50, ⟨0, 0⟩⟩]).map (fun p => p.1.FindCount) = some 1 := by
  decide

/-! ## The step counter of `find` -/

theorem findAdvance_trace (nodes : Nat → skipListNode) (value : SkipValue) (i : Nat) :
    ∀ (fuel x : Nat) (c : Int) (tr : List Nat),
      findAdvance nodes value i fuel x (c + tr.length)
        = (findAdvanceTrace nodes value i fuel x tr).map
            (fun r => (r.1, c + (r.2.length : Int))) := by
  intro fuel
  induction fuel with
  | zero => intro x c tr; rfl
  | succ fuel ih =>
    intro x c tr
    simp only [findAdvance, findAdvanceTrace]
    cases h : (nodes x).next[i]? with
    | none => rfl
    | some o =>
      cases o with
      | none => rfl
      | some y =>
        by_cases hc : (nodes y).Value.Compare value < 0
        · simp only [hc, if_true]
          rw [← ih y c (tr ++ [y])]
          congr 1
          simp only [List.length_append, List.length_singleton]
          push_cast
          ring
        · simp only [hc, if_false]
          rfl

theorem findLevels_trace (nodes : Nat → skipListNode) (value : SkipValue) (fuel : Nat) :
    ∀ (n x : Nat) (c : Int) (tr : List Nat),
      findLevels nodes value fuel n x (c + tr.length)
        = (findLevelsTrace nodes value fuel n x tr).map
            (fun r => (r.1, c + (r.2.length : Int))) := by
  intro n
  induction n with
  | zero => intro x c tr; rfl
  | succ n ih =>
    intro x c tr
    simp only [findLevels, findLevelsTrace]
    rw [findAdvance_trace nodes value n fuel x c tr]
    cases h : findAdvanceTrace nodes value n fuel x tr with
    | none => rfl
    | some r =>
      obtain ⟨x1, tr1⟩ := r
      simp only [Option.map_some']
      exact ih x1 c tr1

theorem findAdvanceTrace_split (nodes : Nat → skipListNode) (value : SkipValue) (i : Nat) :
    ∀ (post : List Nat) (x fuel : Nat) (tr : List Nat),
      Path (nx nodes i) x (post.filter (fun y => decide (i < ht nodes y))) none →
      post.length < fuel →
      ∃ mid post1, post = mid ++ post1 ∧
        findAdvanceTrace nodes value i fuel x tr
          = some (lastOr x mid, tr ++ mid.filter (fun y => decide (i < ht nodes y))) ∧
        (∀ y ∈ mid, i < ht nodes y → (nodes y).Value.Compare value < 0) ∧
        (mid ≠ [] → i < ht nodes (lastOr x mid)) := by
  intro post
  induction post with
  | nil =>
    intro x fuel tr hp hf
    refine ⟨[], [], rfl, ?_, by simp, by simp⟩
    cases fuel with
    | zero => simp at hf
    | succ fuel =>
      simp only [List.filter_nil, Path, nx] at hp
      simp [findAdvanceTrace, hp, lastOr]
  | cons b post ih =>
    intro x fuel tr hp hf
    cases fuel with
    | zero => simp at hf
    | succ fuel =>
      have hf2 : post.length < fuel := by simpa using hf
      by_cases hb : i < ht nodes b
      · simp only [List.filter_cons, hb, decide_True, if_true, Path] at hp
        have h1 := hp.1
        simp only [nx] at h1
        by_cases htb : (nodes b).Value.Compare value < 0
        · obtain ⟨mid, post1, e1, e2, e3, e4⟩ := ih b fuel (tr ++ [b]) hp.2 hf2
          refine ⟨b :: mid, post1, by simp [e1], ?_, ?_, ?_⟩
          · simp [findAdvanceTrace, h1, htb, e2, lastOr, List.filter_cons, hb]
          · intro y hy hy2
            rcases List.mem_cons.1 hy with rfl | hy
            · exact htb
            · exact e3 y hy hy2
          · intro _
            simp only [lastOr]
            by_cases hm : mid = []
            · subst hm; simpa [lastOr] using hb
            · exact e4 hm
        · refine ⟨[], b :: post, rfl, ?_, by simp, by simp⟩
          simp [findAdvanceTrace, h1, htb, lastOr]
      · have hfl : (b :: post).filter (fun y => decide (i < ht nodes y))
            = post.filter (fun y => decide (i < ht nodes y)) := by
          simp [List.filter_cons, hb]
        rw [hfl] at hp
        obtain ⟨mid, post1, e1, e2, e3, e4⟩ := ih x (fuel + 1) tr hp (by omega)
        by_cases hm : mid = []
        · subst hm
          exact ⟨[], b :: post, rfl, e2, by simp, by simp⟩
        · refine ⟨b :: mid, post1, by simp [e1], ?_, ?_, ?_⟩
          · rw [e2]
            have hfm : (b :: mid).filter (fun y => decide (i < ht nodes y))
                = mid.filter (fun y => decide (i < ht nodes y)) := by
              simp [List.filter_cons, hb]
            rw [hfm]
            simp only [lastOr]
            rw [lastOr_of_ne_nil x b hm]
          · intro y hy hy2
            rcases List.mem_cons.1 hy with rfl | hy
            · exact absurd hy2 hb
            · exact e3 y hy hy2
          · intro _
            simp only [lastOr]
            rw [← lastOr_of_ne_nil x b hm]
            exact e4 hm

theorem findLevelsTrace_spec (nodes : Nat → skipListNode) (value : SkipValue)
    (header fuel : Nat) (ns : List Nat)
    (hlinks : ∀ i, i < maxLevel →
      Path (nx nodes i) header (ns.filter (fun x => decide (i < ht nodes x))) none)
    (hfuel : ns.length < fuel) :
    ∀ (n : Nat) (pre post tr : List Nat),
      ns = pre ++ post → n ≤ ht nodes (lastOr header pre) → n ≤ maxLevel →
      tr.Sublist pre → (∀ y ∈ tr, (nodes y).Value.Compare value < 0) →
      lastOr header tr = lastOr header pre →
      ∃ pre1 post1 tr1,
        findLevelsTrace nodes value fuel n (lastOr header pre) tr
          = some (lastOr header pre1, tr1) ∧
        ns = pre1 ++ post1 ∧ tr1.Sublist pre1 ∧
        (∀ y ∈ tr1, (nodes y).Value.Compare value < 0) ∧
        lastOr header tr1 = lastOr header pre1 := by
  intro n
  induction n with
  | zero =>
    intro pre post tr hns _ _ hsub hneg hlast
    exact ⟨pre, post, tr, rfl, hns, hsub, hneg, hlast⟩
  | succ n ih =>
    intro pre post tr hns hht hn hsub hneg hlast
    have hnM : n < maxLevel := by omega
    have hp0 := hlinks n hnM
    rw [hns, List.filter_append] at hp0
    have hp1 := hp0.suffix
    rw [lastOr_filter _ _ _ (by simpa using hht)] at hp1
    have hlen : post.length < fuel := by
      have : ns.length = pre.length + post.length := by rw [hns]; simp
      omega
    obtain ⟨mid, post1, e1, e2, e3, e4⟩ :=
      findAdvanceTrace_split nodes value n post (lastOr header pre) fuel tr hp1 hlen
    have hx1 : lastOr (lastOr header pre) mid = lastOr header (pre ++ mid) :=
      (lastOr_append header pre mid).symm
    have hht1 : n < ht nodes (lastOr header (pre ++ mid)) := by
      rw [← hx1]
      by_cases hm : mid = []
      · subst hm; simp only [lastOr]; omega
      · exact e4 hm
    have hlast1 : lastOr header (tr ++ mid.filter (fun y => decide (n < ht nodes y)))
        = lastOr header (pre ++ mid) := by
      rw [lastOr_append, hlast, ← hx1]
      by_cases hm : mid = []
      · subst hm; rfl
      · exact lastOr_filter _ _ _ (by simpa using e4 hm)
    obtain ⟨pre1, post2, tr1, f1, f2, f3, f4, f5⟩ :=
      ih (pre ++ mid) post1 (tr ++ mid.filter (fun y => decide (n < ht nodes y)))
        (by rw [hns, e1]; simp) (by omega) (by omega)
        (List.Sublist.append hsub (List.filter_sublist mid))
        (by
          intro y hy
          rcases List.mem_append.1 hy with h | h
          · exact hneg y h
          · obtain ⟨h1, h2⟩ := List.mem_filter.1 h
            exact e3 y h1 (by simpa using h2))
        hlast1
    refine ⟨pre1, post2, tr1, ?_, f2, f3, f4, f5⟩
    simp only [findLevelsTrace, e2, hx1]
    exact f1

/-- The list `Find` leaves is the list `find` leaves. -/
theorem Find_of_find (sl : SkipList) (value : SkipValue) (s sl1 : SkipList) (x : Nat)
    (r : Option SkipValue) (hf : sl.find value = some (s, x))
    (h : sl.Find value = some (sl1, r)) : sl1 = s := by
  unfold SkipList.Find at h
  rw [hf] at h
  simp only at h
  cases hn : (s.nodes x).next[0]? with
  | none => rw [hn] at h; simp at h
  | some o =>
    rw [hn] at h
    cases o with
    | none =>
      simp only [Option.some.injEq, Prod.mk.injEq] at h
      exact h.1.symm
    | some y =>
      simp only at h
      split_ifs at h <;>
        · simp only [Option.some.injEq, Prod.mk.injEq] at h
          exact h.1.symm

/-- What `find` does on a list that satisfies the invariant: the nodes it steps over
are stored nodes in forward order, each ranks before the key, the last one is where the
search stops, and the step counter goes up by their number. -/
theorem find_steps (sl : SkipList) (ns : List Nat) (value : SkipValue) (hinv : Inv sl ns) :
    ∃ x steps, sl.findTrace value = some (x, steps) ∧
      sl.find value = some ({ sl with findcount := sl.findcount + steps.length }, x) ∧
      steps.Sublist ns ∧ (∀ y ∈ steps, (sl.nodes y).Value.Compare value < 0) ∧
      x = lastOr sl.header steps := by
  obtain ⟨pre1, post1, tr1, f1, f2, f3, f4, f5⟩ :=
    findLevelsTrace_spec sl.nodes value sl.header sl.nalloc ns hinv.links hinv.len_lt
      sl.level [] ns [] rfl
      (by simp only [lastOr]; rw [hinv.hdr_ht]; exact hinv.level_le) hinv.level_le
      (List.Sublist.refl _) (by simp) rfl
  simp only [lastOr] at f1
  have hc := findLevels_trace sl.nodes value sl.nalloc sl.level sl.header sl.findcount []
  simp only [List.length_nil, Nat.cast_zero, add_zero] at hc
  refine ⟨lastOr sl.header pre1, tr1, f1, ?_, ?_, f4, f5.symm⟩
  · unfold SkipList.find
    rw [hc, f1]
    rfl
  · rw [f2]
    exact f3.trans (List.sublist_append_left pre1 post1)

/-- C15 (amended): on every reachable list `Find` returns, and the list it leaves differs
from the list it was called on in the step counter `findcount` only: the heap (entries,
order, all links), tail, level and count are the same, and `findcount` has gone up by
exactly one for each node the search stepped over.  Those nodes are stored nodes, in
forward order and each at most once, every one of them ranks before the key, and the
search stops at the last of them (at the header when there is none); so `findcount` does
not decrease, and it goes up by at most `Len()`. -/
theorem find_changes_findcount_only (sl : SkipList) (hr : Reachable sl) (value : SkipValue) :
    ∃ sl1 r, sl.Find value = some (sl1, r) ∧
      sl1 = { sl with findcount := sl1.findcount } ∧ sl.findcount ≤ sl1.findcount ∧
      ∃ x steps ns, sl.findTrace value = some (x, steps) ∧
        sl1.findcount = sl.findcount + steps.length ∧
        sl.find value = some (sl1, x) ∧
        sl.forward = some ns ∧ steps.Sublist ns ∧
        (∀ y ∈ steps, (sl.nodes y).Value.Compare value < 0) ∧
        x = lastOr sl.header steps ∧
        sl1.findcount ≤ sl.findcount + sl.Len := by
  obtain ⟨ns, hinv⟩ := reachable_inv hr
  obtain ⟨c, pre, post, _, _, _, e4⟩ := Find_spec sl ns value hinv
  obtain ⟨x, steps, g1, g2, g3, g4, g5⟩ := find_steps sl ns value hinv
  have hs := Find_of_find sl value _ _ x _ g2 e4
  have hlen : (steps.length : Int) ≤ sl.Len := by
    have := g3.length_le
    simp only [SkipList.Len, hinv.count_eq]
    exact_mod_cast this
  refine ⟨_, _, e4, (Find_frame sl value _ _ e4).1, (Find_frame sl value _ _ e4).2,
    x, steps, ns, g1, ?_, ?_, forward_eq hinv, g3, g4, g5, ?_⟩
  · rw [hs]
  · rw [hs]; exact g2
  · rw [hs]
    show sl.findcount + (steps.length : Int) ≤ sl.findcount + sl.Len
    omega

/-- Witness for `find_changes_findcount_only`: `Find` of a key of Price 50 on a list that
holds entries of Prices 200 and 100, which steps over both. -/
theorem find_changes_findcount_only_witness :
    ∃ sl, run (NewSkipList ⟨0, ⟨0, 0⟩⟩)
        [Op.insert ⟨100, ⟨1, 1⟩⟩ (fun _ => 0), Op.insert ⟨200, ⟨2, 2⟩⟩ (fun _ => 0)]
        = some (sl, [Ret.code 1, Ret.code 1]) ∧
      ∃ sl1 r, sl.Find ⟨50, ⟨1, 0⟩⟩ = some (sl1, r) ∧
        sl1 = { sl with findcount := sl1.findcount } ∧ sl.findcount ≤ sl1.findcount ∧
        ∃ x steps ns, sl.findTrace ⟨50, ⟨1, 0⟩⟩ = some (x, steps) ∧
          sl1.findcount = sl.findcount + steps.length ∧
          sl.find ⟨50, ⟨1, 0⟩⟩ = some (sl1, x) ∧
          sl.forward = some ns ∧ steps.Sublist ns ∧
          (∀ y ∈ steps, (sl.nodes y).Value.Compare ⟨50, ⟨1, 0⟩⟩ < 0) ∧
          x = lastOr sl.header steps ∧
          sl1.findcount ≤ sl.findcount + sl.Len :=
  ⟨_, rfl,
    find_changes_findcount_only _
      (Reachable.step (Op.insert ⟨200, ⟨2, 2⟩⟩ (fun _ => 0))
        (Reachable.step (Op.insert ⟨100, ⟨1, 1⟩⟩ (fun _ => 0)) (Reachable.new ⟨0, ⟨0, 0⟩⟩) rfl)
        rfl)
      ⟨50, ⟨1, 0⟩⟩⟩

/-- Evaluation of the search record: on the entries of Prices 200 and 100, stored at
addresses 2 and 1 with heights 1, `find` of a key of Price 50 steps over both nodes and
leaves `findcount` at 2; of a key of Price 150 it steps over the first only; and on the
same entries with heights 32 and 1 the key of Price 50 still takes two steps. -/
theorem findTrace_examples :
    (run (NewSkipList ⟨0, ⟨0, 0⟩⟩)
        [Op.insert ⟨100, ⟨1, 1⟩⟩ (fun _ => 65535),
         Op.insert ⟨200, ⟨2, 2⟩⟩ (fun _ => 65535)]).bind
      (fun p => p.1.findTrace ⟨50, ⟨0, 0⟩⟩) = some (1, [2, 1]) ∧
    (run (NewSkipList ⟨0, ⟨0, 0⟩⟩)
        [Op.insert ⟨100, ⟨1, 1⟩⟩ (fun _ => 65535), Op.insert ⟨200, ⟨2, 2⟩⟩ (fun _ => 65535),
         Op.find ⟨50, ⟨0, 0⟩⟩]).map (fun p => p.1.FindCount) = some 2 ∧
    (run (NewSkipList ⟨0, ⟨0, 0⟩⟩)
        [Op.insert ⟨100, ⟨1, 1⟩⟩ (fun _ => 65535),
         Op.insert ⟨200, ⟨2, 2⟩⟩ (fun _ => 65535)]).bind
      (fun p => p.1.findTrace ⟨150, ⟨0, 0⟩⟩) = some (2, [2]) ∧
    (run (NewSkipList ⟨0, ⟨0, 0⟩⟩)
        [Op.insert ⟨100, ⟨1, 1⟩⟩ (fun _ => 65535), Op.insert ⟨200, ⟨2, 2⟩⟩ (fun _ => 65535),
         Op.find ⟨150, ⟨0, 0⟩⟩]).map (fun p => p.1.FindCount) = some 1 ∧
    (run (NewSkipList ⟨0, ⟨0, 0⟩⟩)
        [Op.insert ⟨100, ⟨1, 1⟩⟩ (fun _ => 65535),
         Op.insert ⟨200, ⟨2, 2⟩⟩ (fun _ => 0)]).bind
      (fun p => p.1.findTrace ⟨50, ⟨0, 0⟩⟩) = some (1, [2, 1]) ∧
    (run (NewSkipList ⟨0, ⟨0, 0⟩⟩)
        [Op.insert ⟨100, ⟨1, 1⟩⟩ (fun _ => 65535), Op.insert ⟨200, ⟨2, 2⟩⟩ (fun _ => 0),
         Op.find ⟨50, ⟨0, 0⟩⟩]).map (fun p => p.1.FindCount) = some 2 := by
  decide

/-- C16: on every reachable list `GetIterator` returns an iterator whose `First()` returns
the first entry of the forward sequence and whose `Last()` returns the last one; each
returns nil exactly when `Len()` is 0, and on a list with one entry both return it. -/
theorem iterator_first_last (sl : SkipList) (hr : Reachable sl) :
    ∃ es it it1 it2, sl.entries = some es ∧ sl.GetIterator = some it ∧
      it.First = some (it1, es.head?) ∧ it.Last = some (it2, es.getLast?) ∧
      (es.head? = none ↔ sl.Len = 0) ∧ (es.getLast? = none ↔ sl.Len = 0) ∧
      (sl.Len = 1 → ∃ e, es = [e] ∧ es.head? = some e ∧ es.getLast? = some e) := by
  obtain ⟨ns, hinv⟩ := reachable_inv hr
  have hlen : sl.Len = (ns.length : Int) := hinv.count_eq
  obtain ⟨nd, hnd⟩ : ∃ nd : Option Nat,
      nd = (match ns.head? with | some x => some x | none => none) := ⟨_, rfl⟩
  refine ⟨ns.map (fun x => (sl.nodes x).Value), { list := sl, node := nd },
    { list := sl, node := match ns.head? with | some x => some x | none => nd },
    { list := sl, node := match ns.getLast? with | some x => some x | none => nd },
    entries_eq hinv, ?_, ?_, ?_, ?_, ?_, ?_⟩
  · unfold SkipList.GetIterator
    rw [First_eq hinv none, hnd]
  · rw [First_eq hinv, List.head?_map]
  · rw [Last_eq hinv, List.getLast?_map]
  · rw [hlen]
    cases ns with
    | nil => simp
    | cons b l => simp; omega
  · rw [hlen, List.getLast?_map]
    cases ns with
    | nil => simp
    | cons b l =>
      rw [getLast?_eq_lastOr 0 (by simp)]
      simp
      omega
  · intro h1
    rw [hlen] at h1
    cases ns with
    | nil => simp at h1
    | cons b l =>
      cases l with
      | nil => exact ⟨_, rfl, rfl, rfl⟩
      | cons c l => simp at h1; omega

/-- Witness for `iterator_first_last`: the list with one entry. -/
theorem iterator_first_last_witness :
    ∃ sl, step (NewSkipList ⟨0, ⟨0, 0⟩⟩) (Op.insert ⟨100, ⟨1, 1⟩⟩ (fun _ => 0))
        = some (sl, Ret.code 1) ∧
      ∃ es it it1 it2, sl.entries = some es ∧ sl.GetIterator = some it ∧
        it.First = some (it1, es.head?) ∧ it.Last = some (it2, es.getLast?) ∧
        (es.head? = none ↔ sl.Len = 0) ∧ (es.getLast? = none ↔ sl.Len = 0) ∧
        (sl.Len = 1 → ∃ e, es = [e] ∧ es.head? = some e ∧ es.getLast? = some e) :=
  ⟨_, rfl,
    iterator_first_last _
      (Reachable.step (Op.insert ⟨100, ⟨1, 1⟩⟩ (fun _ => 0)) (Reachable.new ⟨0, ⟨0, 0⟩⟩) rfl)⟩

/-- C17: on every reachable list with entries e1..en, `Walk` with a callback returns after
calling it on the payloads of e1, e2, ... in that order, up to and including the first
call that returns false (on all of them if none does); `Walk` with a nil callback returns
without calling anything.  `Walk` only reads the list. -/
theorem walk_calls_until_false (sl : SkipList) (hr : Reachable sl) :
    ∃ es, sl.entries = some es ∧
      (∀ (σ : Type) (cb : σ → Item → σ × Bool) (s : σ),
        sl.Walk (some cb) s = some (callsUntilFalse cb s (es.map (fun e => e.Value)))) ∧
      (∀ (σ : Type) (s : σ), sl.Walk (none : Option (σ → Item → σ × Bool)) s = some s) := by
  obtain ⟨ns, hinv⟩ := reachable_inv hr
  refine ⟨_, entries_eq hinv, ?_, ?_⟩
  · intro σ cb s
    rw [Walk_eq hinv, List.map_map]
    rfl
  · intro σ s
    exact Walk_nil hinv s

/-- Witness for `walk_calls_until_false`: the list with one entry. -/
theorem walk_calls_until_false_witness :
    ∃ sl, step (NewSkipList ⟨0, ⟨0, 0⟩⟩) (Op.insert ⟨100, ⟨1, 1⟩⟩ (fun _ => 0))
        = some (sl, Ret.code 1) ∧
      ∃ es, sl.entries = some es ∧
        (∀ (σ : Type) (cb : σ → Item → σ × Bool) (s : σ),
          sl.Walk (some cb) s = some (callsUntilFalse cb s (es.map (fun e => e.Value)))) ∧
        (∀ (σ : Type) (s : σ), sl.Walk (none : Option (σ → Item → σ × Bool)) s = some s) :=
  ⟨_, rfl,
    walk_calls_until_false _
      (Reachable.step (Op.insert ⟨100, ⟨1, 1⟩⟩ (fun _ => 0)) (Reachable.new ⟨0, ⟨0, 0⟩⟩) rfl)⟩

/-- C18: on every reachable list the base level is a consistent doubly linked list: for
nodes a, b adjacent in forward order `a.Next()` is b and `b.Prev()` is a, `Next()` of the
last node is nil, `Prev()` of the first node is nil, the header is not among the nodes,
and following `Prev()` from `tail` visits the forward sequence in reverse. -/
theorem base_level_doubly_linked (sl : SkipList) (hr : Reachable sl) :
    ∃ ns, sl.forward = some ns ∧ sl.backward = some ns.reverse ∧ sl.header ∉ ns ∧
      (∀ l1 a b l2, ns = l1 ++ a :: b :: l2 →
        Next sl.nodes (some a) = some (some b) ∧ Prev sl.nodes (some b) = some a) ∧
      (∀ a, ns.getLast? = some a → Next sl.nodes (some a) = some none) ∧
      (∀ a, ns.head? = some a → Prev sl.nodes (some a) = none) := by
  obtain ⟨ns, hinv⟩ := reachable_inv hr
  have hp := hinv.links 0 (by unfold maxLevel; omega)
  rw [filter_zero sl.nodes ns hinv.ht_pos] at hp
  refine ⟨ns, forward_eq hinv, backward_eq hinv, hinv.hdr_notin, ?_, ?_, ?_⟩
  · intro l1 a b l2 h
    rw [h] at hp
    have hb := hinv.back
    rw [h, back_append] at hb
    exact ⟨(path_append_cons.1 hp).2.1, hb.2.2.1⟩
  · intro a ha
    obtain ⟨l, hl⟩ : ∃ l, ns = l ++ [a] := by
      rcases List.eq_nil_or_concat ns with h | ⟨l, b, h⟩
      · rw [h] at ha; simp at ha
      · rw [h] at ha
        simp only [List.concat_eq_append, List.getLast?_concat, Option.some.injEq] at ha
        exact ⟨l, by rw [h, ha]; simp⟩
    rw [hl] at hp
    exact (path_append_cons.1 hp).2
  · intro a ha
    have hb := hinv.back
    cases ns with
    | nil => simp at ha
    | cons b l =>
      simp only [List.head?_cons, Option.some.injEq] at ha
      rw [← ha]
      exact hb.1

/-- Witness for `base_level_doubly_linked`: the list with one entry. -/
theorem base_level_doubly_linked_witness :
    ∃ sl, step (NewSkipList ⟨0, ⟨0, 0⟩⟩) (Op.insert ⟨100, ⟨1, 1⟩⟩ (fun _ => 0))
        = some (sl, Ret.code 1) ∧
      ∃ ns, sl.forward = some ns ∧ sl.backward = some ns.reverse ∧ sl.header ∉ ns ∧
        (∀ l1 a b l2, ns = l1 ++ a :: b :: l2 →
          Next sl.nodes (some a) = some (some b) ∧ Prev sl.nodes (some b) = some a) ∧
        (∀ a, ns.getLast? = some a → Next sl.nodes (some a) = some none) ∧
        (∀ a, ns.head? = some a → Prev sl.nodes (some a) = none) :=
  ⟨_, rfl,
    base_level_doubly_linked _
      (Reachable.step (Op.insert ⟨100, ⟨1, 1⟩⟩ (fun _ => 0)) (Reachable.new ⟨0, ⟨0, 0⟩⟩) rfl)⟩

/-- C19: whatever value the header is given and whatever calls follow (also calls with
the header's own key), the header stays the header with its value and its 32 links, it is
not among the nodes that `Walk`, `First` and `Last` reach, `Len()` counts those nodes only,
and what `Find` returns is the value of one of those nodes. -/
theorem header_never_stored (min : SkipValue) (ops : List Op) :
    ∃ sl rs ns, run (NewSkipList min) ops = some (sl, rs) ∧
      sl.header = (NewSkipList min).header ∧ (sl.nodes sl.header).Value = min ∧
      ht sl.nodes sl.header = maxLevel ∧
      sl.forward = some ns ∧ sl.header ∉ ns ∧ sl.Len = (ns.length : Int) ∧
      sl.walked = some (ns.map (fun x => (sl.nodes x).Value.Value)) ∧
      (∃ it it1 it2 r1 r2, sl.GetIterator = some it ∧
        it.First = some (it1, r1) ∧ it.Last = some (it2, r2) ∧
        it.node ≠ some sl.header ∧ it1.node ≠ some sl.header ∧ it2.node ≠ some sl.header) ∧
      (∀ value, ∃ sl1 r, sl.Find value = some (sl1, r) ∧
        (r = none ∨ ∃ x ∈ ns, r = some (sl.nodes x).Value)) := by
  obtain ⟨sl, rs, ns, e1, hinv, e2, e3⟩ := run_header ops (NewSkipList min) [] (inv_new min)
  have hnode : ∀ o : Option Nat, (∀ x, o = some x → x ∈ ns) →
      (match o with | some x => some x | none => (none : Option Nat)) ≠ some sl.header := by
    intro o ho h
    cases o with
    | none => simp at h
    | some x =>
      simp only [Option.some.injEq] at h
      exact hinv.hdr_notin (h ▸ ho x rfl)
  have hhead : ∀ x, ns.head? = some x → x ∈ ns := fun x hx => List.mem_of_mem_head? hx
  have hlast : ∀ x, ns.getLast? = some x → x ∈ ns := fun x hx => List.mem_of_mem_getLast? hx
  refine ⟨sl, rs, ns, e1, e2, ?_, hinv.hdr_ht, forward_eq hinv, hinv.hdr_notin, hinv.count_eq,
    walked_eq hinv, ?_, ?_⟩
  · rw [e3]; rfl
  · refine ⟨{ list := sl, node := match ns.head? with | some x => some x | none => none },
      { list := sl, node := match ns.head? with | some x => some x | none => none },
      { list := sl, node := match ns.getLast? with
                            | some x => some x
                            | none => (match ns.head? with | some x => some x | none => none) },
      ns.head?.map (fun x => (sl.nodes x).Value), ns.getLast?.map (fun x => (sl.nodes x).Value),
      ?_, ?_, Last_eq hinv _, hnode _ hhead, hnode _ hhead, ?_⟩
    · unfold SkipList.GetIterator
      rw [First_eq hinv none]
    · rw [First_eq hinv]
      cases ns.head? <;> rfl
    · show (match ns.getLast? with
          | some x => some x
          | none => (match ns.head? with | some x => some x | none => none)) ≠ some sl.header
      cases hq : ns.getLast? with
      | none => exact hnode _ hhead
      | some x =>
        intro h
        simp only [Option.some.injEq] at h
        exact hinv.hdr_notin (h ▸ hlast x hq)
  · intro value
    obtain ⟨c, pre, post, d1, _, _, e4⟩ := Find_spec sl ns value hinv
    refine ⟨_, _, e4, ?_⟩
    cases post with
    | nil => exact Or.inl rfl
    | cons y post =>
      simp only
      split_ifs
      · exact Or.inr ⟨y, by rw [d1]; simp, rfl⟩
      · exact Or.inl rfl

/-- C20: on every reachable list `Insert`, `Delete`, `Find`, `Walk`, `First` and `Last`
return: no loop runs out of fuel, no index into a `next` slice or into the `update` array
is out of range and no nil pointer is followed; `level` lies between 1 and 32 and no
stored node is higher than `level`. -/
theorem operations_total (sl : SkipList) (hr : Reachable sl) :
    (∀ value draws, ∃ sl1, sl.Insert value draws = some (sl1, 1)) ∧
    (∀ value, ∃ sl1 r, sl.Delete value = some (sl1, r)) ∧
    (∀ value, ∃ sl1 r, sl.Find value = some (sl1, r)) ∧
    (∀ (σ : Type) (cb : Option (σ → Item → σ × Bool)) (s : σ), ∃ s1, sl.Walk cb s = some s1) ∧
    (∃ it it1 it2 r1 r2, sl.GetIterator = some it ∧
      it.First = some (it1, r1) ∧ it.Last = some (it2, r2)) ∧
    1 ≤ sl.level ∧ sl.level ≤ maxLevel ∧
    ∃ ns, sl.forward = some ns ∧ ∀ x ∈ ns, 1 ≤ ht sl.nodes x ∧ ht sl.nodes x ≤ sl.level := by
  obtain ⟨ns, hinv⟩ := reachable_inv hr
  refine ⟨?_, ?_, ?_, ?_, ?_, hinv.level_pos, hinv.level_le, ns, forward_eq hinv,
    fun x hx => ⟨hinv.ht_pos x hx, hinv.ht_le x hx⟩⟩
  · intro value draws
    obtain ⟨sl1, _, _, e1, _⟩ := Insert_spec sl ns value draws hinv
    exact ⟨sl1, e1⟩
  · intro value
    obtain ⟨sl1, r, _, _, e1, _⟩ := Delete_spec sl ns value hinv
    exact ⟨sl1, r, e1⟩
  · intro value
    obtain ⟨c, _, _, _, _, _, e4⟩ := Find_spec sl ns value hinv
    exact ⟨_, _, e4⟩
  · intro σ cb s
    cases cb with
    | none => exact ⟨s, Walk_nil hinv s⟩
    | some f => exact ⟨_, Walk_eq hinv f s⟩
  · refine ⟨{ list := sl, node := match ns.head? with | some x => some x | none => none },
      _, _, _, _, ?_, First_eq hinv _, Last_eq hinv _⟩
    unfold SkipList.GetIterator
    rw [First_eq hinv none]

/-- Witness for `operations_total`: the list with one entry. -/
theorem operations_total_witness :
    ∃ sl, step (NewSkipList ⟨0, ⟨0, 0⟩⟩) (Op.insert ⟨100, ⟨1, 1⟩⟩ (fun _ => 0))
        = some (sl, Ret.code 1) ∧
      (∀ value draws, ∃ sl1, sl.Insert value draws = some (sl1, 1)) ∧
      (∀ value, ∃ sl1 r, sl.Delete value = some (sl1, r)) ∧
      (∀ value, ∃ sl1 r, sl.Find value = some (sl1, r)) ∧
      (∀ (σ : Type) (cb : Option (σ → Item → σ × Bool)) (s : σ),
        ∃ s1, sl.Walk cb s = some s1) ∧
      (∃ it it1 it2 r1 r2, sl.GetIterator = some it ∧
        it.First = some (it1, r1) ∧ it.Last = some (it2, r2)) ∧
      1 ≤ sl.level ∧ sl.level ≤ maxLevel ∧
      ∃ ns, sl.forward = some ns ∧ ∀ x ∈ ns, 1 ≤ ht sl.nodes x ∧ ht sl.nodes x ≤ sl.level :=
  ⟨_, rfl,
    operations_total _
      (Reachable.step (Op.insert ⟨100, ⟨1, 1⟩⟩ (fun _ => 0)) (Reachable.new ⟨0, ⟨0, 0⟩⟩) rfl)⟩

/-! ## Insert and Delete on the sequence of entries -/

theorem insertAt_entries (sl : SkipList) (ns : List Nat) (value : SkipValue) (lvl : Nat)
    (hinv : Inv sl ns) (hl1 : 1 ≤ lvl) (hl2 : lvl ≤ maxLevel) :
    ∃ sl1 ns1 pre post, sl.insertAt value lvl = some (sl1, 1) ∧ Inv sl1 ns1 ∧
      sl.entries = some (pre ++ post) ∧ sl1.entries = some (pre ++ value :: post) ∧
      (∀ e ∈ pre, value.Price ≤ e.Price) ∧ (∀ e ∈ post, e.Price < value.Price) ∧
      sl1.Len = sl.Len + 1 ∧ sl1.header = sl.header ∧
      (sl1.nodes sl1.header).Value = (sl.nodes sl.header).Value := by
  obtain ⟨sl1, pre, post, e1, d2, hp1, hp2, hinv1, hval, _, hframe, hhdr, hcount, _⟩ :=
    insertAt_spec sl ns value lvl hinv hl1 hl2
  have hne : ∀ y ∈ ns, y ≠ sl.nalloc :=
    fun y hy hh => absurd (hinv.lt_alloc y hy) (by omega)
  have hmap : ∀ l : List Nat, (∀ y ∈ l, y ∈ ns) →
      l.map (fun x => (sl1.nodes x).Value) = l.map (fun x => (sl.nodes x).Value) := by
    intro l hl
    apply List.map_congr_left
    intro y hy
    exact (hframe y (hne y (hl y hy))).1
  have hhn : sl.header ≠ sl.nalloc := by
    have := hinv.hdr_lt
    omega
  refine ⟨sl1, _, pre.map (fun x => (sl.nodes x).Value), post.map (fun x => (sl.nodes x).Value),
    e1, hinv1, ?_, ?_, ?_, ?_, ?_, hhdr, ?_⟩
  · rw [entries_eq hinv, d2, List.map_append]
  · rw [entries_eq hinv1, List.map_append, List.map_cons, hval,
      hmap pre (fun y hy => by rw [d2]; simp [hy]),
      hmap post (fun y hy => by rw [d2]; simp [hy])]
  · intro e he
    obtain ⟨y, hy, rfl⟩ := List.mem_map.1 he
    exact hp1 y hy
  · intro e he
    obtain ⟨y, hy, rfl⟩ := List.mem_map.1 he
    exact hp2 y hy
  · simp only [SkipList.Len, hcount]
  · rw [hhdr]
    exact (hframe _ hhn).1

theorem insertAfterLastGE_split (v : SkipValue) (pre post : List SkipValue)
    (h1 : ∀ e ∈ pre, v.Price ≤ e.Price) (h2 : ∀ e ∈ post, e.Price < v.Price) :
    insertAfterLastGE v (pre ++ post) = pre ++ v :: post := by
  induction pre with
  | nil =>
    cases post with
    | nil => rfl
    | cons e l =>
      have he := h2 e (by simp)
      have hl : ¬ (l.any (fun x => decide (v.Price ≤ x.Price)) = true) := by
        rw [List.any_eq_true]
        rintro ⟨x, hx, hx2⟩
        have := h2 x (by simp [hx])
        simp only [decide_eq_true_eq] at hx2
        omega
      simp only [List.nil_append, insertAfterLastGE]
      rw [if_neg]
      rintro (h | h)
      · omega
      · exact hl h
  | cons a pre ih =>
    have ha := h1 a (by simp)
    show insertAfterLastGE v (a :: (pre ++ post)) = a :: (pre ++ v :: post)
    rw [insertAfterLastGE, if_pos (Or.inl ha), ih (fun e he => h1 e (by simp [he]))]

/-- `Insert` with any height from 1 to 32 does to the entries what the specification's
plain-list insertion does. -/
theorem insertAt_refines (sl : SkipList) (ns : List Nat) (value : SkipValue) (lvl : Nat)
    (hinv : Inv sl ns) (hl1 : 1 ≤ lvl) (hl2 : lvl ≤ maxLevel) :
    ∃ sl1 ns1 es, sl.insertAt value lvl = some (sl1, 1) ∧ Inv sl1 ns1 ∧
      sl.entries = some es ∧ sl1.entries = some (insertAfterLastGE value es) ∧
      sl1.Len = sl.Len + 1 := by
  obtain ⟨sl1, ns1, pre, post, e1, e2, e3, e4, e5, e6, e7, _⟩ :=
    insertAt_entries sl ns value lvl hinv hl1 hl2
  refine ⟨sl1, ns1, pre ++ post, e1, e2, e3, ?_, e7⟩
  rw [e4, insertAfterLastGE_split value pre post e5 e6]

theorem Insert_refines (sl : SkipList) (ns : List Nat) (value : SkipValue) (draws : Nat → Nat)
    (hinv : Inv sl ns) :
    ∃ sl1 ns1 es, sl.Insert value draws = some (sl1, 1) ∧ Inv sl1 ns1 ∧
      sl.entries = some es ∧ sl1.entries = some (insertAfterLastGE value es) ∧
      sl1.Len = sl.Len + 1 :=
  insertAt_refines sl ns value (randomLevel draws) hinv (randomLevel_bounds draws).1
    (randomLevel_bounds draws).2

theorem Delete_entries (sl : SkipList) (ns : List Nat) (value : SkipValue) (hinv : Inv sl ns) :
    ∃ sl1 r ns1, sl.Delete value = some (sl1, r) ∧ Inv sl1 ns1 ∧ sl1.header = sl.header ∧
      (sl1.nodes sl1.header).Value = (sl.nodes sl.header).Value ∧
      ((r = 0 ∧ sl1 = sl) ∨
       (r = 1 ∧ ∃ A e B, sl.entries = some (A ++ e :: B) ∧ e.Compare value = 0 ∧
          sl1.entries = some (A ++ B) ∧ sl1.Len = sl.Len - 1)) := by
  obtain ⟨sl1, r, pre, post, e1, d2, _, _, e5⟩ := Delete_spec sl ns value hinv
  rcases e5 with ⟨hr, hsl, _⟩ | ⟨hr, x, post1, hpost, hcmp, hinv1, hframe, hhdr, hcount, _⟩
  · subst hsl
    exact ⟨sl1, r, ns, e1, hinv, rfl, rfl, Or.inl ⟨hr, rfl⟩⟩
  · have hmap : ∀ l : List Nat,
        l.map (fun x => (sl1.nodes x).Value) = l.map (fun x => (sl.nodes x).Value) := by
      intro l
      apply List.map_congr_left
      intro y _
      exact (hframe y).1
    refine ⟨sl1, r, _, e1, hinv1, hhdr, by rw [hhdr]; exact (hframe _).1, Or.inr ⟨hr,
      pre.map (fun x => (sl.nodes x).Value), (sl.nodes x).Value,
      post1.map (fun x => (sl.nodes x).Value), ?_, hcmp, ?_, ?_⟩⟩
    · rw [entries_eq hinv, d2, hpost, List.map_append, List.map_cons]
    · rw [entries_eq hinv1, hmap, List.map_append]
    · simp only [SkipList.Len, hcount]

/-! ## Searches whose test holds on exactly a prefix of the entries -/

theorem Find_entries_mono (sl : SkipList) (ns : List Nat) (value : SkipValue) (hinv : Inv sl ns)
    (A B : List SkipValue) (he : sl.entries = some (A ++ B))
    (hA : ∀ a ∈ A, a.Compare value < 0) (hB : ∀ b ∈ B, ¬ b.Compare value < 0) :
    ∃ c, sl.Find value = some ({ sl with findcount := c },
      B.head?.bind (fun e => if e.Compare value = 0 then some e else none)) := by
  rw [entries_eq hinv] at he
  obtain ⟨preN, postN, hs, hpre, hpost⟩ := List.map_eq_append_iff.1 (Option.some.inj he)
  obtain ⟨c, pre, post, d1, d2, d3, e4⟩ := Find_spec sl ns value hinv
  obtain ⟨h1, h2⟩ := split_unique (fun y => (sl.nodes y).Value.Compare value < 0) sl.header
    preN postN pre post (by rw [← hs, ← d1])
    (fun y hy => hA _ (by rw [← hpre]; exact List.mem_map_of_mem _ hy))
    (fun y hy => hB _ (by rw [← hpost]; exact List.mem_map_of_mem _ hy)) d2 d3
  refine ⟨c, ?_⟩
  rw [e4, h2, ← hpost]
  cases postN with
  | nil => rfl
  | cons y l => rfl

theorem Delete_entries_mono (sl : SkipList) (ns : List Nat) (value : SkipValue)
    (hinv : Inv sl ns) (A B : List SkipValue) (he : sl.entries = some (A ++ B))
    (hA : ∀ a ∈ A, a.Compare value < 0) (hB : ∀ b ∈ B, ¬ b.Compare value < 0) :
    ∃ sl1 r ns1, sl.Delete value = some (sl1, r) ∧ Inv sl1 ns1 ∧ sl1.header = sl.header ∧
      (sl1.nodes sl1.header).Value = (sl.nodes sl.header).Value ∧
      ((∀ e, B.head? = some e → e.Compare value ≠ 0) → r = 0 ∧ sl1 = sl) ∧
      (∀ e B1, B = e :: B1 → e.Compare value = 0 →
        r = 1 ∧ sl1.entries = some (A ++ B1) ∧ sl1.Len = sl.Len - 1) := by
  rw [entries_eq hinv] at he
  obtain ⟨preN, postN, hs, hpre, hpost⟩ := List.map_eq_append_iff.1 (Option.some.inj he)
  obtain ⟨sl1, r, pre, post, e1, d1, d2, d3, e5⟩ := Delete_spec sl ns value hinv
  obtain ⟨h1, h2⟩ := split_unique (fun y => (sl.nodes y).Value.Compare value < 0) sl.header
    preN postN pre post (by rw [← hs, ← d1])
    (fun y hy => hA _ (by rw [← hpre]; exact List.mem_map_of_mem _ hy))
    (fun y hy => hB _ (by rw [← hpost]; exact List.mem_map_of_mem _ hy)) d2 d3
  subst h1
  subst h2
  rcases e5 with ⟨hr, hsl, hne⟩ | ⟨hr, x, post1, hp, hcmp, hinv1, hframe, hhdr, hcount, _⟩
  · subst hsl
    refine ⟨sl1, r, ns, e1, hinv, rfl, rfl, fun _ => ⟨hr, rfl⟩, ?_⟩
    intro e B1 hB1 hc
    exfalso
    rw [hB1] at hpost
    obtain ⟨y, l, hyl, hy, _⟩ := List.map_eq_cons_iff.1 hpost
    exact hne y (by rw [hyl]; rfl) (by rw [hy]; exact hc)
  · have hmap : ∀ l : List Nat,
        l.map (fun x => (sl1.nodes x).Value) = l.map (fun x => (sl.nodes x).Value) := by
      intro l
      apply List.map_congr_left
      intro y _
      exact (hframe y).1
    refine ⟨sl1, r, _, e1, hinv1, hhdr, by rw [hhdr]; exact (hframe _).1, ?_, ?_⟩
    · intro hne
      exfalso
      exact hne (sl.nodes x).Value (by rw [← hpost, hp]; rfl) hcmp
    · intro e B1 hB1 _
      rw [hp, hB1] at hpost
      simp only [List.map_cons, List.cons.injEq] at hpost
      refine ⟨hr, ?_, ?_⟩
      · rw [entries_eq hinv1, hmap, List.map_append, hpre, hpost.2]
      · simp only [SkipList.Len, hcount]

/-! ## The ordering rule along call sequences -/

theorem byRule_insert (v : SkipValue) (pre post : List SkipValue) (h : ByRule (pre ++ post))
    (h1 : ∀ e ∈ pre, v.Price ≤ e.Price) (h2 : ∀ e ∈ post, e.Price < v.Price)
    (h3 : ∀ e ∈ pre ++ post, e.Price = v.Price → e.Value.EnterTime ≤ v.Value.EnterTime) :
    ByRule (pre ++ v :: post) := by
  unfold ByRule at h ⊢
  rw [List.pairwise_append] at h ⊢
  refine ⟨h.1, List.pairwise_cons.2 ⟨?_, h.2.1⟩, ?_⟩
  · intro b hb
    exact Or.inl (h2 b hb)
  · intro a ha b hb
    rcases List.mem_cons.1 hb with hbv | hb
    · rw [hbv]
      rcases lt_or_eq_of_le (h1 a ha) with hlt | heq
      · exact Or.inl hlt
      · exact Or.inr ⟨heq.symm, h3 a (by simp [ha]) heq.symm⟩
    · exact h.2.2 a ha b hb

theorem byRule_remove (A B : List SkipValue) (e : SkipValue) (h : ByRule (A ++ e :: B)) :
    ByRule (A ++ B) := by
  unfold ByRule at h ⊢
  exact h.sublist (List.Sublist.append_left (List.sublist_cons_self e B) A)

theorem walked_of_entries {sl : SkipList} {ns : List Nat} (hinv : Inv sl ns)
    {es : List SkipValue} (he : sl.entries = some es) :
    sl.walked = some (es.map (fun e => e.Value)) := by
  rw [walked_eq hinv]
  rw [entries_eq hinv] at he
  rw [← Option.some.inj he, List.map_map]
  rfl

theorem run_sorted : ∀ (ops : List Op) (sl : SkipList) (ns : List Nat) (es : List SkipValue),
    Inv sl ns → sl.entries = some es → ByRule es → arrivalsIncrease sl ops = true →
    ∃ sl1 rs ns1 es1, run sl ops = some (sl1, rs) ∧ Inv sl1 ns1 ∧
      sl1.entries = some es1 ∧ ByRule es1 := by
  intro ops
  induction ops with
  | nil =>
    intro sl ns es hinv he hb _
    exact ⟨sl, [], ns, es, rfl, hinv, he, hb⟩
  | cons op ops ih =>
    intro sl ns es hinv he hb ha
    simp only [arrivalsIncrease, Bool.and_eq_true] at ha
    obtain ⟨ha1, ha2⟩ := ha
    cases op with
    | insert value draws =>
      obtain ⟨sl1, ns1, pre, post, e1, hinv1, e2, e3, e4, e5, _⟩ :=
        Insert_entries sl ns value draws hinv
      simp only [e2, List.all_eq_true, decide_eq_true_eq] at ha1
      simp only [step, e1] at ha2
      have hb1 : ByRule (pre ++ value :: post) := by
        rw [he] at e2
        rw [Option.some.inj e2] at hb
        exact byRule_insert value pre post hb e4 e5 ha1
      obtain ⟨sl2, rs, ns2, es2, f1, f2, f3, f4⟩ := ih sl1 ns1 _ hinv1 e3 hb1 ha2
      exact ⟨sl2, Ret.code 1 :: rs, ns2, es2, by simp only [run, step, e1, f1], f2, f3, f4⟩
    | delete value =>
      obtain ⟨sl1, r, ns1, e1, hinv1, _, _, e5⟩ := Delete_entries sl ns value hinv
      simp only [step, e1] at ha2
      have hes : ∃ es1, sl1.entries = some es1 ∧ ByRule es1 := by
        rcases e5 with ⟨_, hsl⟩ | ⟨_, A, e, B, g1, _, g3, _⟩
        · rw [hsl]; exact ⟨es, he, hb⟩
        · rw [he] at g1
          rw [Option.some.inj g1] at hb
          exact ⟨_, g3, byRule_remove A B e hb⟩
      obtain ⟨es1, he1, hb1⟩ := hes
      obtain ⟨sl2, rs, ns2, es2, f1, f2, f3, f4⟩ := ih sl1 ns1 es1 hinv1 he1 hb1 ha2
      exact ⟨sl2, Ret.code r :: rs, ns2, es2, by simp only [run, step, e1, f1], f2, f3, f4⟩
    | find value =>
      obtain ⟨c, pre, post, _, _, _, e4⟩ := Find_spec sl ns value hinv
      simp only [step, e4] at ha2
      obtain ⟨sl2, rs, ns2, es2, f1, f2, f3, f4⟩ :=
        ih _ ns es (inv_findcount hinv c) he hb ha2
      exact ⟨sl2, Ret.found _ :: rs, ns2, es2, by simp only [run, step, e4, f1]; rfl, f2, f3, f4⟩

/-! ## One insert-and-delete cycle -/

theorem compare_zero_of_not_neg (a k : SkipValue) (h1 : ¬ a.Compare k < 0)
    (h2 : k.Price ≤ a.Price) : a.Compare k = 0 := by
  unfold SkipValue.Compare at h1 ⊢
  split_ifs at h1 ⊢ <;> first | rfl | omega

theorem cycle_once (sl : SkipList) (ns : List Nat) (hinv : Inv sl ns) (v k : SkipValue)
    (draws : Nat → Nat) (hp : v.Price = k.Price)
    (ht : v.Value.EnterTime = k.Value.EnterTime) :
    ∃ sl1 sl2 ns2, sl.Insert v draws = some (sl1, 1) ∧ sl1.Delete k = some (sl2, 1) ∧
      Inv sl2 ns2 ∧ sl2.Len = sl.Len ∧ sl1.Len = sl.Len + 1 ∧ sl2.header = sl.header ∧
      (sl2.nodes sl2.header).Value = (sl.nodes sl.header).Value := by
  obtain ⟨sl1, pre, post, e1, d2, hp1, hp2, hinv1, hval, _, hframe, hhdr, hcount, _⟩ :=
    Insert_spec sl ns v draws hinv
  obtain ⟨sl2, r, pre1, post1, f1, f2, f3, f4, f5⟩ := Delete_spec sl1 _ k hinv1
  have hne : ∀ y ∈ ns, y ≠ sl.nalloc :=
    fun y hy hh => absurd (hinv.lt_alloc y hy) (by omega)
  have hhn : sl.header ≠ sl.nalloc := by
    have := hinv.hdr_lt
    omega
  have hTx : ¬ (sl1.nodes sl.nalloc).Value.Compare k < 0 := by
    rw [hval, compare_lt_zero_iff]
    omega
  have hTpost : ∀ y ∈ post, ¬ (sl1.nodes y).Value.Compare k < 0 := by
    intro y hy
    rw [(hframe y (hne y (by rw [d2]; simp [hy]))).1, compare_lt_zero_iff]
    have := hp2 y hy
    omega
  have h0x : (sl1.nodes sl.nalloc).Value.Compare k = 0 := by
    rw [hval, compare_eq_zero_iff]
    omega
  have hhead : ∃ y, post1.head? = some y ∧ (sl1.nodes y).Value.Compare k = 0 := by
    rcases List.append_eq_append_iff.1 f2 with ⟨m, g1, g2⟩ | ⟨m, g1, g2⟩
    · cases m with
      | nil =>
        simp only [List.nil_append] at g2
        exact ⟨sl.nalloc, by rw [← g2]; rfl, h0x⟩
      | cons b m =>
        exfalso
        simp only [List.cons_append, List.cons.injEq] at g2
        have hne1 : pre1 ≠ [] := by rw [g1]; simp
        have hT := f3 hne1
        rw [g1, lastOr_append] at hT
        simp only [lastOr] at hT
        rcases lastOr_mem b m with h | h
        · rw [h, ← g2.1] at hT
          exact hTx hT
        · exact hTpost _ (by rw [g2.2]; simp [h]) hT
    · cases m with
      | nil =>
        simp only [List.nil_append] at g2
        exact ⟨sl.nalloc, by rw [g2]; rfl, h0x⟩
      | cons b m =>
        refine ⟨b, by rw [g2]; rfl, ?_⟩
        have hb : b ∈ pre := by rw [g1]; simp
        apply compare_zero_of_not_neg
        · exact f4 b (by rw [g2]; rfl)
        · rw [(hframe b (hne b (by rw [d2]; simp [hb]))).1, ← hp]
          exact hp1 b hb
  obtain ⟨y, hy1, hy2⟩ := hhead
  rcases f5 with ⟨_, _, hcontra⟩ | ⟨hr, x, post2, _, _, hinv2, hframe2, hhdr2, hcount2, _⟩
  · exact absurd hy2 (hcontra y hy1)
  · subst hr
    refine ⟨sl1, sl2, _, e1, f1, hinv2, ?_, ?_, by rw [hhdr2, hhdr], ?_⟩
    · simp only [SkipList.Len, hcount2, hcount]
      omega
    · simp only [SkipList.Len, hcount]
    · rw [hhdr2, hhdr, (hframe2 _).1, (hframe _ hhn).1]

theorem run_cycles (key : SkipValue) :
    ∀ (cs : List (SkipValue × (Nat → Nat))) (sl : SkipList) (ns : List Nat), Inv sl ns →
      (∀ c ∈ cs, c.1.Price = key.Price ∧ c.1.Value.EnterTime = key.Value.EnterTime) →
      ∃ sl1 rs ns1, run sl (cycles key cs) = some (sl1, rs) ∧ Inv sl1 ns1 ∧
        (∀ r ∈ rs, r = Ret.code 1) ∧ sl1.Len = sl.Len ∧ sl1.header = sl.header ∧
        (sl1.nodes sl1.header).Value = (sl.nodes sl.header).Value := by
  intro cs
  induction cs with
  | nil =>
    intro sl ns hinv _
    exact ⟨sl, [], ns, rfl, hinv, by simp, rfl, rfl, rfl⟩
  | cons c cs ih =>
    intro sl ns hinv hc
    obtain ⟨hc1, hc2⟩ := hc c (by simp)
    obtain ⟨sl1, sl2, ns2, e1, e2, hinv2, e3, _, e4, e5⟩ :=
      cycle_once sl ns hinv c.1 key c.2 hc1 hc2
    obtain ⟨sl3, rs, ns3, f1, f2, f3, f4, f5, f6⟩ :=
      ih sl2 ns2 hinv2 (fun d hd => hc d (by simp [hd]))
    refine ⟨sl3, Ret.code 1 :: Ret.code 1 :: rs, ns3, ?_, f2, ?_, by rw [f4, e3],
      by rw [f5, e4], by rw [f6, e5]⟩
    · simp only [cycles, run, step, e1, e2, f1]
    · intro r hr
      rcases List.mem_cons.1 hr with h | hr
      · exact h
      · rcases List.mem_cons.1 hr with h | hr
        · exact h
        · exact f3 r hr

/-! ## The chain of a level -/

theorem chainFrom_path (nodes : Nat → skipListNode) (i : Nat) :
    ∀ (l : List Nat) (b fuel : Nat), Path (nx nodes i) b l none → l.length + 1 < fuel →
      chainFrom nodes i fuel (some b) = some (b :: l) := by
  intro l
  induction l with
  | nil =>
    intro b fuel hp hf
    obtain ⟨f1, rfl⟩ : ∃ f1, fuel = f1 + 2 := ⟨fuel - 2, by simp at hf; omega⟩
    simp only [Path, nx] at hp
    simp [chainFrom, hp]
  | cons c l ih =>
    intro b fuel hp hf
    obtain ⟨f1, rfl⟩ : ∃ f1, fuel = f1 + 1 := ⟨fuel - 1, by simp at hf; omega⟩
    have h1 := hp.1
    simp only [nx] at h1
    have h2 := ih c f1 hp.2 (by simpa using hf)
    simp [chainFrom, h1, h2]

theorem chain_eq {sl : SkipList} {ns : List Nat} (hinv : Inv sl ns) (i : Nat)
    (hi : i < maxLevel) :
    sl.chain i = some (ns.filter (fun x => decide (i < ht sl.nodes x))) := by
  have hp := hinv.links i hi
  have hl : (ns.filter (fun x => decide (i < ht sl.nodes x))).length < sl.nalloc :=
    lt_of_le_of_lt (List.length_filter_le _ _) hinv.len_lt
  unfold SkipList.chain
  cases hq : ns.filter (fun x => decide (i < ht sl.nodes x)) with
  | nil =>
    rw [hq] at hp
    simp only [Path, nx] at hp
    obtain ⟨f1, hf⟩ : ∃ f1, sl.nalloc = f1 + 1 := ⟨sl.nalloc - 1, by omega⟩
    simp [hp, hf, chainFrom]
  | cons b l =>
    rw [hq] at hp hl
    have h1 := hp.1
    simp only [nx] at h1
    have hl2 : l.length + 1 < sl.nalloc := by simpa using hl
    simp [h1, chainFrom_path sl.nodes i l b sl.nalloc hp.2 hl2]

/-! ## Claims C21 to C30 -/

/-- C21: when every `Insert` of a call sequence on a new list is called with an arrival
order at least as large as that of every entry stored at that moment with the same Price,
all calls return and the entries, hence the payloads `Walk` visits, are sorted by the
ordering rule afterwards. -/
theorem increasing_arrivals_keep_walk_sorted (min : SkipValue) (ops : List Op)
    (h : arrivalsIncrease (NewSkipList min) ops = true) :
    ∃ sl rs es, run (NewSkipList min) ops = some (sl, rs) ∧ sl.entries = some es ∧
      sl.walked = some (es.map (fun e => e.Value)) ∧ ByRule es := by
  obtain ⟨sl, rs, ns, es, e1, e2, e3, e4⟩ :=
    run_sorted ops (NewSkipList min) [] [] (inv_new min) (entries_eq (inv_new min))
      (by unfold ByRule; exact List.Pairwise.nil) h
  exact ⟨sl, rs, es, e1, e3, walked_of_entries e2 e3, e4⟩

/-- Witness for `increasing_arrivals_keep_walk_sorted`: inserts at two prices with
increasing arrival orders, one delete and one find in between. -/
theorem increasing_arrivals_keep_walk_sorted_witness :
    ∃ sl rs es,
      run (NewSkipList ⟨0, ⟨0, 0⟩⟩)
        [Op.insert ⟨100, ⟨1, 1⟩⟩ (fun _ => 0), Op.insert ⟨200, ⟨2, 2⟩⟩ (fun _ => 65535),
         Op.insert ⟨100, ⟨3, 3⟩⟩ (fun _ => 65535), Op.delete ⟨100, ⟨1, 0⟩⟩,
         Op.find ⟨200, ⟨2, 0⟩⟩, Op.insert ⟨100, ⟨3, 4⟩⟩ (fun _ => 0)] = some (sl, rs) ∧
      sl.entries = some es ∧ sl.walked = some (es.map (fun e => e.Value)) ∧ ByRule es :=
  increasing_arrivals_keep_walk_sorted ⟨0, ⟨0, 0⟩⟩ _ (by decide)

/-- C22 (scenario A): from a new list, `Insert` of tx1 (Price 100, arrival 1), tx2
(Price 200, arrival 2) and tx3 (Price 100, arrival 3), in that order and with any drawn
heights, leaves a list whose `Walk` visits tx2, tx1, tx3. -/
theorem scenario_a (min : SkipValue) (tx1 tx2 tx3 : Nat) (d1 d2 d3 : Nat → Nat) :
    ∃ sl, run (NewSkipList min)
        [Op.insert ⟨100, ⟨1, tx1⟩⟩ d1, Op.insert ⟨200, ⟨2, tx2⟩⟩ d2,
         Op.insert ⟨100, ⟨3, tx3⟩⟩ d3] = some (sl, [Ret.code 1, Ret.code 1, Ret.code 1]) ∧
      sl.walked = some [⟨2, tx2⟩, ⟨1, tx1⟩, ⟨3, tx3⟩] ∧
      sl.entries = some [⟨200, ⟨2, tx2⟩⟩, ⟨100, ⟨1, tx1⟩⟩, ⟨100, ⟨3, tx3⟩⟩] := by
  obtain ⟨s1, n1, es0, a1, a2, a3, a4, _⟩ :=
    Insert_refines (NewSkipList min) [] ⟨100, ⟨1, tx1⟩⟩ d1 (inv_new min)
  rw [entries_eq (inv_new min)] at a3
  rw [← Option.some.inj a3] at a4
  obtain ⟨s2, n2, es1, b1, b2, b3, b4, _⟩ := Insert_refines s1 n1 ⟨200, ⟨2, tx2⟩⟩ d2 a2
  rw [a4] at b3
  rw [← Option.some.inj b3] at b4
  obtain ⟨s3, n3, es2, c1, c2, c3, c4, _⟩ := Insert_refines s2 n2 ⟨100, ⟨3, tx3⟩⟩ d3 b2
  rw [b4] at c3
  rw [← Option.some.inj c3] at c4
  have hes : s3.entries = some [⟨200, ⟨2, tx2⟩⟩, ⟨100, ⟨1, tx1⟩⟩, ⟨100, ⟨3, tx3⟩⟩] := by
    rw [c4]
    simp [insertAfterLastGE]
  refine ⟨s3, by simp only [run, step, a1, b1, c1], ?_, hes⟩
  rw [walked_of_entries c2 hes]
  rfl

/-- C23 (the code departs from it): the two entries (100, 5) and (100, 3) have distinct
keys; inserted in that order they are walked unsorted, and `Delete` of the key (100, 3)
returns 1 but removes the entry (100, 5), so the entry left is the one whose key was
deleted. -/
theorem scenario_b_deletes_other_entry :
    (run (NewSkipList ⟨0, ⟨0, 0⟩⟩)
        [Op.insert ⟨100, ⟨5, 1⟩⟩ (fun _ => 65535),
         Op.insert ⟨100, ⟨3, 2⟩⟩ (fun _ => 65535)]).bind (fun p => p.1.entries)
      = some [⟨100, ⟨5, 1⟩⟩, ⟨100, ⟨3, 2⟩⟩] ∧
    ¬ ByRule [⟨100, ⟨5, 1⟩⟩, ⟨100, ⟨3, 2⟩⟩] ∧
    (run (NewSkipList ⟨0, ⟨0, 0⟩⟩)
        [Op.insert ⟨100, ⟨5, 1⟩⟩ (fun _ => 65535),
         Op.insert ⟨100, ⟨3, 2⟩⟩ (fun _ => 65535),
         Op.delete ⟨100, ⟨3, 0⟩⟩]).map (fun p => p.2)
      = some [Ret.code 1, Ret.code 1, Ret.code 1] ∧
    (run (NewSkipList ⟨0, ⟨0, 0⟩⟩)
        [Op.insert ⟨100, ⟨5, 1⟩⟩ (fun _ => 65535),
         Op.insert ⟨100, ⟨3, 2⟩⟩ (fun _ => 65535),
         Op.delete ⟨100, ⟨3, 0⟩⟩]).bind (fun p => p.1.entries)
      = some [⟨100, ⟨3, 2⟩⟩] := by
  decide

theorem run_length : ∀ (ops : List Op) (sl sl1 : SkipList) (rs : List Ret),
    run sl ops = some (sl1, rs) → rs.length = ops.length := by
  intro ops
  induction ops with
  | nil =>
    intro sl sl1 rs h
    simp only [run, Option.some.injEq, Prod.mk.injEq] at h
    exact h.2 ▸ rfl
  | cons op ops ih =>
    intro sl sl1 rs h
    simp only [run] at h
    cases h1 : step sl op with
    | none => rw [h1] at h; simp at h
    | some p =>
      obtain ⟨s1, r⟩ := p
      rw [h1] at h
      simp only at h
      cases h2 : run s1 ops with
      | none => rw [h2] at h; simp at h
      | some q =>
        obtain ⟨s2, rs2⟩ := q
        rw [h2] at h
        simp only [Option.some.injEq, Prod.mk.injEq] at h
        rw [← h.2]
        simp [ih s1 s2 rs2 h2]

/-- C24 (scenario C): from a new list, after `Insert` of two entries e1, e2 with the same
Price and arrival order, `Find` with that key returns e1; the first `Delete` with that key
returns 1, takes `Len()` from 2 to 1 and leaves e2, which `Find` then returns; the second
`Delete` returns 1 and leaves the list empty.  This holds for any drawn heights. -/
theorem scenario_c (min : SkipValue) (p t : Int) (tx0 tx1 tx2 : Nat) (d1 d2 : Nat → Nat) :
    ∃ sa sb sc,
      run (NewSkipList min)
          [Op.insert ⟨p, ⟨t, tx1⟩⟩ d1, Op.insert ⟨p, ⟨t, tx2⟩⟩ d2, Op.find ⟨p, ⟨t, tx0⟩⟩]
        = some (sa, [Ret.code 1, Ret.code 1, Ret.found (some ⟨p, ⟨t, tx1⟩⟩)]) ∧
      sa.Len = 2 ∧ sa.entries = some [⟨p, ⟨t, tx1⟩⟩, ⟨p, ⟨t, tx2⟩⟩] ∧
      run sa [Op.delete ⟨p, ⟨t, tx0⟩⟩, Op.find ⟨p, ⟨t, tx0⟩⟩]
        = some (sb, [Ret.code 1, Ret.found (some ⟨p, ⟨t, tx2⟩⟩)]) ∧
      sb.Len = 1 ∧ sb.entries = some [⟨p, ⟨t, tx2⟩⟩] ∧
      run sb [Op.delete ⟨p, ⟨t, tx0⟩⟩] = some (sc, [Ret.code 1]) ∧
      sc.Len = 0 ∧ sc.entries = some [] := by
  have hk : ∀ tx : Nat,
      ¬ (SkipValue.Compare ⟨p, ⟨t, tx⟩⟩ ⟨p, ⟨t, tx0⟩⟩ < 0) ∧
      SkipValue.Compare ⟨p, ⟨t, tx⟩⟩ ⟨p, ⟨t, tx0⟩⟩ = 0 := by
    intro tx
    rw [compare_lt_zero_iff, compare_eq_zero_iff]
    simp
  -- the two inserts
  obtain ⟨s1, n1, es0, a1, a2, a3, a4, a5⟩ :=
    Insert_refines (NewSkipList min) [] ⟨p, ⟨t, tx1⟩⟩ d1 (inv_new min)
  rw [entries_eq (inv_new min)] at a3
  rw [← Option.some.inj a3] at a4
  obtain ⟨s2, n2, es1, b1, b2, b3, b4, b5⟩ := Insert_refines s1 n1 ⟨p, ⟨t, tx2⟩⟩ d2 a2
  rw [a4] at b3
  rw [← Option.some.inj b3] at b4
  have hes2 : s2.entries = some ([] ++ [⟨p, ⟨t, tx1⟩⟩, ⟨p, ⟨t, tx2⟩⟩]) := by
    rw [b4]
    simp [insertAfterLastGE]
  have hlen2 : s2.Len = 2 := by
    rw [b5, a5]
    simp [SkipList.Len, NewSkipList]
  -- the first find
  obtain ⟨c1, hf1⟩ := Find_entries_mono s2 n2 ⟨p, ⟨t, tx0⟩⟩ b2 [] _ hes2 (by simp)
    (by
      intro b hb
      simp only [List.mem_cons, List.mem_singleton, List.not_mem_nil, or_false] at hb
      rcases hb with rfl | rfl
      · exact (hk tx1).1
      · exact (hk tx2).1)
  simp only [List.head?_cons, Option.some_bind, (hk tx1).2, if_true] at hf1
  have hinva := inv_findcount b2 c1
  -- the first delete
  obtain ⟨s3, r3, n3, g1, g2, _, _, _, g3⟩ :=
    Delete_entries_mono { s2 with findcount := c1 } n2 ⟨p, ⟨t, tx0⟩⟩ hinva [] _ hes2 (by simp)
      (by
        intro b hb
        simp only [List.mem_cons, List.mem_singleton, List.not_mem_nil, or_false] at hb
        rcases hb with rfl | rfl
        · exact (hk tx1).1
        · exact (hk tx2).1)
  obtain ⟨hr3, hes3, hlen3⟩ := g3 _ _ rfl (hk tx1).2
  subst hr3
  have hlen3b : s3.Len = 1 := by
    rw [hlen3]
    show s2.Len - 1 = 1
    rw [hlen2]
    rfl
  -- the second find
  have hes3b : s3.entries = some ([] ++ [⟨p, ⟨t, tx2⟩⟩]) := hes3
  obtain ⟨c2, hf2⟩ := Find_entries_mono s3 n3 ⟨p, ⟨t, tx0⟩⟩ g2 [] _ hes3b (by simp)
    (by
      intro b hb
      simp only [List.mem_singleton] at hb
      rw [hb]
      exact (hk tx2).1)
  simp only [List.head?_cons, Option.some_bind, (hk tx2).2, if_true] at hf2
  have hinvb := inv_findcount g2 c2
  -- the second delete
  obtain ⟨s4, r4, n4, k1, _, _, _, _, k3⟩ :=
    Delete_entries_mono { s3 with findcount := c2 } n3 ⟨p, ⟨t, tx0⟩⟩ hinvb [] _ hes3b (by simp)
      (by
        intro b hb
        simp only [List.mem_singleton] at hb
        rw [hb]
        exact (hk tx2).1)
  obtain ⟨hr4, hes4, hlen4⟩ := k3 _ _ rfl (hk tx2).2
  subst hr4
  refine ⟨{ s2 with findcount := c1 }, { s3 with findcount := c2 }, s4, ?_, hlen2, hes2, ?_,
    hlen3b, hes3, ?_, ?_, hes4⟩
  · simp only [run, step, a1, b1, hf1]
  · simp only [run, step, g1, hf2]
  · simp only [run, step, k1]
  · rw [hlen4]
    show s3.Len - 1 = 0
    rw [hlen3b]
    rfl

/-- C25 (scenario D): on every reachable list, any number of cycles that insert an entry
with the key `key` and then call `Delete` with that key return 1 from every call and leave
`Len()`, the header and the header's value as they were; one cycle is the case of a list
of one cycle. -/
theorem insert_delete_cycles (sl : SkipList) (hr : Reachable sl) (key : SkipValue)
    (cs : List (SkipValue × (Nat → Nat)))
    (hcs : ∀ c ∈ cs, c.1.Price = key.Price ∧ c.1.Value.EnterTime = key.Value.EnterTime) :
    ∃ sl1 rs, run sl (cycles key cs) = some (sl1, rs) ∧
      rs.length = 2 * cs.length ∧ (∀ r ∈ rs, r = Ret.code 1) ∧
      sl1.Len = sl.Len ∧ sl1.header = sl.header ∧
      (sl1.nodes sl1.header).Value = (sl.nodes sl.header).Value := by
  obtain ⟨ns, hinv⟩ := reachable_inv hr
  obtain ⟨sl1, rs, ns1, e1, _, e3, e4, e5, e6⟩ := run_cycles key cs sl ns hinv hcs
  refine ⟨sl1, rs, e1, ?_, e3, e4, e5, e6⟩
  rw [run_length _ _ _ _ e1]
  clear e1 hcs
  induction cs with
  | nil => rfl
  | cons c cs ih => simp only [cycles, List.length_cons, ih]; omega

/-- Witness for `insert_delete_cycles`: two cycles of the key (100, 1) on a list that
already holds an entry with that key. -/
theorem insert_delete_cycles_witness :
    ∃ sl, step (NewSkipList ⟨0, ⟨0, 0⟩⟩) (Op.insert ⟨100, ⟨1, 1⟩⟩ (fun _ => 0))
        = some (sl, Ret.code 1) ∧
      ∃ sl1 rs,
        run sl (cycles ⟨100, ⟨1, 0⟩⟩
          [(⟨100, ⟨1, 5⟩⟩, fun _ => 0), (⟨100, ⟨1, 6⟩⟩, fun _ => 65535)]) = some (sl1, rs) ∧
        rs.length = 2 * [((⟨100, ⟨1, 5⟩⟩ : SkipValue), fun _ : Nat => 0),
          (⟨100, ⟨1, 6⟩⟩, fun _ => 65535)].length ∧
        (∀ r ∈ rs, r = Ret.code 1) ∧
        sl1.Len = sl.Len ∧ sl1.header = sl.header ∧
        (sl1.nodes sl1.header).Value = (sl.nodes sl.header).Value :=
  ⟨_, rfl,
    insert_delete_cycles _
      (Reachable.step (Op.insert ⟨100, ⟨1, 1⟩⟩ (fun _ => 0)) (Reachable.new ⟨0, ⟨0, 0⟩⟩) rfl)
      ⟨100, ⟨1, 0⟩⟩ [(⟨100, ⟨1, 5⟩⟩, fun _ => 0), (⟨100, ⟨1, 6⟩⟩, fun _ => 65535)]
      (by
        intro c hc
        simp only [List.mem_cons, List.mem_singleton, List.not_mem_nil, or_false] at hc
        rcases hc with rfl | rfl <;> exact ⟨rfl, rfl⟩)⟩

end price

namespace executor

/-! ## GetOptions -/

theorem splitChars_head (sep : Char) :
    ∀ l : List Char,
      (splitChars sep l).head? = some (l.takeWhile (fun c => decide (c ≠ sep))) := by
  intro l
  induction l with
  | nil => rfl
  | cons c cs ih =>
    by_cases h : c = sep
    · simp [splitChars, h]
    · cases hq : splitChars sep cs with
      | nil => rw [hq] at ih; simp at ih
      | cons w ws =>
        rw [hq] at ih
        simp only [List.head?_cons, Option.some.injEq] at ih
        simp [splitChars, h, hq, ih]

theorem Split_first (it : String) (sep : Char) :
    (Split it sep)[0]? = some (String.mk (it.data.takeWhile (fun c => decide (c ≠ sep)))) := by
  have h := splitChars_head sep it.data
  unfold Split
  rw [List.getElem?_map, ← List.head?_eq_getElem?, h]
  rfl

theorem nameTaken_iff (name : String) (options : List String) :
    nameTaken name options = true ↔ name ∈ options := by
  induction options with
  | nil => simp [nameTaken]
  | cons o os ih =>
    by_cases h : name = o
    · simp [nameTaken, h]
    · simp [nameTaken, h, ih]

theorem getOptionsLoop_spec :
    ∀ (items options : List String), options.Nodup →
      ∃ opts legal, getOptionsLoop items options = some (opts, legal) ∧
        (legal = true ↔
          (options ++ items.map (fun item =>
            String.mk (item.data.takeWhile (fun c => decide (c ≠ ':'))))).Nodup) ∧
        (legal = true → opts = options ++ items.map (fun item =>
            String.mk (item.data.takeWhile (fun c => decide (c ≠ ':'))))) ∧
        (legal = false → ∃ pre name rest,
          items.map (fun item => String.mk (item.data.takeWhile (fun c => decide (c ≠ ':'))))
            = pre ++ name :: rest ∧
          (options ++ pre).Nodup ∧ name ∈ options ++ pre ∧ opts = options ++ pre) := by
  intro items
  induction items with
  | nil =>
    intro options hnd
    refine ⟨options, true, rfl, by simpa using hnd, by simp, by simp⟩
  | cons it items ih =>
    intro options hnd
    simp only [getOptionsLoop, Split_first, List.map_cons]
    by_cases ht : nameTaken (String.mk (it.data.takeWhile (fun c => decide (c ≠ ':')))) options
        = true
    · have hmem := (nameTaken_iff _ _).1 ht
      refine ⟨options, false, by rw [if_pos ht], ?_, by simp, ?_⟩
      · constructor
        · intro h; simp at h
        · intro h
          exfalso
          rw [List.nodup_append] at h
          exact h.2.2 hmem (List.mem_cons_self _ _)
      · intro _
        exact ⟨[], _, _, rfl, by simpa using hnd, by simpa using hmem, by simp⟩
    · have hmem : String.mk (it.data.takeWhile (fun c => decide (c ≠ ':'))) ∉ options :=
        fun h => ht ((nameTaken_iff _ _).2 h)
      have hnd2 : (options ++ [String.mk (it.data.takeWhile (fun c => decide (c ≠ ':')))]).Nodup := by
        rw [List.nodup_append]
        refine ⟨hnd, by simp, ?_⟩
        intro a ha hb
        simp only [List.mem_singleton] at hb
        exact hmem (hb ▸ ha)
      obtain ⟨opts, legal, e1, e2, e3, e4⟩ := ih _ hnd2
      refine ⟨opts, legal, by rw [if_neg ht]; exact e1, ?_, ?_, ?_⟩
      · rw [e2, List.append_assoc]
        rfl
      · intro h
        rw [e3 h, List.append_assoc]
        rfl
      · intro h
        obtain ⟨pre, name, rest, g1, g2, g3, g4⟩ := e4 h
        refine ⟨_ :: pre, name, rest, by rw [g1]; rfl, ?_, ?_, ?_⟩
        · rw [List.append_assoc] at g2
          exact g2
        · rw [List.append_assoc] at g3
          exact g3
        · rw [g4, List.append_assoc]
          rfl

/-- C26: for every string, `GetOptions` returns; `legal` is true exactly when the option
names (the text before the first ':' of each ';'-separated item) are pairwise distinct,
and then `options` is the list of the names in their order; when a name repeats an earlier
one, `legal` is false and `options` holds the names read before the first repeated one. -/
theorem getOptions_legal_iff_names_distinct (s : String) :
    ∃ options legal, GetOptions s = some (options, legal) ∧
      (legal = true ↔ (optionNames s).Nodup) ∧
      (legal = true → options = optionNames s) ∧
      (legal = false → ∃ pre name rest, optionNames s = pre ++ name :: rest ∧
        pre.Nodup ∧ name ∈ pre ∧ options = pre) := by
  obtain ⟨opts, legal, e1, e2, e3, e4⟩ := getOptionsLoop_spec (Split s ';') [] List.nodup_nil
  refine ⟨opts, legal, e1, ?_, ?_, ?_⟩
  · rw [e2]; rfl
  · intro h; rw [e3 h]; rfl
  · intro h
    obtain ⟨pre, name, rest, g1, g2, g3, g4⟩ := e4 h
    exact ⟨pre, name, rest, g1, by simpa using g2, by simpa using g3, by simpa using g4⟩

/-! ## `CheckTime` -/

/-- C36: `CheckTime` on a message returns; when `MaxBetHeight` and `ExpireHeight` are both
0 it sets `DrivenByAdmin` to true and `ExpireHeight` to 1000000, leaves `MaxBetHeight` at
0 and returns true; otherwise it replaces a zero `MaxBetHeight` and a zero `ExpireHeight`
by 1000000, keeps the nonzero ones and `DrivenByAdmin`, and returns true exactly when the
resulting `MaxBetHeight` is at most the resulting `ExpireHeight`. -/
theorem checkTime_defaults (s : GuessGameStart) :
    ∃ s1 ok, CheckTime (some s) = some (s1, ok) ∧
      (s.MaxBetHeight = 0 ∧ s.ExpireHeight = 0 →
        s1 = { MaxBetHeight := 0, ExpireHeight := 1000000, DrivenByAdmin := true } ∧
        ok = true) ∧
      (¬ (s.MaxBetHeight = 0 ∧ s.ExpireHeight = 0) →
        s1.MaxBetHeight = (if s.MaxBetHeight = 0 then 1000000 else s.MaxBetHeight) ∧
        s1.ExpireHeight = (if s.ExpireHeight = 0 then 1000000 else s.ExpireHeight) ∧
        s1.DrivenByAdmin = s.DrivenByAdmin ∧
        (ok = true ↔ s1.MaxBetHeight ≤ s1.ExpireHeight)) := by
  obtain ⟨m, e, d⟩ := s
  by_cases h : m = 0 ∧ e = 0
  · obtain ⟨hm, he⟩ := h
    subst hm
    subst he
    exact ⟨_, _, rfl, fun _ => ⟨rfl, rfl⟩, fun hn => absurd ⟨rfl, rfl⟩ hn⟩
  · by_cases hm : m = 0 <;> by_cases he : e = 0
    · exact absurd ⟨hm, he⟩ h
    · by_cases hle : (1000000 : Int) ≤ e
      · refine ⟨⟨1000000, e, d⟩, true, ?_, fun hc => absurd hc h, fun _ => ?_⟩
        · simp [CheckTime, hm, he, MaxBetHeight, hle]
        · simp [hm, he, hle]
      · refine ⟨⟨1000000, e, d⟩, false, ?_, fun hc => absurd hc h, fun _ => ?_⟩
        · simp [CheckTime, hm, he, MaxBetHeight, hle]
        · simp [hm, he, hle]
    · by_cases hle : m ≤ (1000000 : Int)
      · refine ⟨⟨m, 1000000, d⟩, true, ?_, fun hc => absurd hc h, fun _ => ?_⟩
        · simp [CheckTime, hm, he, MaxExpireHeight, hle]
        · simp [hm, he, hle]
      · refine ⟨⟨m, 1000000, d⟩, false, ?_, fun hc => absurd hc h, fun _ => ?_⟩
        · simp [CheckTime, hm, he, MaxExpireHeight, hle]
        · simp [hm, he, hle]
    · by_cases hle : m ≤ e
      · refine ⟨⟨m, e, d⟩, true, ?_, fun hc => absurd hc h, fun _ => ?_⟩
        · simp [CheckTime, hm, he, hle]
        · simp [hm, he, hle]
      · refine ⟨⟨m, e, d⟩, false, ?_, fun hc => absurd hc h, fun _ => ?_⟩
        · simp [CheckTime, hm, he, hle]
        · simp [hm, he, hle]

/-- Evaluation of `CheckTime`: both heights 0; only `MaxBetHeight` 0 with a smaller
`ExpireHeight`; only `ExpireHeight` 0; both set and in order; both set and out of order;
and a nil message. -/
theorem checkTime_examples :
    CheckTime (some ⟨0, 0, false⟩) = some (⟨0, 1000000, true⟩, true) ∧
    CheckTime (some ⟨0, 5, false⟩) = some (⟨1000000, 5, false⟩, false) ∧
    CheckTime (some ⟨7, 0, true⟩) = some (⟨7, 1000000, true⟩, true) ∧
    CheckTime (some ⟨3, 9, false⟩) = some (⟨3, 9, false⟩, true) ∧
    CheckTime (some ⟨9, 3, false⟩) = some (⟨9, 3, false⟩, false) ∧
    CheckTime none = none := by
  decide

end executor

namespace price

/-- C27: on every reachable list with entries L, `Insert` of an entry with any height from
1 to 32 returns 1 and leaves the entries that the specification's plain-list insertion
gives: L with the new entry right after the last entry whose Price is at least its own
(at the front if there is none); the result depends on L and the entry only. -/
theorem insert_refines_list_insertion (sl : SkipList) (hr : Reachable sl) (value : SkipValue)
    (lvl : Nat) (hl1 : 1 ≤ lvl) (hl2 : lvl ≤ 32) (es : List SkipValue)
    (he : sl.entries = some es) :
    ∃ sl1, sl.insertAt value lvl = some (sl1, 1) ∧
      sl1.entries = some (insertAfterLastGE value es) ∧
      sl1.walked = some ((insertAfterLastGE value es).map (fun e => e.Value)) ∧
      ∀ draws, ∃ sl2, sl.Insert value draws = some (sl2, 1) ∧
        sl2.entries = some (insertAfterLastGE value es) := by
  obtain ⟨ns, hinv⟩ := reachable_inv hr
  obtain ⟨sl1, ns1, es1, e1, e2, e3, e4, _⟩ := insertAt_refines sl ns value lvl hinv hl1 hl2
  rw [he] at e3
  rw [← Option.some.inj e3] at e4
  refine ⟨sl1, e1, e4, walked_of_entries e2 e4, ?_⟩
  intro draws
  obtain ⟨sl2, ns2, es2, f1, _, f3, f4, _⟩ := Insert_refines sl ns value draws hinv
  rw [he] at f3
  rw [← Option.some.inj f3] at f4
  exact ⟨sl2, f1, f4⟩

/-- Witness for `insert_refines_list_insertion`: an entry of Price 150 and height 7 goes
in front of the one stored entry, whose Price is 100. -/
theorem insert_refines_list_insertion_witness :
    ∃ sl, step (NewSkipList ⟨0, ⟨0, 0⟩⟩) (Op.insert ⟨100, ⟨1, 1⟩⟩ (fun _ => 0))
        = some (sl, Ret.code 1) ∧
      ∃ sl1, sl.insertAt ⟨150, ⟨2, 2⟩⟩ 7 = some (sl1, 1) ∧
        sl1.entries = some (insertAfterLastGE ⟨150, ⟨2, 2⟩⟩ [⟨100, ⟨1, 1⟩⟩]) ∧
        sl1.walked = some ((insertAfterLastGE ⟨150, ⟨2, 2⟩⟩ [⟨100, ⟨1, 1⟩⟩]).map
          (fun e => e.Value)) ∧
        ∀ draws, ∃ sl2, sl.Insert ⟨150, ⟨2, 2⟩⟩ draws = some (sl2, 1) ∧
          sl2.entries = some (insertAfterLastGE ⟨150, ⟨2, 2⟩⟩ [⟨100, ⟨1, 1⟩⟩]) :=
  ⟨_, rfl,
    insert_refines_list_insertion _
      (Reachable.step (Op.insert ⟨100, ⟨1, 1⟩⟩ (fun _ => 0)) (Reachable.new ⟨0, ⟨0, 0⟩⟩) rfl)
      ⟨150, ⟨2, 2⟩⟩ 7 (by decide) (by decide) [⟨100, ⟨1, 1⟩⟩] rfl⟩

theorem foldr_max_eq (f : Nat → Nat) (l : List Nat) (L : Nat) (h1 : 1 ≤ L)
    (h2 : ∀ x ∈ l, f x ≤ L) (h3 : L = 1 ∨ ∃ x ∈ l, f x = L) :
    (l.map f).foldr max 1 = L := by
  have hge : ∀ l : List Nat, 1 ≤ (l.map f).foldr max 1 ∧
      (∀ x ∈ l, f x ≤ (l.map f).foldr max 1) ∧
      ((l.map f).foldr max 1 = 1 ∨ ∃ x ∈ l, f x = (l.map f).foldr max 1) := by
    intro l
    induction l with
    | nil => simp
    | cons a l ih =>
      obtain ⟨i1, i2, i3⟩ := ih
      simp only [List.map_cons, List.foldr_cons]
      refine ⟨le_trans i1 (le_max_right _ _), ?_, ?_⟩
      · intro x hx
        rcases List.mem_cons.1 hx with rfl | hx
        · exact le_max_left _ _
        · exact le_trans (i2 x hx) (le_max_right _ _)
      · rcases le_total (f a) ((l.map f).foldr max 1) with h | h
        · rw [max_eq_right h]
          rcases i3 with h3 | ⟨x, hx, hx2⟩
          · exact Or.inl h3
          · exact Or.inr ⟨x, by simp [hx], hx2⟩
        · rw [max_eq_left h]
          exact Or.inr ⟨a, by simp, rfl⟩
  obtain ⟨g1, g2, g3⟩ := hge l
  apply le_antisymm
  · rcases g3 with h | ⟨x, hx, hx2⟩
    · omega
    · rw [← hx2]; exact h2 x hx
  · rcases h3 with h | ⟨x, hx, hx2⟩
    · omega
    · rw [← hx2]; exact g2 x hx

/-- C28: on every reachable list `level` lies between 1 and 32, `header.next[i]` is nil
for every slot `i` from `level` on, `header.next[level-1]` is not nil when `level > 1`,
and `level` is the maximum of 1 and the heights of the stored nodes. -/
theorem level_is_tallest_height (sl : SkipList) (hr : Reachable sl) :
    1 ≤ sl.level ∧ sl.level ≤ 32 ∧
    (∀ i, sl.level ≤ i → i < 32 → nx sl.nodes i sl.header = some none) ∧
    (1 < sl.level → ∃ y, nx sl.nodes (sl.level - 1) sl.header = some (some y)) ∧
    ∃ ns, sl.forward = some ns ∧ sl.level = (ns.map (ht sl.nodes)).foldr max 1 := by
  obtain ⟨ns, hinv⟩ := reachable_inv hr
  have hhead : ∀ i, i < maxLevel → nx sl.nodes i sl.header
      = some (ns.filter (fun x => decide (i < ht sl.nodes x))).head? :=
    fun i hi => (hinv.links i hi).head
  refine ⟨hinv.level_pos, hinv.level_le, ?_, ?_, ns, forward_eq hinv, ?_⟩
  · intro i hi1 hi2
    rw [hhead i hi2]
    have : ns.filter (fun x => decide (i < ht sl.nodes x)) = [] := by
      rw [List.filter_eq_nil_iff]
      intro x hx
      have := hinv.ht_le x hx
      simp only [decide_eq_true_eq]
      omega
    rw [this]
    rfl
  · intro h1
    rcases hinv.level_tight with h | ⟨x, hx, hx2⟩
    · omega
    · have hlt : sl.level - 1 < maxLevel := by
        have := hinv.level_le
        omega
      rw [hhead _ hlt]
      have hmem : x ∈ ns.filter (fun x => decide (sl.level - 1 < ht sl.nodes x)) := by
        rw [List.mem_filter]
        refine ⟨hx, ?_⟩
        simp only [decide_eq_true_eq]
        omega
      cases hq : ns.filter (fun x => decide (sl.level - 1 < ht sl.nodes x)) with
      | nil => rw [hq] at hmem; simp at hmem
      | cons b l => exact ⟨b, rfl⟩
  · exact (foldr_max_eq (ht sl.nodes) ns sl.level hinv.level_pos hinv.ht_le
      hinv.level_tight).symm

/-- Witness for `level_is_tallest_height`: a list whose one node has height 32. -/
theorem level_is_tallest_height_witness :
    ∃ sl, step (NewSkipList ⟨0, ⟨0, 0⟩⟩) (Op.insert ⟨100, ⟨1, 1⟩⟩ (fun _ => 0))
        = some (sl, Ret.code 1) ∧
      1 ≤ sl.level ∧ sl.level ≤ 32 ∧
      (∀ i, sl.level ≤ i → i < 32 → nx sl.nodes i sl.header = some none) ∧
      (1 < sl.level → ∃ y, nx sl.nodes (sl.level - 1) sl.header = some (some y)) ∧
      ∃ ns, sl.forward = some ns ∧ sl.level = (ns.map (ht sl.nodes)).foldr max 1 :=
  ⟨_, rfl,
    level_is_tallest_height _
      (Reachable.step (Op.insert ⟨100, ⟨1, 1⟩⟩ (fun _ => 0)) (Reachable.new ⟨0, ⟨0, 0⟩⟩) rfl)⟩

/-- C29: on every reachable list `tail` is the last node of the forward sequence, it is
the one stored node whose `Next()` is nil, and it is nil exactly when `count` is 0. -/
theorem tail_is_last_node (sl : SkipList) (hr : Reachable sl) :
    ∃ ns, sl.forward = some ns ∧ sl.tail = ns.getLast? ∧
      (∀ t, sl.tail = some t → Next sl.nodes (some t) = some none) ∧
      (∀ x ∈ ns, Next sl.nodes (some x) = some none → sl.tail = some x) ∧
      (sl.tail = none ↔ sl.count = 0) := by
  obtain ⟨ns, hinv⟩ := reachable_inv hr
  have hp := hinv.links 0 (by unfold maxLevel; omega)
  rw [filter_zero sl.nodes ns hinv.ht_pos] at hp
  refine ⟨ns, forward_eq hinv, hinv.tail_eq, ?_, ?_, ?_⟩
  · intro t ht
    rw [hinv.tail_eq] at ht
    obtain ⟨l, hl⟩ : ∃ l, ns = l ++ [t] := by
      rcases List.eq_nil_or_concat ns with h | ⟨l, b, h⟩
      · rw [h] at ht; simp at ht
      · rw [h] at ht
        simp only [List.concat_eq_append, List.getLast?_concat, Option.some.injEq] at ht
        exact ⟨l, by rw [h, ht]; simp⟩
    rw [hl] at hp
    exact (path_append_cons.1 hp).2
  · intro x hx hnext
    obtain ⟨l1, l2, hl⟩ := List.append_of_mem hx
    rw [hinv.tail_eq, hl]
    rw [hl] at hp
    have h2 := (path_append_cons.1 hp).2
    cases l2 with
    | nil => simp
    | cons b l2 =>
      exfalso
      have h3 : Next sl.nodes (some x) = some (some b) := h2.1
      rw [h3] at hnext
      simp at hnext
  · rw [hinv.tail_eq, hinv.count_eq]
    cases ns with
    | nil => simp
    | cons b l =>
      rw [getLast?_eq_lastOr 0 (by simp)]
      simp
      omega

/-- Witness for `tail_is_last_node`: the list with one entry. -/
theorem tail_is_last_node_witness :
    ∃ sl, step (NewSkipList ⟨0, ⟨0, 0⟩⟩) (Op.insert ⟨100, ⟨1, 1⟩⟩ (fun _ => 0))
        = some (sl, Ret.code 1) ∧
      ∃ ns, sl.forward = some ns ∧ sl.tail = ns.getLast? ∧
        (∀ t, sl.tail = some t → Next sl.nodes (some t) = some none) ∧
        (∀ x ∈ ns, Next sl.nodes (some x) = some none → sl.tail = some x) ∧
        (sl.tail = none ↔ sl.count = 0) :=
  ⟨_, rfl,
    tail_is_last_node _
      (Reachable.step (Op.insert ⟨100, ⟨1, 1⟩⟩ (fun _ => 0)) (Reachable.new ⟨0, ⟨0, 0⟩⟩) rfl)⟩

/-- C30: on every reachable list the chain of every level `i` consists of exactly the
stored nodes of height greater than `i`, in forward order, so for `i ≥ 1` it is a
subsequence of the chain of level `i - 1`; and after a `Delete` that returns 1 the removed
node is on no chain. -/
theorem level_chains_nested (sl : SkipList) (hr : Reachable sl) :
    ∃ ns, sl.forward = some ns ∧
      (∀ i, i < 32 → sl.chain i = some (ns.filter (fun x => decide (i < ht sl.nodes x)))) ∧
      (∀ i, 1 ≤ i → i < 32 →
        ∃ c c0, sl.chain i = some c ∧ sl.chain (i - 1) = some c0 ∧ c.Sublist c0) ∧
      (∀ value sl1, sl.Delete value = some (sl1, 1) →
        ∃ A x B, ns = A ++ x :: B ∧ sl1.forward = some (A ++ B) ∧
          ∀ i, i < 32 → ∃ c, sl1.chain i = some c ∧ x ∉ c) := by
  obtain ⟨ns, hinv⟩ := reachable_inv hr
  refine ⟨ns, forward_eq hinv, fun i hi => chain_eq hinv i hi, ?_, ?_⟩
  · intro i hi1 hi2
    refine ⟨_, _, chain_eq hinv i hi2, chain_eq hinv (i - 1) (by unfold maxLevel; omega), ?_⟩
    apply List.monotone_filter_right
    intro a ha
    simp only [decide_eq_true_eq] at ha ⊢
    omega
  · intro value sl1 hdel
    obtain ⟨sl2, r, pre, post, e1, d2, _, _, e5⟩ := Delete_spec sl ns value hinv
    rw [hdel] at e1
    simp only [Option.some.injEq, Prod.mk.injEq] at e1
    obtain ⟨hsl, hr1⟩ := e1
    subst hsl
    rcases e5 with ⟨h0, _⟩ | ⟨_, x, post1, hpost, _, hinv1, _⟩
    · rw [← hr1] at h0
      exact absurd h0 (by decide)
    · refine ⟨pre, x, post1, by rw [d2, hpost], forward_eq hinv1, ?_⟩
      intro i hi
      refine ⟨_, chain_eq hinv1 i hi, ?_⟩
      intro hx
      have hx2 := (List.mem_filter.1 hx).1
      have hnd := hinv.nodup
      rw [d2, hpost, List.nodup_append] at hnd
      rcases List.mem_append.1 hx2 with h | h
      · exact hnd.2.2 h (List.mem_cons_self _ _)
      · exact (List.nodup_cons.1 hnd.2.1).1 h

/-- Witness for `level_chains_nested`: a list whose one node has height 32. -/
theorem level_chains_nested_witness :
    ∃ sl, step (NewSkipList ⟨0, ⟨0, 0⟩⟩) (Op.insert ⟨100, ⟨1, 1⟩⟩ (fun _ => 0))
        = some (sl, Ret.code 1) ∧
      ∃ ns, sl.forward = some ns ∧
        (∀ i, i < 32 → sl.chain i = some (ns.filter (fun x => decide (i < ht sl.nodes x)))) ∧
        (∀ i, 1 ≤ i → i < 32 →
          ∃ c c0, sl.chain i = some c ∧ sl.chain (i - 1) = some c0 ∧ c.Sublist c0) ∧
        (∀ value sl1, sl.Delete value = some (sl1, 1) →
          ∃ A x B, ns = A ++ x :: B ∧ sl1.forward = some (A ++ B) ∧
            ∀ i, i < 32 → ∃ c, sl1.chain i = some c ∧ x ∉ c) :=
  ⟨_, rfl,
    level_chains_nested _
      (Reachable.step (Op.insert ⟨100, ⟨1, 1⟩⟩ (fun _ => 0)) (Reachable.new ⟨0, ⟨0, 0⟩⟩) rfl)⟩

/-! ## Counting the entries -/

theorem callsUntilFalse_counted {σ : Type} (cb : σ → Item → σ × Bool)
    (htrue : ∀ s it, (cb s it).2 = true) (l : List Item) :
    ∀ (s : σ) (k : Nat), (callsUntilFalse (counted cb) (s, k) l).2 = k + l.length := by
  induction l with
  | nil => intro s k; simp [callsUntilFalse]
  | cons a l ih =>
    intro s k
    simp only [callsUntilFalse, counted, htrue, if_true, List.length_cons]
    have := ih (cb s a).1 (k + 1)
    simp only [counted] at this
    rw [this]
    omega

/-- C31: on every reachable list `Len()` is the number of nodes on the level-0 chain after
the header, and a `Walk` whose callback always returns true returns after invoking it
exactly `Len()` times. -/
theorem len_counts_level0_chain (sl : SkipList) (hr : Reachable sl) :
    (∃ c, sl.chain 0 = some c ∧ sl.Len = c.length) ∧
    (∃ l, sl.walked = some l ∧ sl.Len = l.length) ∧
    ∀ (σ : Type) (cb : σ → Item → σ × Bool) (s : σ), (∀ t it, (cb t it).2 = true) →
      ∃ s1 n, sl.Walk (some (counted cb)) (s, 0) = some (s1, n) ∧ sl.Len = n := by
  obtain ⟨ns, hinv⟩ := reachable_inv hr
  refine ⟨⟨ns, ?_, ?_⟩, ⟨_, walked_eq hinv, ?_⟩, ?_⟩
  · rw [chain_eq hinv 0 (by unfold maxLevel; omega), filter_zero sl.nodes ns hinv.ht_pos]
  · simp [SkipList.Len, hinv.count_eq]
  · simp [SkipList.Len, hinv.count_eq]
  · intro σ cb s htrue
    refine ⟨(callsUntilFalse (counted cb) (s, 0)
        (ns.map (fun x => (sl.nodes x).Value.Value))).1,
      (callsUntilFalse (counted cb) (s, 0) (ns.map (fun x => (sl.nodes x).Value.Value))).2,
      Walk_eq hinv (counted cb) (s, 0), ?_⟩
    rw [callsUntilFalse_counted cb htrue]
    simp [SkipList.Len, hinv.count_eq]

/-- Witness for `len_counts_level0_chain`: the list with one entry. -/
theorem len_counts_level0_chain_witness :
    ∃ sl, step (NewSkipList ⟨0, ⟨0, 0⟩⟩) (Op.insert ⟨100, ⟨1, 1⟩⟩ (fun _ => 0))
        = some (sl, Ret.code 1) ∧
      (∃ c, sl.chain 0 = some c ∧ sl.Len = c.length) ∧
      (∃ l, sl.walked = some l ∧ sl.Len = l.length) ∧
      ∀ (σ : Type) (cb : σ → Item → σ × Bool) (s : σ), (∀ t it, (cb t it).2 = true) →
        ∃ s1 n, sl.Walk (some (counted cb)) (s, 0) = some (s1, n) ∧ sl.Len = n :=
  ⟨_, rfl,
    len_counts_level0_chain _
      (Reachable.step (Op.insert ⟨100, ⟨1, 1⟩⟩ (fun _ => 0)) (Reachable.new ⟨0, ⟨0, 0⟩⟩) rfl)⟩

/-! ## Price order on every level -/

/-- C33: on every reachable list, whatever calls produced it and whatever the heights of
its nodes, the chain of every level exists and the Prices of the entries along it are in
non-increasing order. -/
theorem every_level_price_sorted (sl : SkipList) (hr : Reachable sl) :
    ∀ i, i < 32 → ∃ c, sl.chain i = some c ∧
      (c.map (fun x => (sl.nodes x).Value.Price)).Pairwise (fun p q => q ≤ p) := by
  obtain ⟨ns, hinv⟩ := reachable_inv hr
  intro i hi
  refine ⟨_, chain_eq hinv i hi, ?_⟩
  exact hinv.sorted.sublist (List.Sublist.map _ (List.filter_sublist _))

/-- Witness for `every_level_price_sorted`: two entries, the cheaper one inserted first,
both of height 32. -/
theorem every_level_price_sorted_witness :
    ∃ sl, run (NewSkipList ⟨0, ⟨0, 0⟩⟩)
        [Op.insert ⟨100, ⟨1, 1⟩⟩ (fun _ => 0), Op.insert ⟨200, ⟨2, 2⟩⟩ (fun _ => 0)]
        = some (sl, [Ret.code 1, Ret.code 1]) ∧
      ∀ i, i < 32 → ∃ c, sl.chain i = some c ∧
        (c.map (fun x => (sl.nodes x).Value.Price)).Pairwise (fun p q => q ≤ p) :=
  ⟨_, rfl,
    every_level_price_sorted _
      (Reachable.step (Op.insert ⟨200, ⟨2, 2⟩⟩ (fun _ => 0))
        (Reachable.step (Op.insert ⟨100, ⟨1, 1⟩⟩ (fun _ => 0)) (Reachable.new ⟨0, ⟨0, 0⟩⟩) rfl)
        rfl)⟩

/-! ## What a successful `Delete` removes -/

/-- C35: on every reachable list, when `Delete(k)` returns 1 the entries afterwards are
the entries before with exactly one entry `e` taken out, everything else in place and in
order, `e.Compare(k)` is 0, the `Walk` sequences before and after are the payloads of
those entries, and `count` has gone down by exactly 1. -/
theorem delete_removes_one_matching_entry (sl : SkipList) (hr : Reachable sl) (k : SkipValue)
    (sl1 : SkipList) (hd : sl.Delete k = some (sl1, 1)) :
    ∃ A e B, sl.entries = some (A ++ e :: B) ∧ e.Compare k = 0 ∧
      sl1.entries = some (A ++ B) ∧
      sl.walked = some ((A ++ e :: B).map (fun x => x.Value)) ∧
      sl1.walked = some ((A ++ B).map (fun x => x.Value)) ∧
      sl1.count = sl.count - 1 ∧ sl1.Len = sl.Len - 1 := by
  obtain ⟨ns, hinv⟩ := reachable_inv hr
  obtain ⟨sl2, r, ns1, e1, hinv1, _, _, e5⟩ := Delete_entries sl ns k hinv
  rw [hd] at e1
  simp only [Option.some.injEq, Prod.mk.injEq] at e1
  obtain ⟨hsl, hr1⟩ := e1
  subst hsl
  rcases e5 with ⟨h0, _⟩ | ⟨_, A, e, B, f1, f2, f3, f4⟩
  · rw [← hr1] at h0
    exact absurd h0 (by decide)
  · exact ⟨A, e, B, f1, f2, f3, walked_of_entries hinv f1, walked_of_entries hinv1 f3, f4, f4⟩

/-- Witness for `delete_removes_one_matching_entry`: from the entries of Prices 200 and
100, `Delete` with the key of the second one returns 1. -/
theorem delete_removes_one_matching_entry_witness :
    ∃ sl, run (NewSkipList ⟨0, ⟨0, 0⟩⟩)
        [Op.insert ⟨100, ⟨1, 1⟩⟩ (fun _ => 0), Op.insert ⟨200, ⟨2, 2⟩⟩ (fun _ => 0)]
        = some (sl, [Ret.code 1, Ret.code 1]) ∧
      ∃ sl1, sl.Delete ⟨100, ⟨1, 0⟩⟩ = some (sl1, 1) ∧
        ∃ A e B, sl.entries = some (A ++ e :: B) ∧ e.Compare ⟨100, ⟨1, 0⟩⟩ = 0 ∧
          sl1.entries = some (A ++ B) ∧
          sl.walked = some ((A ++ e :: B).map (fun x => x.Value)) ∧
          sl1.walked = some ((A ++ B).map (fun x => x.Value)) ∧
          sl1.count = sl.count - 1 ∧ sl1.Len = sl.Len - 1 :=
  ⟨_, rfl, _, rfl,
    delete_removes_one_matching_entry _
      (Reachable.step (Op.insert ⟨200, ⟨2, 2⟩⟩ (fun _ => 0))
        (Reachable.step (Op.insert ⟨100, ⟨1, 1⟩⟩ (fun _ => 0)) (Reachable.new ⟨0, ⟨0, 0⟩⟩) rfl)
        rfl)
      ⟨100, ⟨1, 0⟩⟩ _ rfl⟩

/-! ## Searches on lists sorted by the ordering rule -/

theorem byRule_split (es : List SkipValue) (k : SkipValue) (h : ByRule es) :
    ∃ A B, es = A ++ B ∧ (∀ a ∈ A, a.Compare k < 0) ∧ (∀ b ∈ B, ¬ b.Compare k < 0) := by
  induction es with
  | nil => exact ⟨[], [], rfl, by simp, by simp⟩
  | cons e l ih =>
    unfold ByRule at h ih
    obtain ⟨he, hl⟩ := List.pairwise_cons.1 h
    by_cases hc : e.Compare k < 0
    · obtain ⟨A, B, h1, h2, h3⟩ := ih hl
      refine ⟨e :: A, B, by rw [h1]; rfl, ?_, h3⟩
      intro a ha
      rcases List.mem_cons.1 ha with rfl | ha
      · exact hc
      · exact h2 a ha
    · refine ⟨[], e :: l, rfl, by simp, ?_⟩
      intro b hb
      rcases List.mem_cons.1 hb with rfl | hb
      · exact hc
      · intro hbk
        apply hc
        have hr := he b hb
        rw [compare_lt_zero_iff] at hbk ⊢
        omega

/-- C34: on every reachable list whose entries are sorted by the ordering rule, and for
every key `k` that some stored entry carries (same Price, same arrival order), whatever
the heights of the nodes: `Find(k)` returns the first entry in forward order whose Price
and arrival order both equal those of `k`, and `Delete(k)` returns 1 and removes exactly
that entry, leaving all other entries in place. -/
theorem sorted_find_delete_first_match (sl : SkipList) (hr : Reachable sl)
    (es : List SkipValue) (he : sl.entries = some es) (hs : ByRule es) (k : SkipValue)
    (hk : ∃ e ∈ es, e.Price = k.Price ∧ e.Value.EnterTime = k.Value.EnterTime) :
    ∃ A e B, es = A ++ e :: B ∧
      e.Price = k.Price ∧ e.Value.EnterTime = k.Value.EnterTime ∧
      (∀ a ∈ A, ¬ (a.Price = k.Price ∧ a.Value.EnterTime = k.Value.EnterTime)) ∧
      (∃ sl2, sl.Find k = some (sl2, some e) ∧ sl2.entries = some es) ∧
      ∃ sl1, sl.Delete k = some (sl1, 1) ∧ sl1.entries = some (A ++ B) ∧
        sl1.walked = some ((A ++ B).map (fun x => x.Value)) ∧ sl1.Len = sl.Len - 1 := by
  obtain ⟨ns, hinv⟩ := reachable_inv hr
  obtain ⟨A, B, hAB, hA, hB⟩ := byRule_split es k hs
  obtain ⟨e0, he0, hp0, ht0⟩ := hk
  have hnot0 : ¬ e0.Compare k < 0 := by
    rw [compare_lt_zero_iff]
    omega
  have he0B : e0 ∈ B := by
    rw [hAB] at he0
    rcases List.mem_append.1 he0 with h | h
    · exact absurd (hA e0 h) hnot0
    · exact h
  cases B with
  | nil => simp at he0B
  | cons b B1 =>
    have hbn : ¬ b.Compare k < 0 := hB b (List.mem_cons_self _ _)
    have hrel : b = e0 ∨ (e0.Price < b.Price ∨
        (b.Price = e0.Price ∧ b.Value.EnterTime ≤ e0.Value.EnterTime)) := by
      rcases List.mem_cons.1 he0B with h | h
      · exact Or.inl h.symm
      · right
        unfold ByRule at hs
        rw [hAB] at hs
        exact (List.pairwise_cons.1 (List.pairwise_append.1 hs).2.1).1 e0 h
    have hbp : k.Price ≤ b.Price := by
      rcases hrel with h | h
      · rw [h]; omega
      · omega
    have hb0 : b.Compare k = 0 := compare_zero_of_not_neg b k hbn hbp
    have hbk := (compare_eq_zero_iff b k).1 hb0
    have hbt : b.Value.EnterTime = k.Value.EnterTime := by
      rcases hrel with h | h
      · rw [h]; exact ht0
      · omega
    rw [hAB] at he
    refine ⟨A, b, B1, hAB, hbk.1, hbt, ?_, ?_, ?_⟩
    · intro a ha hak
      have := hA a ha
      rw [compare_lt_zero_iff] at this
      omega
    · obtain ⟨c, hf⟩ := Find_entries_mono sl ns k hinv A (b :: B1) he hA hB
      refine ⟨{ sl with findcount := c }, ?_, ?_⟩
      · rw [hf]
        simp [hb0]
      · rw [entries_eq (inv_findcount hinv c), hAB, ← he, entries_eq hinv]
    · obtain ⟨sl1, r, ns1, d1, hinv1, _, _, _, d5⟩ :=
        Delete_entries_mono sl ns k hinv A (b :: B1) he hA hB
      obtain ⟨r1, d6, d7⟩ := d5 b B1 rfl hb0
      rw [r1] at d1
      exact ⟨sl1, d1, d6, walked_of_entries hinv1 d6, d7⟩

/-- Witness for `sorted_find_delete_first_match`: the entries of Prices 200 and 100, and
the key of the second one. -/
theorem sorted_find_delete_first_match_witness :
    ∃ sl, run (NewSkipList ⟨0, ⟨0, 0⟩⟩)
        [Op.insert ⟨100, ⟨1, 1⟩⟩ (fun _ => 0), Op.insert ⟨200, ⟨2, 2⟩⟩ (fun _ => 0)]
        = some (sl, [Ret.code 1, Ret.code 1]) ∧
      ∃ A e B, [(⟨200, ⟨2, 2⟩⟩ : SkipValue), ⟨100, ⟨1, 1⟩⟩] = A ++ e :: B ∧
        e.Price = 100 ∧ e.Value.EnterTime = 1 ∧
        (∀ a ∈ A, ¬ (a.Price = 100 ∧ a.Value.EnterTime = 1)) ∧
        (∃ sl2, sl.Find ⟨100, ⟨1, 7⟩⟩ = some (sl2, some e) ∧
          sl2.entries = some [⟨200, ⟨2, 2⟩⟩, ⟨100, ⟨1, 1⟩⟩]) ∧
        ∃ sl1, sl.Delete ⟨100, ⟨1, 7⟩⟩ = some (sl1, 1) ∧ sl1.entries = some (A ++ B) ∧
          sl1.walked = some ((A ++ B).map (fun x => x.Value)) ∧ sl1.Len = sl.Len - 1 :=
  ⟨_, rfl,
    sorted_find_delete_first_match _
      (Reachable.step (Op.insert ⟨200, ⟨2, 2⟩⟩ (fun _ => 0))
        (Reachable.step (Op.insert ⟨100, ⟨1, 1⟩⟩ (fun _ => 0)) (Reachable.new ⟨0, ⟨0, 0⟩⟩) rfl)
        rfl)
      [⟨200, ⟨2, 2⟩⟩, ⟨100, ⟨1, 1⟩⟩] (by decide) (by decide) ⟨100, ⟨1, 7⟩⟩
      ⟨⟨100, ⟨1, 1⟩⟩, by decide, rfl, rfl⟩⟩

/-! ## The height drawn by `randomLevel` -/

theorem leadingBelow_le (draws : Nat → Nat) : ∀ n k, leadingBelow draws n k ≤ n := by
  intro n
  induction n with
  | zero => intro k; simp [leadingBelow]
  | succ n ih =>
    intro k
    simp only [leadingBelow]
    split_ifs
    · have := ih (k + 1); omega
    · omega

theorem leadingBelow_all (draws : Nat → Nat) :
    ∀ n k, (∀ j, j < n → draws (k + j) % 65536 < 22937) → leadingBelow draws n k = n := by
  intro n
  induction n with
  | zero => intro k _; simp [leadingBelow]
  | succ n ih =>
    intro k h
    have h0 := h 0 (by omega)
    simp only [Nat.add_zero] at h0
    simp only [leadingBelow, h0, if_true]
    rw [ih (k + 1) (fun j hj => by have := h (j + 1) (by omega); rwa [Nat.add_assoc, Nat.add_comm 1 j])]
    omega

theorem leadingBelow_first (draws : Nat → Nat) :
    ∀ n k m, m < n → (∀ j, j < m → draws (k + j) % 65536 < 22937) →
      ¬ draws (k + m) % 65536 < 22937 → leadingBelow draws n k = m := by
  intro n
  induction n with
  | zero => intro k m hm; omega
  | succ n ih =>
    intro k m hm h hf
    cases m with
    | zero =>
      simp only [Nat.add_zero] at hf
      simp only [leadingBelow, hf, if_false]
    | succ m =>
      have h0 := h 0 (by omega)
      simp only [Nat.add_zero] at h0
      simp only [leadingBelow, h0, if_true]
      rw [ih (k + 1) m (by omega)
        (fun j hj => by have := h (j + 1) (by omega); rwa [Nat.add_assoc, Nat.add_comm 1 j])
        (by rwa [Nat.add_assoc, Nat.add_comm 1 m])]
      omega

theorem leadingBelow_congr (d1 d2 : Nat → Nat) :
    ∀ n k, (∀ j, j < n → d2 (k + j) = d1 (k + j)) →
      leadingBelow d2 n k = leadingBelow d1 n k := by
  intro n
  induction n with
  | zero => intro k _; simp [leadingBelow]
  | succ n ih =>
    intro k h
    have h0 := h 0 (by omega)
    simp only [Nat.add_zero] at h0
    simp only [leadingBelow, h0]
    rw [ih (k + 1) (fun j hj => by have := h (j + 1) (by omega); rwa [Nat.add_assoc, Nat.add_comm 1 j])]

theorem randomLevelLoop_eq (draws : Nat → Nat) :
    ∀ fuel k level n, level < 32 → 32 - level ≤ fuel → 32 - level ≤ n →
      randomLevelLoop draws fuel k level = min (level + leadingBelow draws n k) 32 ∧
      randomLevelCalls draws fuel k level
        = some (min (level + leadingBelow draws n k) 32,
            k + min (leadingBelow draws n k + 1) (32 - level)) := by
  intro fuel
  induction fuel with
  | zero => intro k level n h1 h2; omega
  | succ fuel ih =>
    intro k level n h1 h2 h3
    cases n with
    | zero => omega
    | succ n =>
      simp only [randomLevelLoop, randomLevelCalls, leadingBelow, maxLevel]
      by_cases hp : draws k % 65536 < 22937
      · simp only [hp, if_true]
        by_cases hl : level + 1 = 32
        · simp only [hl, if_true]
          refine ⟨by omega, ?_⟩
          congr 2 <;> omega
        · simp only [hl, if_false]
          obtain ⟨i1, i2⟩ := ih (k + 1) (level + 1) n (by omega) (by omega) (by omega)
          rw [i1, i2]
          refine ⟨by omega, ?_⟩
          congr 2 <;> omega
      · simp only [hp, if_false]
        refine ⟨by omega, ?_⟩
        congr 2 <;> omega

/-- C32: for every stream of random integers `randomLevel` ends after at most 31 calls of
`rand.Int()` and returns a height between 1 and 32, which is 1 plus the number of leading
draws whose low 16 bits are below 22937, capped at 32; 22937 is the integer part of
0.35 * 65535, and the result depends on the first 31 draws only. -/
theorem randomLevel_height (draws : Nat → Nat) :
    1 ≤ randomLevel draws ∧ randomLevel draws ≤ 32 ∧
    (∀ n, 31 ≤ n → randomLevel draws = min (1 + leadingBelow draws n 0) 32) ∧
    (∃ calls, calls ≤ 31 ∧ calls = min (leadingBelow draws 31 0 + 1) 31 ∧
      ∀ fuel, 31 ≤ fuel → randomLevelCalls draws fuel 0 1 = some (randomLevel draws, calls)) ∧
    (∀ m, (∀ j, j < m → draws j % 65536 < 22937) → ¬ draws m % 65536 < 22937 →
      randomLevel draws = min (1 + m) 32) ∧
    ((∀ j, j < 31 → draws j % 65536 < 22937) → randomLevel draws = 32) ∧
    (∀ draws2, (∀ j, j < 31 → draws2 j = draws j) → randomLevel draws2 = randomLevel draws) ∧
    35 * 65535 / 100 = 22937 := by
  have hrl : ∀ d : Nat → Nat, ∀ n, 31 ≤ n →
      randomLevel d = min (1 + leadingBelow d n 0) 32 := fun d n hn =>
    (randomLevelLoop_eq d maxLevel 0 1 n (by omega) (by unfold maxLevel; omega) (by omega)).1
  have h31 := hrl draws 31 (le_refl _)
  have hle := leadingBelow_le draws 31 0
  refine ⟨by omega, by omega, hrl draws, ⟨min (leadingBelow draws 31 0 + 1) 31, by omega, rfl, ?_⟩,
    ?_, ?_, ?_, by decide⟩
  · intro fuel hf
    rw [(randomLevelLoop_eq draws fuel 0 1 31 (by omega) (by omega) (by omega)).2, h31]
    congr 2
    omega
  · intro m hm hfail
    by_cases h : m < 31
    · rw [h31, leadingBelow_first draws 31 0 m h (fun j hj => by simpa using hm j hj)
        (by simpa using hfail)]
    · rw [h31, leadingBelow_all draws 31 0 (fun j hj => by simpa using hm j (by omega))]
      omega
  · intro hall
    rw [h31, leadingBelow_all draws 31 0 (fun j hj => by simpa using hall j hj)]
    rfl
  · intro draws2 hagree
    rw [h31, hrl draws2 31 (le_refl _),
      leadingBelow_congr draws draws2 31 0 (fun j hj => by simpa using hagree j hj)]

/-- Evaluation of `randomLevel` on three streams: a first draw that does not promote gives
height 1 after one call, three promoting draws followed by one that does not give height 4
after four calls, and a stream that always promotes gives height 32 after 31 calls. -/
theorem randomLevel_examples :
    randomLevelCalls (fun _ => 22937) 32 0 1 = some (1, 1) ∧
    randomLevelCalls (fun k => if k < 3 then 65536 + 22936 else 22937) 32 0 1 = some (4, 4) ∧
    randomLevelCalls (fun _ => 0) 32 0 1 = some (32, 31) ∧
    randomLevel (fun _ => 22937) = 1 ∧
    randomLevel (fun k => if k < 3 then 65536 + 22936 else 22937) = 4 ∧
    randomLevel (fun _ => 0) = 32 := by
  decide

end price
